import Mathlib

/-!
Verification of the TallyCodeEditor data-model core: the XML codec
(src/lib/xmlUtils.js), the path-addressed document store (src/lib/store.js),
the row-flattening engine and advanced filters (src/components/DataTable.jsx)
and the filter query language (src/lib/filterParser.js).

JavaScript values that can occur in a decoded document are modelled by
`JValue` (strings, objects as ordered key/value lists, arrays, and null).
Paths mix string keys and numeric indices, as the JS code mixes strings and
numbers inside path arrays; `Seg` keeps the two apart and the access
functions reproduce the JavaScript property-access coercions (an array
indexed with the canonical decimal string of `i` yields element `i`).
-/

/-- A JavaScript value as it occurs in a decoded XML document: a string
scalar, an object (an ordered association list, as JS objects with
non-integer-like string keys preserve insertion order), an array, or null. -/
inductive JValue where
  | null : JValue
  | str : String → JValue
  | obj : List (String × JValue) → JValue
  | arr : List JValue → JValue

mutual

def JValue.beq : JValue → JValue → Bool
  | .null, .null => true
  | .str a, .str b => a == b
  | .obj a, .obj b => JValue.beqKVs a b
  | .arr a, .arr b => JValue.beqArr a b
  | _, _ => false

def JValue.beqKVs : List (String × JValue) → List (String × JValue) → Bool
  | [], [] => true
  | (k, v) :: xs, (k', v') :: ys => k == k' && JValue.beq v v' && JValue.beqKVs xs ys
  | _, _ => false

def JValue.beqArr : List JValue → List JValue → Bool
  | [], [] => true
  | x :: xs, y :: ys => JValue.beq x y && JValue.beqArr xs ys
  | _, _ => false

end

mutual

theorem JValue.beq_iff : ∀ a b : JValue, JValue.beq a b = true ↔ a = b
  | .null, .null => by simp [JValue.beq]
  | .null, .str _ | .null, .obj _ | .null, .arr _ => by simp [JValue.beq]
  | .str _, .null | .str _, .obj _ | .str _, .arr _ => by simp [JValue.beq]
  | .obj _, .null | .obj _, .str _ | .obj _, .arr _ => by simp [JValue.beq]
  | .arr _, .null | .arr _, .str _ | .arr _, .obj _ => by simp [JValue.beq]
  | .str a, .str b => by simp [JValue.beq]
  | .obj a, .obj b => by
      simp only [JValue.beq, JValue.beqKVs_iff a b, JValue.obj.injEq]
  | .arr a, .arr b => by
      simp only [JValue.beq, JValue.beqArr_iff a b, JValue.arr.injEq]

theorem JValue.beqKVs_iff : ∀ a b : List (String × JValue), JValue.beqKVs a b = true ↔ a = b
  | [], [] => by simp [JValue.beqKVs]
  | [], _ :: _ => by simp [JValue.beqKVs]
  | _ :: _, [] => by simp [JValue.beqKVs]
  | (k, v) :: xs, (k', v') :: ys => by
      simp [JValue.beqKVs, JValue.beq_iff v v', JValue.beqKVs_iff xs ys, Prod.ext_iff,
        and_assoc]

theorem JValue.beqArr_iff : ∀ a b : List JValue, JValue.beqArr a b = true ↔ a = b
  | [], [] => by simp [JValue.beqArr]
  | [], _ :: _ => by simp [JValue.beqArr]
  | _ :: _, [] => by simp [JValue.beqArr]
  | x :: xs, y :: ys => by
      simp [JValue.beqArr, JValue.beq_iff x y, JValue.beqArr_iff xs ys]

end

instance : DecidableEq JValue :=
  fun a b => decidable_of_iff _ (JValue.beq_iff a b)

/-- One segment of a path: a string key or a numeric index, mirroring the
heterogeneous string/number path arrays the JS code builds. -/
inductive Seg where
  | key : String → Seg
  | idx : Nat → Seg
deriving DecidableEq

/-- The decimal numeral JavaScript produces for a natural number
(String(n)); built on Nat.digits so that injectivity is provable. -/
def digitChar (d : Nat) : Char :=
  match d with
  | 0 => '0' | 1 => '1' | 2 => '2' | 3 => '3' | 4 => '4'
  | 5 => '5' | 6 => '6' | 7 => '7' | 8 => '8' | 9 => '9'
  | _ => '*'

def natStr (n : Nat) : String :=
  if n = 0 then "0" else ⟨((Nat.digits 10 n).map digitChar).reverse⟩

/-- First value for an exactly matching key, as JS object property lookup
over our ordered representation (keys are unique in practice; JS keeps one
entry per key). -/
def lookupKey (kvs : List (String × JValue)) (k : String) : Option JValue :=
  (kvs.find? (fun p => p.1 == k)).map (fun p => p.2)

/-- One JS property-access step `current[seg]`, paired with the canonical
form of the segment (on objects the property name: numeric segments access
the property named by their decimal string; on arrays the numeric index: a
string key accesses an element exactly when it is the canonical decimal
numeral of an index in range, per JS array index semantics). Two segments
alias the same location iff they have the same canonical form. -/
def canonChild : JValue → Seg → Option (Seg × JValue)
  | JValue.obj kvs, Seg.key k => (lookupKey kvs k).map (fun v => (Seg.key k, v))
  | JValue.obj kvs, Seg.idx n =>
      (lookupKey kvs (natStr n)).map (fun v => (Seg.key (natStr n), v))
  | JValue.arr xs, Seg.idx n => (xs[n]?).map (fun v => (Seg.idx n, v))
  | JValue.arr xs, Seg.key k =>
      ((List.range xs.length).find? (fun i => natStr i == k)).bind
        (fun i => (xs[i]?).map (fun v => (Seg.idx i, v)))
  | _, _ => none

/-- One JS property-access step `current[seg]`; undefined on a miss. -/
def jsChild (v : JValue) (s : Seg) : Option JValue :=
  (canonChild v s).map (fun p => p.2)

/-- Path resolution as lodash.get performs it over an array path: resolve
each segment in order, undefined on any miss (spec: `get(document, path)`).
-/
def jsGet (v : JValue) : List Seg → Option JValue
  | [] => some v
  | s :: rest =>
    match jsChild v s with
    | some c => jsGet c rest
    | none => none

/-- JavaScript whitespace as used by String.trim and by the regex class \s
(which includes the BOM U+FEFF). -/
def isJsSpace (c : Char) : Bool :=
  let n := c.toNat
  (9 ≤ n && n ≤ 13) || n == 32 || n == 0xA0 || n == 0x1680 ||
  (0x2000 ≤ n && n ≤ 0x200A) || n == 0x2028 || n == 0x2029 ||
  n == 0x202F || n == 0x205F || n == 0x3000 || n == 0xFEFF
def jsTrimList (cs : List Char) : List Char :=
  ((cs.dropWhile isJsSpace).reverse.dropWhile isJsSpace).reverse

/-- JavaScript String.prototype.trim. -/
def jsTrim (s : String) : String :=
  ⟨jsTrimList s.data⟩

/-- JavaScript String.prototype.toLowerCase, modelled per character. -/
def lowerStr (s : String) : String :=
  ⟨s.data.map Char.toLower⟩

/-! ## Case-insensitive lookup (DataTable.jsx, caseInsensitiveGet)

The JS function walks `pathSegments`; at each step it requires
`typeof current === 'object' && current !== null` (objects and arrays pass,
strings and null fail), searches `Object.keys(current)` for the first key
whose toLowerCase equals the segment's toLowerCase, and records the actual
key. For arrays, Object.keys enumerates the canonical index numerals in
order. -/

/-- One step of caseInsensitiveGet: the matched actual key (as JS pushes it,
index numerals for arrays) together with the child value. -/
def ciChild : JValue → String → Option (String × JValue)
  | JValue.obj kvs, s =>
      (kvs.find? (fun p => lowerStr p.1 == lowerStr s)).map (fun p => (p.1, p.2))
  | JValue.arr xs, s =>
      ((List.range xs.length).find? (fun i => lowerStr (natStr i) == lowerStr s)).bind
        (fun i => (xs[i]?).map (fun v => (natStr i, v)))
  | _, _ => none

/-- caseInsensitiveGet: the found value and the actual case-sensitive path,
or none when some segment misses (the JS returns value undefined and
actualPath null in that case). -/
def ciGet : JValue → List String → Option (JValue × List String)
  | v, [] => some (v, [])
  | v, s :: rest =>
    match ciChild v s with
    | some (k, c) => (ciGet c rest).map (fun p => (p.1, k :: p.2))
    | none => none

/-- String.prototype.startsWith, via list prefixing so that concrete
instances reduce in the kernel. -/
def strStartsWith (s t : String) : Bool :=
  t.data.isPrefixOf s.data

/-- JS String.prototype.split('.') (the empty string splits to [""]). -/
def splitDotsAux : List Char → List Char → List (List Char)
  | [], acc => [acc.reverse]
  | c :: rest, acc =>
      if c = '.' then acc.reverse :: splitDotsAux rest [] else splitDotsAux rest (c :: acc)

def splitDots (s : String) : List String :=
  (splitDotsAux s.data []).map (fun l => ⟨l⟩)

/-- Array.prototype.join('.'). -/
def joinDots : List String → String
  | [] => ""
  | [s] => s
  | s :: rest => s ++ "." ++ joinDots rest


/-! ## Column definitions and the row-flattening engine (DataTable.jsx) -/

/-- A column definition: a plain field name, or a composite parent-path +
child-field descriptor (the JS object `{parent, child}`). -/
inductive Header where
  | plain : String → Header
  | comp : List String → String → Header
deriving DecidableEq

/-- getHeaderKey: composite headers key as `PARENT.JOINED.CHILD`. -/
def getHeaderKey : Header → String
  | Header.plain s => s
  | Header.comp parent child => joinDots parent ++ "." ++ child

/-- One cell of a flattened row: `{value, path}`; either slot may be
undefined. -/
structure Cell where
  value : Option JValue
  path : Option (List Seg)
deriving DecidableEq

/-- A context entry: the deepest nested item reached for an expansion level
together with its resolved path. -/
structure Ctx where
  item : JValue
  path : List Seg
deriving DecidableEq

/-- A work-in-progress flattened row: cell values keyed by header key, plus
the context map keyed by the dotted parent path. Both maps are insertion
ordered, as JS objects are. -/
structure Wip where
  values : List (String × Cell)
  contexts : List (String × Ctx)
deriving DecidableEq

/-- JS object upsert `{ ...m, [k]: v }` / `m[k] = v`: an existing key keeps
its position and gets the new value, a new key is appended. -/
def upsert {α : Type} (m : List (String × α)) (k : String) (v : α) : List (String × α) :=
  if m.any (fun p => p.1 == k) then
    m.map (fun p => if p.1 == k then (k, v) else p)
  else m ++ [(k, v)]

/-- A finished flattened row: the cells plus the originating top-level row
index (`__originalIndex`). -/
structure FlatRow where
  values : List (String × Cell)
  originalIndex : Nat
deriving DecidableEq

/-- Splitting a dotted context key as `longestPrefix.split('.').filter(Boolean)`:
JS splits the empty string to [""], which filter(Boolean) empties. -/
def dotSegCount (s : String) : Nat :=
  ((splitDots s).filter (fun t => t ≠ "")).length

/-- The cell a simple (string) header produces for a row (DataTable.jsx
lines 66-99): the special name `value` takes the row itself; on an object
or array row an `@`-prefixed name resolves
`['@attributes', ...rest-split-on-dots]` and any other name is a single
case-insensitive key; on a bare string row the `#text` fallback yields the
row itself (JS `typeof row !== 'object'`, so not for null), and anything
else is an empty cell. -/
def simpleCell (row : JValue) (rowIndex : Nat) (basePath : List Seg)
    (header : String) : Cell :=
  let segs : List String :=
    if strStartsWith header "@" then
      "@attributes" :: splitDots (header.drop 1)
    else
      [header]
  let ciCell : Cell :=
    match ciGet row segs with
    | some (v, actual) =>
        ⟨some v, some (basePath ++ [Seg.idx rowIndex] ++ actual.map Seg.key)⟩
    | none => ⟨none, none⟩
  if header = "value" then
    ⟨some row, some (basePath ++ [Seg.idx rowIndex])⟩
  else
    match row with
    | JValue.obj _ => ciCell
    | JValue.arr _ => ciCell
    | JValue.str _ =>
        if header = "#text" then ⟨some row, some (basePath ++ [Seg.idx rowIndex])⟩
        else ⟨none, none⟩
    | JValue.null => ⟨none, none⟩

/-- Processing one simple header for one work-in-progress row. -/
def flattenSimple (row : JValue) (rowIndex : Nat) (basePath : List Seg)
    (header : String) (wip : Wip) : Wip :=
  { wip with values := upsert wip.values header (simpleCell row rowIndex basePath header) }

/-- The deepest previously-established context whose dotted key is a string
prefix of the header's dotted parent key (DataTable.jsx lines 109-118): a
fold over the insertion-ordered context map keeping the first strictly
longest match, starting from the original row. -/
def findContext (row : JValue) (rowIndex : Nat) (basePath : List Seg)
    (parentKey : String) (contexts : List (String × Ctx)) : String × Ctx :=
  contexts.foldl
    (fun acc p =>
      if strStartsWith parentKey p.1 ∧ acc.1.length < p.1.length then (p.1, p.2) else acc)
    ("", ⟨row, basePath ++ [Seg.idx rowIndex]⟩)

/-- Resolution of the child field from one fanned item (DataTable.jsx lines
145-161): `@`-attribute lookup, the `value` sentinel, or a plain
case-insensitive key. -/
def compChildCell (item : JValue) (itemPath : List Seg) (child : String) : Cell :=
  if strStartsWith child "@" then
    match ciGet item ["@attributes", child.drop 1] with
    | some (v, actual) => ⟨some v, some (itemPath ++ actual.map Seg.key)⟩
    | none => ⟨none, none⟩
  else if child = "value" then
    ⟨some item, some itemPath⟩
  else
    match ciGet item [child] with
    | some (v, actual) => ⟨some v, some (itemPath ++ actual.map Seg.key)⟩
    | none => ⟨none, none⟩

/-- The fan-out over the items of a resolved data branch (DataTable.jsx
lines 123-165): one new work-in-progress row per item of an array branch
(a lone object or scalar branch counts as one item; null and a miss give
no items and keep one row with an empty cell). -/
def compFan (wip : Wip) (headerKey parentKey child : String) (context : Ctx)
    (dataBranch : JValue) (actualRel : List String) : List Wip :=
  let isArr : Bool := match dataBranch with | JValue.arr _ => true | _ => false
  let items : List JValue :=
    match dataBranch with
    | JValue.arr xs => xs
    | JValue.null => []
    | v => [v]
  match items with
  | [] => [{ wip with values := upsert wip.values headerKey ⟨none, none⟩ }]
  | _ =>
    (items.enum).map (fun p =>
      let itemIndex := p.1
      let item := p.2
      let newContextPath :=
        context.path ++ actualRel.map Seg.key ++
          (if isArr then [Seg.idx itemIndex] else [])
      let cell := compChildCell item newContextPath child
      { values := upsert wip.values headerKey cell,
        contexts := upsert wip.contexts parentKey ⟨item, newContextPath⟩ })

/-- Processing one composite header for one work-in-progress row
(DataTable.jsx lines 106-166). -/
def flattenComp (row : JValue) (rowIndex : Nat) (basePath : List Seg)
    (parent : List String) (child : String) (wip : Wip) : List Wip :=
  let headerKey := getHeaderKey (Header.comp parent child)
  let parentKey := joinDots parent
  let (longestPre, context) := findContext row rowIndex basePath parentKey wip.contexts
  let relSegs := parent.drop (dotSegCount longestPre)
  match ciGet context.item relSegs with
  | none =>
      [{ wip with values := upsert wip.values headerKey ⟨none, none⟩ }]
  | some (dataBranch, actualRel) =>
      compFan wip headerKey parentKey child context dataBranch actualRel

/-- Processing one header for one work-in-progress row: simple headers keep
the row count, composite headers may fan out. -/
def flattenStep (row : JValue) (rowIndex : Nat) (basePath : List Seg)
    (header : Header) (wip : Wip) : List Wip :=
  match header with
  | Header.plain s => [flattenSimple row rowIndex basePath s wip]
  | Header.comp parent child => flattenComp row rowIndex basePath parent child wip

/-- flattenRow (DataTable.jsx lines 53-173): fold the headers left to right
over the growing list of work-in-progress rows, then finalize each with the
originating row index. -/
def flattenRow (row : JValue) (rowIndex : Nat) (headers : List Header)
    (basePath : List Seg) : List FlatRow :=
  let wips := headers.foldl
    (fun ws h => ws.flatMap (flattenStep row rowIndex basePath h))
    [({ values := [], contexts := [] } : Wip)]
  wips.map (fun w => ⟨w.values, rowIndex⟩)

/-! ## Character sanitizer (src/lib/xmlUtils.js, cleanXML, lines 140-172)

The sanitizer operates on a JavaScript string; we model text as `List Char`
(Lean characters are Unicode scalar values, so the lone-surrogate inputs a
JS string could also hold are outside the model; every removal the claims
exercise concerns scalar values). The function removes all NUL characters,
then a leading run of the class `[\s﻿�]`, then every character
outside the XML 1.0 ranges, and reports `removedCount` as the length
difference. The log of messages is write-only diagnostics and is not
modelled. -/

/-- The XML-1.0-legal character test from the regex
`[^\u0009\u000A\u000D -퟿-�\u{10000}-\u{10FFFF}]`. -/
def isXmlValid (c : Char) : Bool :=
  let n := c.toNat
  n == 9 || n == 10 || n == 13 || (32 ≤ n && n ≤ 0xD7FF) ||
  (0xE000 ≤ n && n ≤ 0xFFFD) || (0x10000 ≤ n && n ≤ 0x10FFFF)

/-- Membership in the leading-junk class `[\s﻿�]` (JS `\s`
already contains U+FEFF). -/
def isBomClass (c : Char) : Bool :=
  isJsSpace c || c.toNat == 0xFFFD

/-- cleanXML's cleaned text: NUL removal, then the leading
whitespace/BOM/replacement run, then the invalid-character filter. -/
def cleanXML (cs : List Char) : List Char :=
  (((cs.filter (fun c => c.toNat ≠ 0)).dropWhile isBomClass).filter isXmlValid)

/-- cleanXML's removedCount: original length minus cleaned length. -/
def cleanRemovedCount (cs : List Char) : Nat :=
  cs.length - (cleanXML cs).length

theorem dropWhile_dropWhile_self {α : Type} (p : α → Bool) (l : List α) :
    (l.dropWhile p).dropWhile p = l.dropWhile p := by
  induction l with
  | nil => rfl
  | cons a l ih =>
    by_cases h : p a
    · simp [List.dropWhile_cons, h, ih]
    · simp [List.dropWhile_cons, h]

theorem cleanXML_chars_valid {cs : List Char} {c : Char} (h : c ∈ cleanXML cs) :
    isXmlValid c = true := (List.mem_filter.mp h).2

/-- After one pass every character is XML-valid, so a second pass only
strips the leading junk run. -/
theorem cleanXML_cleanXML (cs : List Char) :
    cleanXML (cleanXML cs) = (cleanXML cs).dropWhile isBomClass := by
  have hnul : (cleanXML cs).filter (fun c => c.toNat ≠ 0) = cleanXML cs := by
    apply List.filter_eq_self.mpr
    intro c hc
    have := cleanXML_chars_valid hc
    simp only [isXmlValid] at this
    simp only [decide_eq_true_eq]
    intro h0
    rw [h0] at this
    simp at this
  have hval : ((cleanXML cs).dropWhile isBomClass).filter isXmlValid
      = (cleanXML cs).dropWhile isBomClass := by
    apply List.filter_eq_self.mpr
    intro c hc
    exact cleanXML_chars_valid (((cleanXML cs).dropWhile_sublist isBomClass).mem hc)
  rw [cleanXML, hnul, hval]

/-- A doubly cleaned text is a fixed point of cleanXML. -/
theorem cleanXML_fixed (cs : List Char) :
    cleanXML (cleanXML (cleanXML cs)) = cleanXML (cleanXML cs) := by
  rw [cleanXML_cleanXML cs]
  have hvalid : ∀ c ∈ (cleanXML cs).dropWhile isBomClass, isXmlValid c = true :=
    fun c hc => cleanXML_chars_valid (((cleanXML cs).dropWhile_sublist isBomClass).mem hc)
  have hnul : ((cleanXML cs).dropWhile isBomClass).filter (fun c => c.toNat ≠ 0)
      = (cleanXML cs).dropWhile isBomClass := by
    apply List.filter_eq_self.mpr
    intro c hc
    have := hvalid c hc
    simp only [isXmlValid] at this
    simp only [decide_eq_true_eq]
    intro h0
    rw [h0] at this
    simp at this
  rw [cleanXML, hnul, dropWhile_dropWhile_self, List.filter_eq_self.mpr hvalid]

/-- Claim C9 counterexample: sanitizing `"\u0001 a"` removes the invalid
U+0001 and exposes a leading space, which a second sanitize then removes,
so the second pass reports a nonzero removedCount. -/
theorem cleanXML_not_idempotent :
    cleanRemovedCount (cleanXML [Char.ofNat 1, ' ', 'a']) = 1 := by decide

/-- Claim C9 (amended): idempotence holds from the second application on —
a doubly sanitized text yields removedCount zero when sanitized again
(the only possible second-pass removal is the newly exposed leading
whitespace/BOM run, and it is gone after that). -/
theorem cleanXML_idempotent_from_second (cs : List Char) :
    cleanRemovedCount (cleanXML (cleanXML cs)) = 0 := by
  rw [cleanRemovedCount, cleanXML_fixed, Nat.sub_self]

/-! ## Claims C3 and C10: flattenRow shape facts -/

theorem compFan_ne_nil (wip : Wip) (headerKey parentKey child : String) (context : Ctx)
    (dataBranch : JValue) (actualRel : List String) :
    compFan wip headerKey parentKey child context dataBranch actualRel ≠ [] := by
  cases dataBranch with
  | null => simp [compFan]
  | str s => simp [compFan]
  | obj kvs => simp [compFan]
  | arr xs =>
    cases xs with
    | nil => simp [compFan]
    | cons x xs' => simp [compFan, List.enum_cons]

theorem flattenStep_ne_nil (row : JValue) (rowIndex : Nat) (basePath : List Seg)
    (header : Header) (wip : Wip) :
    flattenStep row rowIndex basePath header wip ≠ [] := by
  cases header with
  | plain s => simp [flattenStep]
  | comp parent child =>
    simp only [flattenStep, flattenComp]
    split
    · simp
    · exact compFan_ne_nil _ _ _ _ _ _ _

theorem foldl_flatMap_ne_nil (row : JValue) (rowIndex : Nat) (basePath : List Seg) :
    ∀ (headers : List Header) (ws : List Wip), ws ≠ [] →
      headers.foldl (fun acc h => acc.flatMap (flattenStep row rowIndex basePath h)) ws ≠ [] := by
  intro headers
  induction headers with
  | nil => intro ws hw; simpa using hw
  | cons hd tl ih =>
    intro ws hw
    simp only [List.foldl_cons]
    apply ih
    cases ws with
    | nil => exact absurd rfl hw
    | cons w ws' =>
      simp only [List.flatMap_cons]
      intro hcontra
      exact flattenStep_ne_nil row rowIndex basePath hd w (List.append_eq_nil.mp hcontra).1

/-- Claim C10: flattenRow always returns at least one flattened row (absent
fields and absent composite branches produce empty cells, never zero rows),
and every returned row carries __originalIndex equal to the given row
index. -/
theorem flattenRow_nonempty_and_index (row : JValue) (rowIndex : Nat)
    (headers : List Header) (basePath : List Seg) :
    flattenRow row rowIndex headers basePath ≠ [] ∧
      ∀ fr ∈ flattenRow row rowIndex headers basePath, fr.originalIndex = rowIndex := by
  constructor
  · simp only [flattenRow, ne_eq, List.map_eq_nil_iff]
    exact foldl_flatMap_ne_nil row rowIndex basePath headers _ (by simp)
  · intro fr hfr
    simp only [flattenRow, List.mem_map] at hfr
    obtain ⟨w, _, rfl⟩ := hfr
    rfl

/-- Claim C3: flattening the row `{A: {B: [{C:"1"},{C:"2"}]}}` with the one
composite column `{parent:['A','B'], child:'C'}` yields exactly two rows
with values "1" and "2" in source order, both tagged with the originating
row index 0. -/
theorem flattenRow_cartesian_example :
    flattenRow
      (JValue.obj [("A", JValue.obj [("B",
        JValue.arr [JValue.obj [("C", JValue.str "1")],
                    JValue.obj [("C", JValue.str "2")]])])])
      0 [Header.comp ["A", "B"] "C"] []
    = [⟨[("A.B.C", ⟨some (JValue.str "1"),
          some [Seg.idx 0, Seg.key "A", Seg.key "B", Seg.idx 0, Seg.key "C"]⟩)], 0⟩,
       ⟨[("A.B.C", ⟨some (JValue.str "2"),
          some [Seg.idx 0, Seg.key "A", Seg.key "B", Seg.idx 1, Seg.key "C"]⟩)], 0⟩] := by
  rfl

/-! ## Path-addressed mutation (src/lib/store.js)

The store mutates the document in place (deleteRow splices the array that
lodash.get aliases into the tree; updateNodeValue calls the identifier
`set`, which inside the initializer is the store's own setter parameter,
not the lodash import). The shallow embedding turns each mutation into the
function from the old document to the new one. -/

/-- Replace the value of the first pair carrying the given key (JS property
assignment on our ordered representation). -/
def replaceFirstVal : List (String × JValue) → String → (JValue → JValue) →
    List (String × JValue)
  | [], _, _ => []
  | (k', v) :: rest, k, g =>
      if k' = k then (k', g v) :: rest else (k', v) :: replaceFirstVal rest k g

/-- Apply `g` to the element at index `i` (no-op out of range). -/
def updateAt : List JValue → Nat → (JValue → JValue) → List JValue
  | [], _, _ => []
  | x :: rest, 0, g => g x :: rest
  | x :: rest, Nat.succ i, g => x :: updateAt rest i g

/-- Apply `g` at one canonical location of a container. -/
def updCanon (v : JValue) (cs : Seg) (g : JValue → JValue) : JValue :=
  match v, cs with
  | JValue.obj kvs, Seg.key k => JValue.obj (replaceFirstVal kvs k g)
  | JValue.arr xs, Seg.idx i => JValue.arr (updateAt xs i g)
  | v, _ => v

/-- In-place mutation of the value a path resolves to, as a function: apply
`f` to the resolved value and rebuild the spine; if the path does not
resolve, the document is unchanged. -/
def jsUpdate (f : JValue → JValue) : List Seg → JValue → JValue
  | [], v => f v
  | s :: rest, v =>
    match canonChild v s with
    | some (cs, _) => updCanon v cs (jsUpdate f rest)
    | none => v

/-- JS Array.prototype.splice(i, 1) on the element list. -/
def spliceOne (xs : List JValue) (i : Nat) : List JValue :=
  xs.take i ++ xs.drop (i + 1)

/-- deleteRow (store.js lines 96-105): look the collection path up with
lodash.get; if it is an array, splice out one element in place (modelled as
rebuilding the tree with the spliced array at that path); otherwise warn
and do nothing. -/
def deleteRow (doc : JValue) (path : List Seg) (i : Nat) : JValue :=
  match jsGet doc path with
  | some (JValue.arr _) =>
      jsUpdate (fun v => match v with
        | JValue.arr xs => JValue.arr (spliceOne xs i)
        | v => v) path doc
  | _ => doc

/-- The canonical form of a path in a document: every segment replaced by
its canonical form along the resolution; none if the path does not resolve.
Two resolving paths address the same location iff one's canonical form is a
prefix of the other's. -/
def canonPath (v : JValue) : List Seg → Option (List Seg)
  | [] => some []
  | s :: rest =>
    match canonChild v s with
    | some (cs, c) => (canonPath c rest).map (fun l => cs :: l)
    | none => none

theorem lookupKey_replaceFirstVal_self (kvs : List (String × JValue)) (k : String)
    (g : JValue → JValue) :
    lookupKey (replaceFirstVal kvs k g) k = (lookupKey kvs k).map g := by
  induction kvs with
  | nil => rfl
  | cons p rest ih =>
    obtain ⟨k', v⟩ := p
    by_cases h : k' = k
    · simp [replaceFirstVal, lookupKey, h]
    · simp only [replaceFirstVal, if_neg h]
      simp only [lookupKey, List.find?_cons] at ih ⊢
      have : (k' == k) = false := by simpa using h
      simp [this, ih]

theorem lookupKey_replaceFirstVal_ne (kvs : List (String × JValue)) (k k' : String)
    (g : JValue → JValue) (h : k' ≠ k) :
    lookupKey (replaceFirstVal kvs k g) k' = lookupKey kvs k' := by
  induction kvs with
  | nil => rfl
  | cons p rest ih =>
    obtain ⟨k0, v⟩ := p
    by_cases h0 : k0 = k
    · subst h0
      have : (k0 == k') = false := by simpa using fun hc => h hc.symm
      simp [replaceFirstVal, lookupKey, List.find?_cons, this]
    · simp only [replaceFirstVal, if_neg h0]
      simp only [lookupKey, List.find?_cons] at ih ⊢
      by_cases h1 : k0 = k'
      · simp [h1]
      · have : (k0 == k') = false := by simpa using h1
        simp [this, ih]

theorem updateAt_length (xs : List JValue) (i : Nat) (g : JValue → JValue) :
    (updateAt xs i g).length = xs.length := by
  induction xs generalizing i with
  | nil => rfl
  | cons x rest ih =>
    cases i with
    | zero => simp [updateAt]
    | succ i => simp [updateAt, ih]

theorem updateAt_getElem?_self (xs : List JValue) (i : Nat) (g : JValue → JValue) :
    (updateAt xs i g)[i]? = (xs[i]?).map g := by
  induction xs generalizing i with
  | nil => simp [updateAt]
  | cons x rest ih =>
    cases i with
    | zero => simp [updateAt]
    | succ i => simpa [updateAt] using ih i

theorem updateAt_getElem?_ne (xs : List JValue) (i j : Nat) (g : JValue → JValue)
    (h : j ≠ i) : (updateAt xs i g)[j]? = xs[j]? := by
  induction xs generalizing i j with
  | nil => simp [updateAt]
  | cons x rest ih =>
    cases i with
    | zero =>
      cases j with
      | zero => exact absurd rfl h
      | succ j => simp [updateAt]
    | succ i =>
      cases j with
      | zero => simp [updateAt]
      | succ j => simpa [updateAt] using ih i j (by omega)

theorem canonChild_key_inv {v : JValue} {s : Seg} {K : String} {c : JValue}
    (h : canonChild v s = some (Seg.key K, c)) :
    ∃ kvs, v = JValue.obj kvs ∧ lookupKey kvs K = some c := by
  cases v with
  | null => simp [canonChild] at h
  | str _ => simp [canonChild] at h
  | obj kvs =>
    cases s with
    | key k =>
      simp only [canonChild, Option.map_eq_some'] at h
      obtain ⟨w, hw, heq⟩ := h
      have h1 : k = K := by cases heq; rfl
      have h2 : w = c := by cases heq; rfl
      exact ⟨kvs, rfl, by rw [← h1, hw, h2]⟩
    | idx n =>
      simp only [canonChild, Option.map_eq_some'] at h
      obtain ⟨w, hw, heq⟩ := h
      have h1 : natStr n = K := by cases heq; rfl
      have h2 : w = c := by cases heq; rfl
      exact ⟨kvs, rfl, by rw [← h1, hw, h2]⟩
  | arr xs =>
    cases s with
    | key k =>
      simp only [canonChild, Option.bind_eq_some] at h
      obtain ⟨i, _, hmap⟩ := h
      simp only [Option.map_eq_some'] at hmap
      obtain ⟨w, _, heq⟩ := hmap
      cases heq
    | idx n =>
      simp only [canonChild, Option.map_eq_some'] at h
      obtain ⟨w, _, heq⟩ := h
      cases heq

theorem canonChild_idx_inv {v : JValue} {s : Seg} {i : Nat} {c : JValue}
    (h : canonChild v s = some (Seg.idx i, c)) :
    ∃ xs, v = JValue.arr xs ∧ xs[i]? = some c := by
  cases v with
  | null => simp [canonChild] at h
  | str _ => simp [canonChild] at h
  | obj kvs =>
    cases s with
    | key k =>
      simp only [canonChild, Option.map_eq_some'] at h
      obtain ⟨w, _, heq⟩ := h
      cases heq
    | idx n =>
      simp only [canonChild, Option.map_eq_some'] at h
      obtain ⟨w, _, heq⟩ := h
      cases heq
  | arr xs =>
    cases s with
    | key k =>
      simp only [canonChild, Option.bind_eq_some] at h
      obtain ⟨j, hj, hmap⟩ := h
      simp only [Option.map_eq_some'] at hmap
      obtain ⟨w, hw, heq⟩ := hmap
      have h1 : j = i := by cases heq; rfl
      have h2 : w = c := by cases heq; rfl
      exact ⟨xs, rfl, by rw [← h1, hw, h2]⟩
    | idx n =>
      simp only [canonChild, Option.map_eq_some'] at h
      obtain ⟨w, hw, heq⟩ := h
      have h1 : n = i := by cases heq; rfl
      have h2 : w = c := by cases heq; rfl
      exact ⟨xs, rfl, by rw [← h1, hw, h2]⟩

/-- The canonical segment determines the accessed child. -/
theorem canonChild_det {v : JValue} {s s' : Seg} {w : Seg} {c c' : JValue}
    (h : canonChild v s = some (w, c)) (h' : canonChild v s' = some (w, c')) :
    c = c' := by
  cases w with
  | key K =>
    obtain ⟨kvs, rfl, hc⟩ := canonChild_key_inv h
    obtain ⟨kvs', heq, hc'⟩ := canonChild_key_inv h'
    cases heq
    rw [hc] at hc'
    exact Option.some.inj hc'
  | idx i =>
    obtain ⟨xs, rfl, hc⟩ := canonChild_idx_inv h
    obtain ⟨xs', heq, hc'⟩ := canonChild_idx_inv h'
    cases heq
    rw [hc] at hc'
    exact Option.some.inj hc'

theorem jsGet_cons_none {v : JValue} {s : Seg} (rest : List Seg)
    (hc : canonChild v s = none) : jsGet v (s :: rest) = none := by
  simp [jsGet, jsChild, hc]

theorem jsGet_cons_some {v : JValue} {s : Seg} {cs : Seg} {c : JValue} (rest : List Seg)
    (hc : canonChild v s = some (cs, c)) : jsGet v (s :: rest) = jsGet c rest := by
  simp [jsGet, jsChild, hc]

theorem canonChild_updCanon_self {v : JValue} {s : Seg} {cs : Seg} {c : JValue}
    (g : JValue → JValue) (h : canonChild v s = some (cs, c)) :
    canonChild (updCanon v cs g) s = some (cs, g c) := by
  cases v with
  | null => simp [canonChild] at h
  | str _ => simp [canonChild] at h
  | obj kvs =>
    cases s with
    | key k =>
      simp only [canonChild, Option.map_eq_some'] at h
      obtain ⟨w, hw, heq⟩ := h
      have hcs : cs = Seg.key k := by cases heq; rfl
      have hwc : w = c := by cases heq; rfl
      subst hcs hwc
      simp [updCanon, canonChild, lookupKey_replaceFirstVal_self, hw]
    | idx n =>
      simp only [canonChild, Option.map_eq_some'] at h
      obtain ⟨w, hw, heq⟩ := h
      have hcs : cs = Seg.key (natStr n) := by cases heq; rfl
      have hwc : w = c := by cases heq; rfl
      subst hcs hwc
      simp [updCanon, canonChild, lookupKey_replaceFirstVal_self, hw]
  | arr xs =>
    cases s with
    | idx n =>
      simp only [canonChild, Option.map_eq_some'] at h
      obtain ⟨w, hw, heq⟩ := h
      have hcs : cs = Seg.idx n := by cases heq; rfl
      have hwc : w = c := by cases heq; rfl
      subst hcs hwc
      simp [updCanon, canonChild, updateAt_getElem?_self, hw]
    | key k =>
      simp only [canonChild, Option.bind_eq_some] at h
      obtain ⟨i, hi, hmap⟩ := h
      simp only [Option.map_eq_some'] at hmap
      obtain ⟨w, hw, heq⟩ := hmap
      have hcs : cs = Seg.idx i := by cases heq; rfl
      have hwc : w = c := by cases heq; rfl
      subst hcs hwc
      have hlen : (updateAt xs i g).length = xs.length := updateAt_length xs i g
      simp only [updCanon, canonChild, hlen, hi, Option.bind_eq_some]
      exact ⟨i, rfl, by simp [updateAt_getElem?_self, hw]⟩

theorem canonChild_updCanon_ne {v : JValue} {s' : Seg} {cs cs' : Seg} {c' : JValue}
    (g : JValue → JValue) (h' : canonChild v s' = some (cs', c')) (hne : cs ≠ cs') :
    canonChild (updCanon v cs g) s' = some (cs', c') := by
  cases v with
  | null => simp [canonChild] at h'
  | str _ => simp [canonChild] at h'
  | obj kvs =>
    cases cs with
    | idx _ => simpa [updCanon] using h'
    | key K =>
      cases s' with
      | key k =>
        simp only [canonChild, Option.map_eq_some'] at h'
        obtain ⟨w, hw, heq⟩ := h'
        have h1 : Seg.key k = cs' := by cases heq; rfl
        have h2 : w = c' := by cases heq; rfl
        subst h2
        rw [← h1] at hne ⊢
        have hkne : k ≠ K := fun hc => hne (by rw [hc])
        simp [updCanon, canonChild, lookupKey_replaceFirstVal_ne _ _ _ _ hkne, hw]
      | idx n =>
        simp only [canonChild, Option.map_eq_some'] at h'
        obtain ⟨w, hw, heq⟩ := h'
        have h1 : Seg.key (natStr n) = cs' := by cases heq; rfl
        have h2 : w = c' := by cases heq; rfl
        subst h2
        rw [← h1] at hne ⊢
        have hkne : natStr n ≠ K := fun hc => hne (by rw [hc])
        simp [updCanon, canonChild, lookupKey_replaceFirstVal_ne _ _ _ _ hkne, hw]
  | arr xs =>
    cases cs with
    | key _ => simpa [updCanon] using h'
    | idx i =>
      cases s' with
      | idx n =>
        simp only [canonChild, Option.map_eq_some'] at h'
        obtain ⟨w, hw, heq⟩ := h'
        have h1 : Seg.idx n = cs' := by cases heq; rfl
        have h2 : w = c' := by cases heq; rfl
        subst h2
        rw [← h1] at hne ⊢
        have hine : n ≠ i := fun hc => hne (by rw [hc])
        simp [updCanon, canonChild, updateAt_getElem?_ne xs i n _ hine, hw]
      | key k =>
        simp only [canonChild, Option.bind_eq_some] at h'
        obtain ⟨m, hm, hmap⟩ := h'
        simp only [Option.map_eq_some'] at hmap
        obtain ⟨w, hw, heq⟩ := hmap
        have h1 : Seg.idx m = cs' := by cases heq; rfl
        have h2 : w = c' := by cases heq; rfl
        subst h2
        rw [← h1] at hne ⊢
        have hine : m ≠ i := fun hc => hne (by rw [hc])
        have hlen : (updateAt xs i g).length = xs.length := updateAt_length xs i g
        simp only [updCanon, canonChild, hlen, hm, Option.bind_eq_some]
        exact ⟨m, rfl, by simp [updateAt_getElem?_ne xs i m _ hine, hw]⟩

/-- Updating at a resolving path changes exactly the resolved value. -/
theorem jsGet_jsUpdate_self : ∀ (p : List Seg) (doc target : JValue) (f : JValue → JValue),
    jsGet doc p = some target → jsGet (jsUpdate f p doc) p = some (f target)
  | [], doc, target, f, h => by
      cases h
      rfl
  | s :: rest, doc, target, f, h => by
      cases hc : canonChild doc s with
      | none => rw [jsGet_cons_none rest hc] at h; cases h
      | some p0 =>
        obtain ⟨cs, c⟩ := p0
        rw [jsGet_cons_some rest hc] at h
        have hupd : jsUpdate f (s :: rest) doc = updCanon doc cs (jsUpdate f rest) := by
          simp [jsUpdate, hc]
        rw [hupd, jsGet_cons_some rest (canonChild_updCanon_self (jsUpdate f rest) hc)]
        exact jsGet_jsUpdate_self rest c target f h

/-- Updating at one resolving path does not change the value at any other
resolving path whose canonical form neither extends nor is extended by the
updated path's canonical form. -/
theorem jsGet_jsUpdate_disjoint : ∀ (p q : List Seg) (doc : JValue) (f : JValue → JValue)
    (cp cq : List Seg), canonPath doc p = some cp → canonPath doc q = some cq →
    ¬ cp <+: cq → ¬ cq <+: cp → jsGet (jsUpdate f p doc) q = jsGet doc q
  | [], q, doc, f, cp, cq, hp, _, hpq, _ => by
      cases hp
      exact absurd List.nil_prefix hpq
  | _ :: _, [], doc, f, cp, cq, _, hq, _, hqp => by
      cases hq
      exact absurd List.nil_prefix hqp
  | s :: p', s' :: q', doc, f, cp, cq, hp, hq, hpq, hqp => by
      cases hc : canonChild doc s with
      | none => simp [canonPath, hc] at hp
      | some w0 =>
        obtain ⟨cs, c⟩ := w0
        cases hc' : canonChild doc s' with
        | none => simp [canonPath, hc'] at hq
        | some w1 =>
          obtain ⟨cs', c'⟩ := w1
          simp only [canonPath, hc, hc', Option.map_eq_some'] at hp hq
          obtain ⟨cp', hcp', rfl⟩ := hp
          obtain ⟨cq', hcq', rfl⟩ := hq
          have hupd : jsUpdate f (s :: p') doc = updCanon doc cs (jsUpdate f p') := by
            simp [jsUpdate, hc]
          by_cases hcseq : cs = cs'
          · subst hcseq
            have hcc : c = c' := canonChild_det hc hc'
            subst hcc
            rw [hupd,
              jsGet_cons_some q' (canonChild_updCanon_self (jsUpdate f p') hc'),
              jsGet_cons_some q' hc']
            exact jsGet_jsUpdate_disjoint p' q' c f cp' cq' hcp' hcq'
              (fun hx => hpq (List.cons_prefix_cons.mpr ⟨rfl, hx⟩))
              (fun hx => hqp (List.cons_prefix_cons.mpr ⟨rfl, hx⟩))
          · rw [hupd,
              jsGet_cons_some q' (canonChild_updCanon_ne (jsUpdate f p') hc' hcseq),
              jsGet_cons_some q' hc']

theorem spliceOne_getElem?_lt {xs : List JValue} {i j : Nat} (hij : j < i)
    (hi : i < xs.length) : (spliceOne xs i)[j]? = xs[j]? := by
  rw [spliceOne, List.getElem?_append_left, List.getElem?_take_of_lt hij]
  rw [List.length_take]
  omega

theorem spliceOne_getElem?_ge {xs : List JValue} {i j : Nat} (hij : i ≤ j)
    (hi : i < xs.length) : (spliceOne xs i)[j]? = xs[j + 1]? := by
  rw [spliceOne, List.getElem?_append_right, List.getElem?_drop, List.length_take]
  · congr 1
    omega
  · rw [List.length_take]
    omega

theorem spliceOne_length {xs : List JValue} {i : Nat} (hi : i < xs.length) :
    (spliceOne xs i).length + 1 = xs.length := by
  simp only [spliceOne, List.length_append, List.length_take, List.length_drop]
  omega

/-- Claim C6: if the value at the collection path is a sequence and the
index is in range, deleteRow removes exactly that element (the result at the
path is the spliced sequence: one shorter, earlier elements unchanged, later
elements shifted down one index in order) and changes nothing at any other
location (any path whose canonical form neither extends nor is extended by
the collection path's resolves to the same value as before); if the value
at the path is not a sequence, or the path does not resolve, deleteRow is a
no-op on the document (it only logs). -/
theorem deleteRow_spec (doc : JValue) (path : List Seg) (i : Nat) :
    (∀ xs, jsGet doc path = some (JValue.arr xs) → i < xs.length →
      jsGet (deleteRow doc path i) path = some (JValue.arr (spliceOne xs i)) ∧
      (spliceOne xs i).length + 1 = xs.length ∧
      (∀ j, j < i → (spliceOne xs i)[j]? = xs[j]?) ∧
      (∀ j, i ≤ j → (spliceOne xs i)[j]? = xs[j + 1]?) ∧
      (∀ q cp cq, canonPath doc path = some cp → canonPath doc q = some cq →
        ¬ cp <+: cq → ¬ cq <+: cp →
        jsGet (deleteRow doc path i) q = jsGet doc q)) ∧
    (∀ v, jsGet doc path = some v → (∀ xs, v ≠ JValue.arr xs) →
      deleteRow doc path i = doc) ∧
    (jsGet doc path = none → deleteRow doc path i = doc) := by
  refine ⟨?_, ?_, ?_⟩
  · intro xs hget hlt
    have hdel : deleteRow doc path i
        = jsUpdate (fun v => match v with
            | JValue.arr ys => JValue.arr (spliceOne ys i)
            | v => v) path doc := by
      simp [deleteRow, hget]
    refine ⟨?_, spliceOne_length hlt, fun j hj => spliceOne_getElem?_lt hj hlt,
      fun j hj => spliceOne_getElem?_ge hj hlt, ?_⟩
    · rw [hdel]
      exact jsGet_jsUpdate_self path doc _ _ hget
    · intro q cp cq hcp hcq hpq hqp
      rw [hdel]
      exact jsGet_jsUpdate_disjoint path q doc _ cp cq hcp hcq hpq hqp
  · intro v hget hnotarr
    cases v with
    | arr xs => exact absurd rfl (hnotarr xs)
    | null => simp [deleteRow, hget]
    | str s => simp [deleteRow, hget]
    | obj kvs => simp [deleteRow, hget]
  · intro hget
    simp [deleteRow, hget]

/-- Claim C6 witness: deleting index 1 from the 3-item sequence at L leaves
["a","c"] there with length 2 and order preserved, and the sibling key M is
untouched. -/
theorem deleteRow_spec_witness :
    jsGet (deleteRow
        (JValue.obj [("L", JValue.arr [JValue.str "a", JValue.str "b", JValue.str "c"]),
                     ("M", JValue.str "keep")])
        [Seg.key "L"] 1) [Seg.key "L"]
      = some (JValue.arr [JValue.str "a", JValue.str "c"]) ∧
    jsGet (deleteRow
        (JValue.obj [("L", JValue.arr [JValue.str "a", JValue.str "b", JValue.str "c"]),
                     ("M", JValue.str "keep")])
        [Seg.key "L"] 1) [Seg.key "M"] = some (JValue.str "keep") := by
  constructor
  · exact ((deleteRow_spec
      (JValue.obj [("L", JValue.arr [JValue.str "a", JValue.str "b", JValue.str "c"]),
                   ("M", JValue.str "keep")]) [Seg.key "L"] 1).1
      [JValue.str "a", JValue.str "b", JValue.str "c"] (by rfl) (by decide)).1
  · have h := ((deleteRow_spec
      (JValue.obj [("L", JValue.arr [JValue.str "a", JValue.str "b", JValue.str "c"]),
                   ("M", JValue.str "keep")]) [Seg.key "L"] 1).1
      [JValue.str "a", JValue.str "b", JValue.str "c"] (by rfl) (by decide)).2.2.2.2
      [Seg.key "M"] [Seg.key "L"] [Seg.key "M"] (by rfl) (by rfl)
      (by decide) (by decide)
    rw [h]
    rfl

/-! ## updateNodeValue (store.js, lines 86-94)

In store.js the module-level import `import { set } from 'lodash'` is
shadowed inside the store initializer `immer((set, getStore) => ...)`:
within every action body, including updateNodeValue's recipe, the
identifier `set` is the store's own setter parameter, not lodash's path
write. The recipe body is exactly

  if (!path || path.length === 0) return;
  const fullPath = [state.xmlDoc.rootName, ...path];
  set(state.xmlDoc.doc, fullPath, newValue);

It contains no `throw` and builds no error value, and it assigns nothing
into the document draft: its only behaviours are the silent early return
and a single call to the store setter (platform code outside the document
model) with the document object, the full path and the new value as the
three arguments. The embedding returns the document together with the call
the body makes, if any. -/

/-- The observable effect of the updateNodeValue recipe body: no setter
call (the early return), or one call to the shadowing store `set`
parameter with the arguments the source passes. -/
inductive StoreCall where
  | noCall : StoreCall
  | storeSet (target : JValue) (fullPath : List Seg) (newValue : JValue) : StoreCall

/-- updateNodeValue (store.js 86-94): `if (!path || path.length === 0)
return;`, else `set(state.xmlDoc.doc, [rootName, ...path], newValue)`
where `set` is the store setter that shadows the lodash import. A JS
null/undefined path is `none`; the document is untouched by the body. -/
def updateNodeValue (rootName : String) (doc : JValue)
    (path : Option (List Seg)) (nv : JValue) : JValue × StoreCall :=
  match path with
  | Option.none => (doc, StoreCall.noCall)
  | some [] => (doc, StoreCall.noCall)
  | some (s :: ps) => (doc, StoreCall.storeSet doc (Seg.key rootName :: s :: ps) nv)

theorem jsGet_cons_of_jsChild {v c : JValue} {s : Seg} (rest : List Seg)
    (h : jsChild v s = some c) : jsGet v (s :: rest) = jsGet c rest := by
  simp only [jsGet, h]

/-- Claim C5 counterexample: on the document `{ROOT: ""}`, the empty path
-- which the claim says fails with InvalidPath propagated to the caller --
returns silently with no error and no setter call; and the path `["A"]`,
whose intermediate ROOT holds a scalar, does not fail either: the body's
only outcome is one call of the store setter (the shadowed `set`) with
arguments `(doc, ["ROOT","A"], "x")`, no lodash path write and no
InvalidPath failure. -/
theorem updateNodeValue_never_fails :
    updateNodeValue "ROOT" (JValue.obj [("ROOT", JValue.str "")]) (some [])
        (JValue.str "x")
      = (JValue.obj [("ROOT", JValue.str "")], StoreCall.noCall) ∧
    updateNodeValue "ROOT" (JValue.obj [("ROOT", JValue.str "")])
        (some [Seg.key "A"]) (JValue.str "x")
      = (JValue.obj [("ROOT", JValue.str "")],
         StoreCall.storeSet (JValue.obj [("ROOT", JValue.str "")])
           [Seg.key "ROOT", Seg.key "A"] (JValue.str "x")) :=
  ⟨rfl, rfl⟩

/-- Claim C5 (amended): the lodash set import is shadowed by the store's
own setter parameter, so updateNodeValue never performs a path write into
the document and never fails: for every document, root name, path and
value, the recipe leaves the document unchanged (so any later resolution
reads the old document, not the new value), a null or empty path makes no
setter call at all, and a non-empty path makes exactly one call to the
store setter with the document, the full path `[rootName, ...path]` and
the new value -- no InvalidPath error exists and nothing is propagated. -/
theorem updateNodeValue_shadowed (rootName : String) (doc : JValue)
    (path : Option (List Seg)) (nv : JValue) :
    (updateNodeValue rootName doc path nv).1 = doc ∧
    ((path = Option.none ∨ path = some []) →
      (updateNodeValue rootName doc path nv).2 = StoreCall.noCall) ∧
    (∀ s ps, path = some (s :: ps) →
      (updateNodeValue rootName doc path nv).2
        = StoreCall.storeSet doc (Seg.key rootName :: s :: ps) nv) := by
  refine ⟨?_, ?_, ?_⟩
  · cases path with
    | none => rfl
    | some ps => cases ps with
      | nil => rfl
      | cons s ps => rfl
  · rintro (h | h)
    · subst h
      rfl
    · subst h
      rfl
  · intro s ps h
    subst h
    rfl

/-- Claim C5 witness: at the concrete unresolvable input, the recipe's
effect is the single store-setter call and the document is returned
unchanged. -/
theorem updateNodeValue_shadowed_witness :
    (updateNodeValue "ROOT" (JValue.obj [("ROOT", JValue.str "")])
        (some [Seg.key "A"]) (JValue.str "x")).2
      = StoreCall.storeSet (JValue.obj [("ROOT", JValue.str "")])
          [Seg.key "ROOT", Seg.key "A"] (JValue.str "x") :=
  (updateNodeValue_shadowed "ROOT" (JValue.obj [("ROOT", JValue.str "")])
      (some [Seg.key "A"]) (JValue.str "x")).2.2 (Seg.key "A") [] rfl

/-! ## Filter query language (src/lib/filterParser.js)

`parseFilterQuery` tokenizes with the regex `/"[^"]+"|\S+/g`, turns a
quoted token into a lowercased phrase, and any other token into a
case-insensitive unanchored regex in which `~~` and `~*` denote literal
tilde and asterisk, `*` compiles to `.*`, and every other character is
escaped to a literal. The compiled pattern is modelled as a token list
(literal / wildcard) rather than as regex source text; JS `.` does not
match line terminators, which the wildcard model reflects. `testValue`
passes empty condition lists and container values, and otherwise ORs the
conditions over the stringified cell value. -/

/-- JS regex `.`: any character except a line terminator. -/
def isLineTerm (c : Char) : Bool :=
  c == '\n' || c == '\r' || c.toNat == 0x2028 || c.toNat == 0x2029

def lowChar (c : Char) : Char := c.toLower

/-- A compiled wildcard-pattern token: a literal character or the `*`
wildcard (compiled from `.*`). -/
inductive PTok where
  | lit : Char → PTok
  | star : PTok
deriving DecidableEq

/-- A compiled condition: a lowercased quoted phrase, or a wildcard
pattern. -/
inductive Condition where
  | phrase : String → Condition
  | pattern : List PTok → Condition
deriving DecidableEq

/-- The wildcard scan: `~~` to literal tilde, `~*` to literal asterisk,
`*` to the wildcard, anything else literal (equivalent to the JS
placeholder-replacement pipeline, assuming the input does not itself
contain one of the generated placeholder strings). -/
def scanWild : List Char → List PTok
  | [] => []
  | c :: rest =>
    if c = '~' then
      match rest with
      | '~' :: rest2 => PTok.lit '~' :: scanWild rest2
      | '*' :: rest2 => PTok.lit '*' :: scanWild rest2
      | [] => [PTok.lit '~']
      | d :: rest2 => PTok.lit '~' :: PTok.lit d :: scanWild rest2
    else if c = '*' then PTok.star :: scanWild rest
    else PTok.lit c :: scanWild rest

/-- compileTerm: a token that starts and ends with a quote becomes a
phrase (its inside, lowercased); anything else a wildcard pattern. -/
def compileTerm (t : List Char) : Condition :=
  if (t.head? == some '"') && (t.getLast? == some '"') then
    Condition.phrase ⟨((t.drop 1).dropLast).map lowChar⟩
  else Condition.pattern (scanWild t)

/-- The tokenizer `/"[^"]+"|\S+/g`: at each position, a quoted span with at
least one inner character wins; otherwise a maximal non-whitespace run
(which may contain quotes). Fuel-structured so concrete instances reduce;
one character is consumed per step, so length-plus-one fuel suffices. -/
def tokenizeFilterF : Nat → List Char → List (List Char)
  | 0, _ => []
  | _, [] => []
  | Nat.succ fuel, c :: rest =>
    if isJsSpace c then tokenizeFilterF fuel rest
    else
      let spill : List (List Char) :=
        ((c :: rest).takeWhile (fun d => !(isJsSpace d))) ::
          tokenizeFilterF fuel ((c :: rest).dropWhile (fun d => !(isJsSpace d)))
      if c = '"' then
        match rest.dropWhile (fun d => d ≠ '"') with
        | '"' :: rest2 =>
          if (rest.takeWhile (fun d => d ≠ '"')).isEmpty then spill
          else ('"' :: rest.takeWhile (fun d => d ≠ '"') ++ ['"']) :: tokenizeFilterF fuel rest2
        | _ => spill
      else spill

def tokenizeFilter (cs : List Char) : List (List Char) :=
  tokenizeFilterF (cs.length + 1) cs

/-- parseFilterQuery: empty for blank queries, else one compiled condition
per token. -/
def parseFilterQuery (q : String) : List Condition :=
  if jsTrimList q.data = [] then []
  else (tokenizeFilter q.data).map compileTerm

/-- Substring test (JS String.includes over our character lists). -/
def isSubstrList (needle : List Char) : List Char → Bool
  | [] => needle.isEmpty
  | c :: t => needle.isPrefixOf (c :: t) || isSubstrList needle t

/-- The suffixes of `s` reachable by letting `.*` skip characters: the JS
dot stops at line terminators. -/
def starSuffixes : List Char → List (List Char)
  | [] => [[]]
  | c :: s => (c :: s) :: (if isLineTerm c then [] else starSuffixes s)

/-- Does the pattern match some prefix of the text (case-insensitively)? -/
def patPre : List PTok → List Char → Bool
  | [], _ => true
  | PTok.lit _ :: _, [] => false
  | PTok.lit c :: p, d :: s => (lowChar c == lowChar d) && patPre p s
  | PTok.star :: p, s => (starSuffixes s).any (fun s' => patPre p s')

/-- Unanchored regex test: the pattern matches somewhere in the text. -/
def patTest (p : List PTok) : List Char → Bool
  | [] => patPre p []
  | c :: s => patPre p (c :: s) || patTest p s

/-- Does one condition accept the (stringified) cell text? -/
def condMatches : Condition → List Char → Bool
  | Condition.phrase ph, sv => isSubstrList ph.data (sv.map lowChar)
  | Condition.pattern pt, sv => patTest pt sv

/-- JS `String(value ?? '')` for the scalar cell values testValue
stringifies (containers are intercepted before this conversion). -/
def jsCellStr : Option JValue → List Char
  | some (JValue.str s) => s.data
  | _ => []

/-- testValue (filterParser.js lines 76-97): empty condition lists and
container values pass; otherwise OR over the conditions. -/
def testValue (v : Option JValue) (conds : List Condition) : Bool :=
  if conds = [] then true
  else
    match v with
    | some (JValue.obj _) => true
    | some (JValue.arr _) => true
    | _ => conds.any (fun c => condMatches c (jsCellStr v))

/-- Declarative wildcard-pattern semantics: the empty pattern matches the
empty text, a literal matches its own character case-insensitively, and the
wildcard swallows any run of non-line-terminator characters. -/
inductive PatSem : List PTok → List Char → Prop
  | nil : PatSem [] []
  | lit {c d : Char} {p : List PTok} {s : List Char} :
      lowChar c = lowChar d → PatSem p s → PatSem (PTok.lit c :: p) (d :: s)
  | star {u s : List Char} {p : List PTok} :
      (∀ c ∈ u, isLineTerm c = false) → PatSem p s → PatSem (PTok.star :: p) (u ++ s)

theorem starSuffixes_mem_iff (s s' : List Char) :
    s' ∈ starSuffixes s ↔ ∃ u, s = u ++ s' ∧ ∀ c ∈ u, isLineTerm c = false := by
  induction s generalizing s' with
  | nil =>
    simp only [starSuffixes, List.mem_singleton]
    constructor
    · rintro rfl
      exact ⟨[], rfl, by simp⟩
    · rintro ⟨u, hu, _⟩
      exact (List.append_eq_nil.mp hu.symm).2
  | cons c t ih =>
    simp only [starSuffixes, List.mem_cons]
    constructor
    · rintro (rfl | hmem)
      · exact ⟨[], rfl, by simp⟩
      · by_cases hl : isLineTerm c
        · simp [hl] at hmem
        · simp only [hl, if_neg, Bool.false_eq_true, if_false] at hmem
          obtain ⟨u, hu, hnt⟩ := (ih _).mp hmem
          refine ⟨c :: u, by simp [hu], ?_⟩
          intro d hd
          rcases List.mem_cons.mp hd with rfl | hd'
          · simpa using hl
          · exact hnt d hd'
    · rintro ⟨u, hu, hnt⟩
      cases u with
      | nil => exact Or.inl (by simpa using hu.symm)
      | cons u0 u' =>
        have hc : u0 = c := by
          have := congrArg (fun l => l.head?) hu
          simpa using this.symm
        subst hc
        have ht : t = u' ++ s' := by
          have := congrArg (fun l => l.tail) hu
          simpa using this
        have hl : isLineTerm u0 = false := hnt u0 (by simp)
        right
        rw [hl]
        simp only [Bool.false_eq_true, if_false]
        exact (ih _).mpr ⟨u', ht, fun d hd => hnt d (List.mem_cons_of_mem _ hd)⟩

theorem PatSem_nil_inv {s : List Char} (h : PatSem [] s) : s = [] := by
  cases h
  rfl

theorem PatSem_lit_inv {c : Char} {p : List PTok} {s : List Char}
    (h : PatSem (PTok.lit c :: p) s) :
    ∃ d t, s = d :: t ∧ lowChar c = lowChar d ∧ PatSem p t := by
  cases h with
  | lit hlow hsem => exact ⟨_, _, rfl, hlow, hsem⟩

theorem PatSem_star_inv {p : List PTok} {s : List Char}
    (h : PatSem (PTok.star :: p) s) :
    ∃ u t, s = u ++ t ∧ (∀ c ∈ u, isLineTerm c = false) ∧ PatSem p t := by
  cases h with
  | star hnt hsem => exact ⟨_, _, rfl, hnt, hsem⟩

theorem patPre_iff : ∀ (p : List PTok) (s : List Char),
    patPre p s = true ↔ ∃ s1 s2, s = s1 ++ s2 ∧ PatSem p s1 := by
  intro p
  induction p with
  | nil =>
    intro s
    simp only [patPre, true_iff]
    exact ⟨[], s, rfl, PatSem.nil⟩
  | cons tok p ih =>
    intro s
    cases tok with
    | lit c =>
      cases s with
      | nil =>
        simp only [patPre, Bool.false_eq_true, false_iff]
        rintro ⟨s1, s2, hs, hsem⟩
        obtain ⟨d, t, rfl, _, _⟩ := PatSem_lit_inv hsem
        simp at hs
      | cons d t =>
        simp only [patPre, Bool.and_eq_true, beq_iff_eq, ih t]
        constructor
        · rintro ⟨hlow, t1, t2, rfl, hsem⟩
          exact ⟨d :: t1, t2, rfl, PatSem.lit hlow hsem⟩
        · rintro ⟨s1, s2, hs, hsem⟩
          obtain ⟨d0, t1, rfl, hlow, hsem'⟩ := PatSem_lit_inv hsem
          have hd : d0 = d := by
            have := congrArg (fun l => l.head?) hs
            simpa using this.symm
          have ht : t = t1 ++ s2 := by
            have := congrArg (fun l => l.tail) hs
            simpa using this
          subst hd
          exact ⟨hlow, t1, s2, ht, hsem'⟩
    | star =>
      simp only [patPre, List.any_eq_true]
      constructor
      · rintro ⟨s', hmem, hpre⟩
        obtain ⟨u, rfl, hnt⟩ := (starSuffixes_mem_iff _ s').mp hmem
        obtain ⟨t1, t2, rfl, hsem⟩ := (ih s').mp hpre
        exact ⟨u ++ t1, t2, by simp, PatSem.star hnt hsem⟩
      · rintro ⟨s1, s2, hs, hsem⟩
        obtain ⟨u, t, rfl, hnt, hsem'⟩ := PatSem_star_inv hsem
        refine ⟨t ++ s2, ?_, (ih (t ++ s2)).mpr ⟨t, s2, rfl, hsem'⟩⟩
        exact (starSuffixes_mem_iff s (t ++ s2)).mpr ⟨u, by rw [hs]; simp, hnt⟩

theorem patTest_iff (p : List PTok) : ∀ (s : List Char),
    patTest p s = true ↔ ∃ pre mid post, s = pre ++ mid ++ post ∧ PatSem p mid := by
  intro s
  induction s with
  | nil =>
    simp only [patTest, patPre_iff]
    constructor
    · rintro ⟨s1, s2, hs, hsem⟩
      exact ⟨[], s1, s2, by simpa using hs, hsem⟩
    · rintro ⟨pre, mid, post, hs, hsem⟩
      have h0 : pre = [] ∧ mid = [] ∧ post = [] := by simpa using hs.symm
      obtain ⟨rfl, rfl, rfl⟩ := h0
      exact ⟨[], [], rfl, hsem⟩
  | cons c t ih =>
    simp only [patTest, Bool.or_eq_true, patPre_iff, ih]
    constructor
    · rintro (⟨s1, s2, hs, hsem⟩ | ⟨pre, mid, post, hs, hsem⟩)
      · exact ⟨[], s1, s2, by simpa using hs, hsem⟩
      · exact ⟨c :: pre, mid, post, by simp [hs], hsem⟩
    · rintro ⟨pre, mid, post, hs, hsem⟩
      cases pre with
      | nil => exact Or.inl ⟨mid, post, by simpa using hs, hsem⟩
      | cons p0 pre' =>
        right
        have hc : p0 = c := by
          have := congrArg (fun l => l.head?) hs
          simpa using this.symm
        have ht : t = pre' ++ mid ++ post := by
          have := congrArg (fun l => l.tail) hs
          simpa using this
        exact ⟨pre', mid, post, ht, hsem⟩

theorem isSubstrList_iff (needle : List Char) : ∀ (hay : List Char),
    isSubstrList needle hay = true ↔ ∃ pre post, hay = pre ++ needle ++ post := by
  intro hay
  induction hay with
  | nil =>
    simp only [isSubstrList, List.isEmpty_iff]
    constructor
    · rintro rfl
      exact ⟨[], [], rfl⟩
    · rintro ⟨pre, post, hs⟩
      have h0 : pre = [] ∧ needle = [] ∧ post = [] := by simpa using hs.symm
      exact h0.2.1
  | cons c t ih =>
    simp only [isSubstrList, Bool.or_eq_true, ih]
    constructor
    · rintro (hpre | ⟨pre, post, hs⟩)
      · obtain ⟨post, hpost⟩ := List.isPrefixOf_iff_prefix.mp hpre
        exact ⟨[], post, by simpa using hpost.symm⟩
      · exact ⟨c :: pre, post, by simp [hs]⟩
    · rintro ⟨pre, post, hs⟩
      cases pre with
      | nil =>
        left
        exact List.isPrefixOf_iff_prefix.mpr ⟨post, by simpa using hs.symm⟩
      | cons p0 pre' =>
        right
        have ht : t = pre' ++ needle ++ post := by
          have := congrArg (fun l => l.tail) hs
          simpa using this
        exact ⟨pre', post, ht⟩

/-- Claim C7 counterexample: the compiled `*` wildcard is the regex `.*`,
and JS `.` does not match line terminators, so `A*B` matches "AxyzB" but
fails to match "A\nB" even though a newline is a run of characters: `*`
does not match every run of characters. -/
theorem filter_star_newline_counterexample :
    testValue (some (JValue.str "AxyzB")) (parseFilterQuery "A*B") = true ∧
    testValue (some (JValue.str "A\nB")) (parseFilterQuery "A*B") = false := by
  constructor
  · decide
  · decide

/-- Claim C7 (amended): each token of the filter query compiles to one
condition; a quoted token matches iff its content is a case-insensitive
substring of the cell's string value; in an unquoted token `~*` stands for
a literal asterisk, `~~` for a literal tilde, every other character is a
case-insensitive literal, and `*` matches any run of characters not
containing a line terminator (JS `.` semantics); the whole pattern matches
anywhere in the value (unanchored); test passes iff at least one condition
matches (OR across tokens), and any object or array cell value always
passes a simple filter. -/
theorem filterQuery_semantics :
    (∀ conds kvs, testValue (some (JValue.obj kvs)) conds = true) ∧
    (∀ conds xs, testValue (some (JValue.arr xs)) conds = true) ∧
    (∀ conds s, conds ≠ [] →
      (testValue (some (JValue.str s)) conds = true ↔
        ∃ c ∈ conds, condMatches c s.data = true)) ∧
    (∀ t, compileTerm ('"' :: t ++ ['"']) = Condition.phrase ⟨t.map lowChar⟩) ∧
    (∀ ph sv, condMatches (Condition.phrase ph) sv = true ↔
      ∃ pre post, sv.map lowChar = pre ++ ph.data ++ post) ∧
    (∀ pt sv, condMatches (Condition.pattern pt) sv = true ↔
      ∃ pre mid post, sv = pre ++ mid ++ post ∧ PatSem pt mid) ∧
    (∀ r, scanWild ('*' :: r) = PTok.star :: scanWild r) ∧
    (∀ r, scanWild ('~' :: '*' :: r) = PTok.lit '*' :: scanWild r) ∧
    (∀ r, scanWild ('~' :: '~' :: r) = PTok.lit '~' :: scanWild r) ∧
    (∀ c r, c ≠ '~' → c ≠ '*' → scanWild (c :: r) = PTok.lit c :: scanWild r) := by
  refine ⟨?_, ?_, ?_, ?_, ?_, ?_, ?_, ?_, ?_, ?_⟩
  · intro conds kvs
    by_cases h : conds = [] <;> simp [testValue, h]
  · intro conds xs
    by_cases h : conds = [] <;> simp [testValue, h]
  · intro conds s hne
    simp [testValue, hne, List.any_eq_true, jsCellStr]
  · intro t
    have h9 : ('"' :: t ++ ['"']).getLast? = some '"' := by
      rw [show ('"' :: t ++ ['"']) = ('"' :: t) ++ ['"'] from rfl]
      exact List.getLast?_concat _
    rw [compileTerm, h9, show ('"' :: t ++ ['"']).head? = some '"' from rfl]
    simp only [beq_self_eq_true, Bool.and_self, if_true]
    congr 1
    rw [show (('"' :: t ++ ['"']).drop 1) = t ++ ['"'] from rfl, List.dropLast_concat]
  · intro ph sv
    simpa [condMatches] using isSubstrList_iff ph.data (sv.map lowChar)
  · intro pt sv
    simpa [condMatches] using patTest_iff pt sv
  · intro r
    rw [scanWild.eq_def]
    norm_num
    intro hcontra
    exact absurd hcontra (by decide)
  · intro r
    rfl
  · intro r
    rfl
  · intro c r hc1 hc2
    rw [scanWild.eq_def]
    simp [hc1, hc2]

/-- Claim C7 witness: the scalar OR clause at a concrete query: the phrase
condition "b" accepts the cell "abc". -/
theorem filterQuery_semantics_witness :
    testValue (some (JValue.str "abc")) [Condition.phrase "b"] = true := by
  refine (filterQuery_semantics.2.2.1 [Condition.phrase "b"] "abc" (by decide)).mpr ?_
  exact ⟨Condition.phrase "b", by decide, by decide⟩

/-! ## Claim C2: path provenance of flattenRow cells

Every defined cell path a flattened row carries resolves, from the
collection the base path addresses, to exactly the cell's value. The proof
walks the header fold with an invariant on the work-in-progress rows: every
recorded cell path and every context path resolves to its value/item. -/

theorem digitChar_inj_lt : ∀ a < 10, ∀ b < 10, digitChar a = digitChar b → a = b := by
  decide

theorem natStr_inj : ∀ {m n : Nat}, natStr m = natStr n → m = n := by
  have hmap : ∀ (l1 l2 : List Nat), (∀ x ∈ l1, x < 10) → (∀ x ∈ l2, x < 10) →
      l1.map digitChar = l2.map digitChar → l1 = l2 := by
    intro l1
    induction l1 with
    | nil =>
      intro l2 _ _ h
      cases l2 with
      | nil => rfl
      | cons b l2' => simp at h
    | cons a l1' ih =>
      intro l2 h1 h2 h
      cases l2 with
      | nil => simp at h
      | cons b l2' =>
        simp only [List.map_cons, List.cons.injEq] at h
        have ha : a = b := digitChar_inj_lt a (h1 a (by simp)) b (h2 b (by simp)) h.1
        have := ih l2' (fun x hx => h1 x (by simp [hx])) (fun x hx => h2 x (by simp [hx])) h.2
        rw [ha, this]
  have hdig : ∀ (n : Nat), ∀ x ∈ Nat.digits 10 n, x < 10 := by
    intro n x hx
    exact Nat.digits_lt_base (by norm_num) hx
  have hzero : ∀ (n : Nat), n ≠ 0 → natStr n ≠ "0" := by
    intro n hn hcontra
    have hne : Nat.digits 10 n ≠ [] := Nat.digits_ne_nil_iff_ne_zero.mpr hn
    rw [natStr, if_neg hn] at hcontra
    have hdata : ((Nat.digits 10 n).map digitChar).reverse = ['0'] := by
      have := congrArg String.data hcontra
      simpa using this
    have hdigs : (Nat.digits 10 n).map digitChar = ['0'] := by
      have := congrArg List.reverse hdata
      simpa using this
    have hlen : Nat.digits 10 n = [Nat.digits 10 n |>.headI] := by
      cases hd : Nat.digits 10 n with
      | nil => exact absurd hd hne
      | cons d l =>
        rw [hd] at hdigs
        simp only [List.map_cons, List.cons.injEq] at hdigs
        have : l.map digitChar = [] := hdigs.2
        have hl : l = [] := by simpa using this
        simp [hl]
    have hd0 : (Nat.digits 10 n).headI = 0 := by
      have hmem : (Nat.digits 10 n).headI ∈ Nat.digits 10 n := by
        rw [hlen]
        simp
      have hlt := hdig n _ hmem
      rw [hlen] at hdigs
      simp only [List.map_cons, List.map_nil, List.cons.injEq] at hdigs
      exact digitChar_inj_lt _ hlt 0 (by norm_num) hdigs.1
    have : n = 0 := by
      have := Nat.ofDigits_digits 10 n
      rw [hlen, hd0] at this
      simpa using this.symm
    exact hn this
  intro m n h
  by_cases hm : m = 0 <;> by_cases hn : n = 0
  · rw [hm, hn]
  · exact absurd (by rw [hm] at h; exact h.symm) (hzero n hn)
  · exact absurd (by rw [hn] at h; exact h) (hzero m hm)
  · rw [natStr, if_neg hm, natStr, if_neg hn] at h
    have hdata := congrArg String.data h
    simp only at hdata
    have hrev := congrArg List.reverse hdata
    simp only [List.reverse_reverse] at hrev
    have := hmap _ _ (hdig m) (hdig n) hrev
    have := Nat.ofDigits_digits 10 m ▸ Nat.ofDigits_digits 10 n ▸ congrArg (Nat.ofDigits 10) this
    simpa [Nat.ofDigits_digits] using this

theorem find?_first {α : Type} (p : α → Bool) : ∀ (l : List α) (i : Nat) (h : i < l.length),
    (∀ j (hj : j < i), p (l.get ⟨j, by omega⟩) = false) → p (l.get ⟨i, h⟩) = true →
    l.find? p = some (l.get ⟨i, h⟩) := by
  intro l
  induction l with
  | nil => intro i h; simp at h
  | cons a l' ih =>
    intro i h hbefore hat
    cases i with
    | zero =>
      simp only [List.get] at hat
      simp [List.find?_cons, hat]
    | succ i' =>
      have ha : p a = false := by
        have := hbefore 0 (by omega)
        simpa [List.get] using this
      simp only [List.find?_cons, ha]
      exact ih i' (by simpa using h) (fun j hj => by
        have := hbefore (j + 1) (by omega)
        simpa [List.get] using this) (by simpa [List.get] using hat)

theorem find?_range_natStr (n i : Nat) (hi : i < n) :
    (List.range n).find? (fun j => natStr j == natStr i) = some i := by
  have hget : ∀ (j : Nat) (hj : j < n), (List.range n).get ⟨j, by simpa using hj⟩ = j := by
    intro j hj
    simp
  have := find?_first (fun j => natStr j == natStr i) (List.range n) i (by simpa using hi)
    (fun j hj => by
      rw [hget j (by omega)]
      simp only [beq_eq_false_iff_ne, ne_eq]
      intro hcontra
      exact absurd (natStr_inj hcontra) (by omega))
    (by rw [hget i hi]; simp)
  rw [this, hget i hi]

theorem lookupKey_of_lower_find {kvs : List (String × JValue)} {s : String}
    {q : String × JValue}
    (hq : kvs.find? (fun p => lowerStr p.1 == lowerStr s) = some q) :
    lookupKey kvs q.1 = some q.2 := by
  induction kvs with
  | nil => simp at hq
  | cons p rest ih =>
    rw [List.find?_cons] at hq
    by_cases hlow : (lowerStr p.1 == lowerStr s) = true
    · rw [hlow] at hq
      simp only [if_true] at hq
      cases hq
      simp [lookupKey, List.find?_cons]
    · rw [Bool.not_eq_true] at hlow
      rw [hlow] at hq
      simp only [Bool.false_eq_true, if_false] at hq
      have hq1 : (lowerStr q.1 == lowerStr s) = true := by
        have := List.find?_some hq
        simpa using this
      have hne : (p.1 == q.1) = false := by
        simp only [beq_eq_false_iff_ne, ne_eq]
        intro hcontra
        rw [hcontra, hq1] at hlow
        cases hlow
      simp only [lookupKey, List.find?_cons, hne, Bool.false_eq_true, if_false]
      simpa [lookupKey] using ih hq

/-- A case-insensitive hit records the actual key, and exact resolution of
that key finds the same value: no pair before the hit can carry the exact
key, because the exact key matches itself case-insensitively. -/
theorem ciChild_to_jsChild {v : JValue} {s k : String} {c : JValue}
    (h : ciChild v s = some (k, c)) : jsChild v (Seg.key k) = some c := by
  cases v with
  | null => simp [ciChild] at h
  | str _ => simp [ciChild] at h
  | obj kvs =>
    simp only [ciChild, Option.map_eq_some'] at h
    obtain ⟨q, hq, heq⟩ := h
    have hk : q.1 = k := by cases heq; rfl
    have hc : q.2 = c := by cases heq; rfl
    have hcore := lookupKey_of_lower_find hq
    rw [hk, hc] at hcore
    simp [jsChild, canonChild, hcore]
  | arr xs =>
    simp only [ciChild, Option.bind_eq_some] at h
    obtain ⟨i, hi, hmap⟩ := h
    simp only [Option.map_eq_some'] at hmap
    obtain ⟨w, hw, heq⟩ := hmap
    have hk : natStr i = k := by cases heq; rfl
    have hc : w = c := by cases heq; rfl
    have hlt : i < xs.length := by
      have := List.mem_of_find?_eq_some hi
      simpa using this
    have hfind := find?_range_natStr xs.length i hlt
    rw [← hc]
    simp [jsChild, canonChild, ← hk, hfind, hw]

theorem jsGet_append (p q : List Seg) : ∀ (v : JValue),
    jsGet v (p ++ q) = (jsGet v p).bind (fun w => jsGet w q) := by
  induction p with
  | nil => intro v; simp [jsGet]
  | cons s p' ih =>
    intro v
    cases hc : jsChild v s with
    | none => simp [jsGet, hc]
    | some c => simp [jsGet, hc, ih c]

theorem ciGet_to_jsGet : ∀ (segs : List String) (v vres : JValue) (actual : List String),
    ciGet v segs = some (vres, actual) → jsGet v (actual.map Seg.key) = some vres
  | [], v, vres, actual, h => by
      simp only [ciGet] at h
      cases h
      rfl
  | s :: rest, v, vres, actual, h => by
      simp only [ciGet] at h
      cases hc : ciChild v s with
      | none => rw [hc] at h; cases h
      | some p0 =>
        obtain ⟨k, c⟩ := p0
        rw [hc] at h
        simp only [Option.map_eq_some'] at h
        obtain ⟨⟨w, ks⟩, hrec, heq⟩ := h
        have hv : w = vres := by cases heq; rfl
        have ha : actual = k :: ks := by cases heq; rfl
        subst hv
        subst ha
        simp only [List.map_cons]
        rw [jsGet_cons_of_jsChild _ (ciChild_to_jsChild hc)]
        exact ciGet_to_jsGet rest c w ks hrec

theorem mem_upsert {α : Type} {m : List (String × α)} {k k' : String} {v v' : α}
    (h : (k', v') ∈ upsert m k v) : (k', v') = (k, v) ∨ (k', v') ∈ m := by
  simp only [upsert] at h
  by_cases ha : m.any (fun p => p.1 == k)
  · rw [if_pos ha] at h
    obtain ⟨q, hq, heq⟩ := List.mem_map.mp h
    by_cases hqk : (q.1 == k) = true
    · rw [if_pos hqk] at heq
      exact Or.inl heq.symm
    · rw [Bool.not_eq_true] at hqk
      rw [hqk] at heq
      simp only [Bool.false_eq_true, if_false] at heq
      exact Or.inr (heq ▸ hq)
  · rw [if_neg ha] at h
    rcases List.mem_append.mp h with hm | hnew
    · exact Or.inr hm
    · exact Or.inl (by simpa using hnew)

theorem findContext_cases (row : JValue) (rowIndex : Nat) (basePath : List Seg)
    (parentKey : String) (contexts : List (String × Ctx)) :
    (findContext row rowIndex basePath parentKey contexts).2
        = ⟨row, basePath ++ [Seg.idx rowIndex]⟩ ∨
      ∃ k, (k, (findContext row rowIndex basePath parentKey contexts).2) ∈ contexts := by
  rw [findContext]
  generalize hinit : (("", (⟨row, basePath ++ [Seg.idx rowIndex]⟩ : Ctx)) : String × Ctx) = init
  have hstep : ∀ (l : List (String × Ctx)) (acc : String × Ctx),
      (acc.2 = init.2 ∨ ∃ k, (k, acc.2) ∈ l ∨ (k, acc.2) ∈ contexts) → True := fun _ _ _ => trivial
  clear hstep
  have main : ∀ (l : List (String × Ctx)) (acc : String × Ctx),
      (∀ p ∈ l, p ∈ contexts) →
      (acc.2 = init.2 ∨ ∃ k, (k, acc.2) ∈ contexts) →
      ((l.foldl (fun a p =>
          if strStartsWith parentKey p.1 ∧ a.1.length < p.1.length then (p.1, p.2) else a)
        acc).2 = init.2 ∨
        ∃ k, (k, (l.foldl (fun a p =>
          if strStartsWith parentKey p.1 ∧ a.1.length < p.1.length then (p.1, p.2) else a)
          acc).2) ∈ contexts) := by
    intro l
    induction l with
    | nil => intro acc _ hacc; simpa using hacc
    | cons p l' ih =>
      intro acc hsub hacc
      simp only [List.foldl_cons]
      apply ih
      · intro q hq
        exact hsub q (by simp [hq])
      · by_cases hcond : strStartsWith parentKey p.1 ∧ acc.1.length < p.1.length
        · rw [if_pos hcond]
          exact Or.inr ⟨p.1, hsub p (by simp)⟩
        · rw [if_neg hcond]
          exact hacc
  have := main contexts init (fun p hp => hp) (Or.inl rfl)
  rw [← hinit] at this ⊢
  simpa using this

/-- Provenance for one cell: a defined path splits off the base path and
resolves, inside the collection, to exactly the cell's value. -/
def CellOk (data : List JValue) (basePath : List Seg) (cell : Cell) : Prop :=
  ∀ p, cell.path = some p → ∃ suffix v, p = basePath ++ suffix ∧ cell.value = some v ∧
    jsGet (JValue.arr data) suffix = some v

/-- Provenance for one context entry: its path resolves to its item. -/
def CtxOk (data : List JValue) (basePath : List Seg) (c : Ctx) : Prop :=
  ∃ suffix, c.path = basePath ++ suffix ∧ jsGet (JValue.arr data) suffix = some c.item

/-- The fold invariant: every recorded cell and every context entry of a
work-in-progress row has resolvable provenance. -/
def WipOk (data : List JValue) (basePath : List Seg) (w : Wip) : Prop :=
  (∀ k cell, (k, cell) ∈ w.values → CellOk data basePath cell) ∧
  (∀ k ctx, (k, ctx) ∈ w.contexts → CtxOk data basePath ctx)

theorem CtxOk_extend {data : List JValue} {basePath : List Seg} {c : Ctx}
    (hc : CtxOk data basePath c) {tail : List Seg} {w : JValue}
    (hres : jsGet c.item tail = some w) :
    CtxOk data basePath ⟨w, c.path ++ tail⟩ := by
  obtain ⟨suffix, hp, hget⟩ := hc
  refine ⟨suffix ++ tail, by rw [hp, List.append_assoc], ?_⟩
  rw [jsGet_append, hget]
  simpa using hres

theorem simpleCell_ok {data : List JValue} {row : JValue} {rowIndex : Nat}
    {basePath : List Seg} (header : String)
    (hrow : jsGet (JValue.arr data) [Seg.idx rowIndex] = some row) :
    CellOk data basePath (simpleCell row rowIndex basePath header) := by
  have hbase : CellOk data basePath ⟨some row, some (basePath ++ [Seg.idx rowIndex])⟩ := by
    intro p hp
    cases hp
    exact ⟨[Seg.idx rowIndex], row, rfl, rfl, hrow⟩
  have hci : ∀ (segs : List String), CellOk data basePath
      (match ciGet row segs with
        | some (v, actual) =>
            (⟨some v, some (basePath ++ [Seg.idx rowIndex] ++ actual.map Seg.key)⟩ : Cell)
        | none => ⟨none, none⟩) := by
    intro segs
    cases hc : ciGet row segs with
    | none =>
      simp only [hc]
      intro p hp
      cases hp
    | some pr =>
      obtain ⟨v, actual⟩ := pr
      simp only [hc]
      intro p hp
      cases hp
      refine ⟨[Seg.idx rowIndex] ++ actual.map Seg.key, v, by rw [List.append_assoc],
        rfl, ?_⟩
      rw [jsGet_append, hrow]
      simpa using ciGet_to_jsGet segs row v actual hc
  by_cases hval : header = "value"
  · simp only [simpleCell, if_pos hval]
    exact hbase
  · cases row with
    | obj kvs =>
      simp only [simpleCell, if_neg hval]
      exact hci _
    | arr xs =>
      simp only [simpleCell, if_neg hval]
      exact hci _
    | str s =>
      by_cases ht : header = "#text"
      · simp only [simpleCell, if_neg hval, if_pos ht]
        exact hbase
      · simp only [simpleCell, if_neg hval, if_neg ht]
        intro p hp
        cases hp
    | null =>
      simp only [simpleCell, if_neg hval]
      intro p hp
      cases hp

theorem flattenSimple_ok {data : List JValue} {row : JValue} {rowIndex : Nat}
    {basePath : List Seg} {header : String} {w : Wip}
    (hrow : jsGet (JValue.arr data) [Seg.idx rowIndex] = some row)
    (hw : WipOk data basePath w) :
    WipOk data basePath (flattenSimple row rowIndex basePath header w) := by
  refine ⟨?_, hw.2⟩
  intro k cell hmem
  rcases mem_upsert hmem with heq | hold
  · have : cell = simpleCell row rowIndex basePath header := by cases heq; rfl
    rw [this]
    exact simpleCell_ok header hrow
  · exact hw.1 k cell hold

theorem compChildCell_ok {data : List JValue} {basePath : List Seg} {item : JValue}
    {itemSuffix : List Seg} (child : String)
    (hitem : jsGet (JValue.arr data) itemSuffix = some item) :
    CellOk data basePath (compChildCell item (basePath ++ itemSuffix) child) := by
  rw [compChildCell]
  have hresolved : ∀ (segs : List String), CellOk data basePath
      (match ciGet item segs with
        | some (v, actual) =>
            (⟨some v, some (basePath ++ itemSuffix ++ actual.map Seg.key)⟩ : Cell)
        | none => ⟨none, none⟩) := by
    intro segs
    cases hci : ciGet item segs with
    | none =>
      intro p hp
      cases hp
    | some pr =>
      obtain ⟨v, actual⟩ := pr
      intro p hp
      cases hp
      refine ⟨itemSuffix ++ actual.map Seg.key, v, by rw [List.append_assoc], rfl, ?_⟩
      rw [jsGet_append, hitem]
      simpa using ciGet_to_jsGet segs item v actual hci
  by_cases hat : strStartsWith child "@"
  · simp only [hat, if_true]
    exact hresolved _
  · simp only [hat, Bool.false_eq_true, if_false]
    by_cases hv : child = "value"
    · simp only [hv, if_pos rfl]
      intro p hp
      cases hp
      exact ⟨itemSuffix, item, rfl, rfl, hitem⟩
    · simp only [if_neg hv]
      exact hresolved _

theorem upsert_values_ok {data : List JValue} {basePath : List Seg}
    {m : List (String × Cell)} {k : String} {cell : Cell}
    (hm : ∀ k' c', (k', c') ∈ m → CellOk data basePath c')
    (hc : CellOk data basePath cell) :
    ∀ k' c', (k', c') ∈ upsert m k cell → CellOk data basePath c' := by
  intro k' c' hmem
  rcases mem_upsert hmem with heq | hold
  · have : c' = cell := by cases heq; rfl
    rw [this]
    exact hc
  · exact hm k' c' hold

theorem upsert_contexts_ok {data : List JValue} {basePath : List Seg}
    {m : List (String × Ctx)} {k : String} {ctx : Ctx}
    (hm : ∀ k' c', (k', c') ∈ m → CtxOk data basePath c')
    (hc : CtxOk data basePath ctx) :
    ∀ k' c', (k', c') ∈ upsert m k ctx → CtxOk data basePath c' := by
  intro k' c' hmem
  rcases mem_upsert hmem with heq | hold
  · have : c' = ctx := by cases heq; rfl
    rw [this]
    exact hc
  · exact hm k' c' hold

theorem cellNone_ok {data : List JValue} {basePath : List Seg} :
    CellOk data basePath ⟨none, none⟩ := by
  intro p hp
  cases hp

theorem compFan_ok {data : List JValue} {basePath : List Seg} {w : Wip}
    {headerKey parentKey child : String} {context : Ctx} {dataBranch : JValue}
    {actualRel : List String}
    (hw : WipOk data basePath w)
    (hctx : CtxOk data basePath context)
    (hbranch : jsGet context.item (actualRel.map Seg.key) = some dataBranch) :
    ∀ w' ∈ compFan w headerKey parentKey child context dataBranch actualRel,
      WipOk data basePath w' := by
  obtain ⟨suffc, hpathc, hgetc⟩ := hctx
  have hgetB : jsGet (JValue.arr data) (suffc ++ actualRel.map Seg.key) = some dataBranch := by
    rw [jsGet_append, hgetc]
    simpa using hbranch
  have hsingle : ∀ (item : JValue),
      jsGet (JValue.arr data) (suffc ++ actualRel.map Seg.key) = some item →
      WipOk data basePath
        { values := upsert w.values headerKey
            (compChildCell item (context.path ++ actualRel.map Seg.key) child),
          contexts := upsert w.contexts parentKey
            ⟨item, context.path ++ actualRel.map Seg.key⟩ } := by
    intro item hget
    have hpath : context.path ++ actualRel.map Seg.key
        = basePath ++ (suffc ++ actualRel.map Seg.key) := by
      rw [hpathc]
      simp [List.append_assoc]
    constructor
    · refine upsert_values_ok hw.1 ?_
      rw [hpath]
      exact compChildCell_ok child hget
    · refine upsert_contexts_ok hw.2 ?_
      exact ⟨suffc ++ actualRel.map Seg.key, hpath, hget⟩
  cases dataBranch with
  | null =>
    intro w' hw'
    simp only [compFan, List.mem_singleton] at hw'
    subst hw'
    exact ⟨upsert_values_ok hw.1 cellNone_ok, hw.2⟩
  | str s =>
    intro w' hw'
    simp only [compFan, List.enum, List.enumFrom, List.map_cons, List.map_nil,
      Bool.false_eq_true, if_false, List.append_nil, List.mem_singleton] at hw'
    subst hw'
    exact hsingle (JValue.str s) hgetB
  | obj kvs =>
    intro w' hw'
    simp only [compFan, List.enum, List.enumFrom, List.map_cons, List.map_nil,
      Bool.false_eq_true, if_false, List.append_nil, List.mem_singleton] at hw'
    subst hw'
    exact hsingle (JValue.obj kvs) hgetB
  | arr xs =>
    intro w' hw'
    cases hxs : xs with
    | nil =>
      subst hxs
      simp only [compFan, List.mem_singleton] at hw'
      subst hw'
      exact ⟨upsert_values_ok hw.1 cellNone_ok, hw.2⟩
    | cons x xs' =>
      rw [hxs] at hw'
      simp only [compFan, List.mem_map] at hw'
      obtain ⟨pr, hpr, hw'eq⟩ := hw'
      obtain ⟨itemIndex, item⟩ := pr
      have hgetI : (x :: xs')[itemIndex]? = some item :=
        List.mk_mem_enum_iff_getElem?.mp hpr
      have hgetItem : jsGet (JValue.arr data)
          ((suffc ++ actualRel.map Seg.key) ++ [Seg.idx itemIndex]) = some item := by
        rw [jsGet_append, hgetB]
        rw [← hxs] at hgetI
        simp [jsGet, jsChild, canonChild, hgetI]
      subst hw'eq
      have hpath : context.path ++ actualRel.map Seg.key ++ [Seg.idx itemIndex]
          = basePath ++ ((suffc ++ actualRel.map Seg.key) ++ [Seg.idx itemIndex]) := by
        rw [hpathc]
        simp [List.append_assoc]
      show WipOk data basePath
        { values := upsert w.values headerKey
            (compChildCell item
              (context.path ++ actualRel.map Seg.key ++ [Seg.idx itemIndex]) child),
          contexts := upsert w.contexts parentKey
            ⟨item, context.path ++ actualRel.map Seg.key ++ [Seg.idx itemIndex]⟩ }
      refine ⟨?_, ?_⟩
      · refine upsert_values_ok hw.1 ?_
        rw [hpath]
        exact compChildCell_ok child hgetItem
      · refine upsert_contexts_ok hw.2 ?_
        exact ⟨(suffc ++ actualRel.map Seg.key) ++ [Seg.idx itemIndex], hpath, hgetItem⟩

theorem flattenComp_ok {data : List JValue} {row : JValue} {rowIndex : Nat}
    {basePath : List Seg} {parent : List String} {child : String} {w : Wip}
    (hrow : jsGet (JValue.arr data) [Seg.idx rowIndex] = some row)
    (hw : WipOk data basePath w) :
    ∀ w' ∈ flattenComp row rowIndex basePath parent child w, WipOk data basePath w' := by
  have hctx : CtxOk data basePath
      (findContext row rowIndex basePath (joinDots parent) w.contexts).2 := by
    rcases findContext_cases row rowIndex basePath (joinDots parent) w.contexts with
      heq | ⟨k, hmem⟩
    · rw [heq]
      exact ⟨[Seg.idx rowIndex], rfl, hrow⟩
    · exact hw.2 k _ hmem
  rcases hfc : findContext row rowIndex basePath (joinDots parent) w.contexts with ⟨lp, ctx⟩
  have hctx2 : CtxOk data basePath ctx := by
    rw [hfc] at hctx
    exact hctx
  rw [flattenComp]
  intro w' hw'
  rw [hfc] at hw'
  cases hci : ciGet ctx.item (parent.drop (dotSegCount lp)) with
  | none =>
    have hw'2 : w' =
        Wip.mk (upsert w.values (getHeaderKey (Header.comp parent child)) (Cell.mk none none))
          w.contexts := by
      simpa [hci] using hw'
    subst hw'2
    exact ⟨upsert_values_ok hw.1 cellNone_ok, hw.2⟩
  | some pr =>
    obtain ⟨dataBranch, actualRel⟩ := pr
    have hw'3 : w' ∈ compFan w (getHeaderKey (Header.comp parent child)) (joinDots parent)
        child ctx dataBranch actualRel := by
      simp only [hci] at hw'
      exact hw'
    exact compFan_ok hw hctx2 (ciGet_to_jsGet _ _ _ _ hci) w' hw'3

theorem flattenStep_ok {data : List JValue} {row : JValue} {rowIndex : Nat}
    {basePath : List Seg} {header : Header} {w : Wip}
    (hrow : jsGet (JValue.arr data) [Seg.idx rowIndex] = some row)
    (hw : WipOk data basePath w) :
    ∀ w' ∈ flattenStep row rowIndex basePath header w, WipOk data basePath w' := by
  cases header with
  | plain s =>
    intro w' hw'
    simp only [flattenStep, List.mem_singleton] at hw'
    subst hw'
    exact flattenSimple_ok hrow hw
  | comp parent child =>
    exact flattenComp_ok hrow hw

/-- Claim C2: every cell of every flattened row that carries a defined
source path satisfies the provenance invariant — the path extends the base
path, and resolving the extension against the collection (the array the
base path addresses, of which the flattened row is row `rowIndex`) yields
exactly the cell's value. This covers plain, `@`-attribute, `value`/`#text`
and composite columns, including after fan-out. -/
theorem flattenRow_path_provenance (data : List JValue) (row : JValue) (rowIndex : Nat)
    (headers : List Header) (basePath : List Seg)
    (hrow : data[rowIndex]? = some row) :
    ∀ fr ∈ flattenRow row rowIndex headers basePath,
      ∀ k cell, (k, cell) ∈ fr.values → ∀ p, cell.path = some p →
        ∃ suffix v, p = basePath ++ suffix ∧ cell.value = some v ∧
          jsGet (JValue.arr data) suffix = some v := by
  have hrow' : jsGet (JValue.arr data) [Seg.idx rowIndex] = some row := by
    simp [jsGet, jsChild, canonChild, hrow]
  have hfold : ∀ (hs : List Header) (ws : List Wip),
      (∀ w ∈ ws, WipOk data basePath w) →
      ∀ w ∈ hs.foldl (fun acc h => acc.flatMap (flattenStep row rowIndex basePath h)) ws,
        WipOk data basePath w := by
    intro hs
    induction hs with
    | nil => intro ws hws; simpa using hws
    | cons h hs' ih =>
      intro ws hws
      simp only [List.foldl_cons]
      apply ih
      intro w hw
      obtain ⟨w0, hw0, hwstep⟩ := List.mem_flatMap.mp hw
      exact flattenStep_ok hrow' (hws w0 hw0) w hwstep
  intro fr hfr k cell hcell p hp
  simp only [flattenRow, List.mem_map] at hfr
  obtain ⟨w, hwmem, rfl⟩ := hfr
  have hok := hfold headers [⟨[], []⟩] (by
    intro w' hw'
    simp only [List.mem_singleton] at hw'
    subst hw'
    exact ⟨fun _ _ h => by simp at h, fun _ _ h => by simp at h⟩) w hwmem
  exact hok.1 k cell hcell p hp

/-- Claim C2 witness: the provenance theorem applied to the concrete single
row `{A: "x"}` with the plain column `A` over an empty base path: the one
produced cell's path `[0, "A"]` splits as `[] ++ [0, "A"]` and resolves in
the collection to the cell's value `"x"`. -/
theorem flattenRow_path_provenance_witness :
    ∃ suffix v, ([Seg.idx 0, Seg.key "A"] : List Seg) = [] ++ suffix ∧
      (some (JValue.str "x") : Option JValue) = some v ∧
      jsGet (JValue.arr [JValue.obj [("A", JValue.str "x")]]) suffix = some v :=
  flattenRow_path_provenance [JValue.obj [("A", JValue.str "x")]]
    (JValue.obj [("A", JValue.str "x")]) 0 [Header.plain "A"] [] rfl
    ⟨[("A", ⟨some (JValue.str "x"), some [Seg.idx 0, Seg.key "A"]⟩)], 0⟩
    (by decide)
    "A" ⟨some (JValue.str "x"), some [Seg.idx 0, Seg.key "A"]⟩
    (by decide)
    [Seg.idx 0, Seg.key "A"] rfl

/-! ## Claim C4: shared-parent fan-out -/

theorem splitDotsAux_no_dot : ∀ (l : List Char), '.' ∉ l →
    ∀ acc, splitDotsAux l acc = [acc.reverse ++ l]
  | [], _, acc => by simp [splitDotsAux]
  | c :: rest, h, acc => by
    rw [List.mem_cons] at h
    push_neg at h
    rw [splitDotsAux, if_neg (fun hh => h.1 hh.symm),
      splitDotsAux_no_dot rest h.2 (c :: acc)]
    simp

theorem splitDotsAux_dot (m : List Char) : ∀ (l : List Char), '.' ∉ l →
    ∀ acc, splitDotsAux (l ++ '.' :: m) acc = (acc.reverse ++ l) :: splitDotsAux m []
  | [], _, acc => by simp [splitDotsAux]
  | c :: rest, h, acc => by
    rw [List.mem_cons] at h
    push_neg at h
    rw [List.cons_append, splitDotsAux, if_neg (fun hh => h.1 hh.symm),
      splitDotsAux_dot m rest h.2 (c :: acc)]
    simp

theorem splitDots_joinDots : ∀ (parent : List String),
    (∀ s ∈ parent, s ≠ "" ∧ '.' ∉ s.data) → parent ≠ [] →
    splitDots (joinDots parent) = parent
  | [], _, hne => absurd rfl hne
  | [s], h, _ => by
    rw [show joinDots [s] = s from rfl, splitDots,
      splitDotsAux_no_dot s.data (h s (by simp)).2 []]
    rfl
  | s :: t :: rest, h, _ => by
    have ih := splitDots_joinDots (t :: rest)
      (fun x hx => h x (List.mem_cons_of_mem _ hx)) (by simp)
    have hj : joinDots (s :: t :: rest) = s ++ "." ++ joinDots (t :: rest) := rfl
    have hdata : (s ++ "." ++ joinDots (t :: rest)).data
        = s.data ++ '.' :: (joinDots (t :: rest)).data := by
      cases s with
      | mk ds =>
        cases hjr : joinDots (t :: rest) with
        | mk dr => simp [String.instAppend, String.append]
    rw [hj, splitDots, hdata, splitDotsAux_dot _ s.data (h s (by simp)).2 []]
    simp only [List.map_cons, List.reverse_nil, List.nil_append]
    exact congrArg (fun l => (⟨s.data⟩ : String) :: l) ih

theorem dotSegCount_joinDots (parent : List String)
    (h : ∀ s ∈ parent, s ≠ "" ∧ '.' ∉ s.data) (hne : parent ≠ []) :
    dotSegCount (joinDots parent) = parent.length := by
  rw [dotSegCount, splitDots_joinDots parent h hne,
    List.filter_eq_self.mpr (fun a ha => by simpa using (h a ha).1)]

theorem joinDots_length_pos : ∀ (parent : List String), parent ≠ [] →
    (∀ s ∈ parent, s ≠ "") → 0 < (joinDots parent).length
  | [], hne, _ => absurd rfl hne
  | [s], _, h => by
    have hs := h s (by simp)
    have hd : s.data ≠ [] := by
      intro hd
      exact hs (by cases s with | mk d => cases hd; rfl)
    have hp : 0 < s.data.length := List.length_pos.mpr hd
    rw [show joinDots [s] = s from rfl]
    exact String.length_data s ▸ hp
  | s :: t :: rest, _, h => by
    have hj : joinDots (s :: t :: rest) = s ++ "." ++ joinDots (t :: rest) := rfl
    rw [hj, String.length_append, String.length_append]
    have hdot : (".").length = 1 := rfl
    omega

theorem length_flatMap_sum {α β : Type} (l : List α) (f : α → List β) :
    (l.flatMap f).length = (l.map (fun a => (f a).length)).sum := by
  induction l with
  | nil => rfl
  | cons x xs ih => simp [List.flatMap_cons, ih]

theorem sum_map_ones {α : Type} : ∀ (l : List α), (l.map (fun _ => (1 : Nat))).sum = l.length
  | [] => rfl
  | x :: xs => by simp [sum_map_ones xs, Nat.add_comm]

/-- The first composite column over a nonempty array branch, starting from a
work-in-progress row with an empty context map, fans out to one row per
item, and each produced row's context map is exactly the one entry keyed by
the joined parent path, holding one of the items. -/
theorem flattenComp_first (row : JValue) (rowIndex : Nat) (basePath : List Seg)
    (parent : List String) (c1 : String) (vals : List (String × Cell))
    (items : List JValue) (actual : List String)
    (hci : ciGet row parent = some (JValue.arr items, actual))
    (hne : items ≠ []) :
    (flattenComp row rowIndex basePath parent c1 ⟨vals, []⟩).length = items.length ∧
    ∀ w' ∈ flattenComp row rowIndex basePath parent c1 ⟨vals, []⟩,
      ∃ it p, it ∈ items ∧ w'.contexts = [(joinDots parent, ⟨it, p⟩)] := by
  have hstep : flattenComp row rowIndex basePath parent c1 ⟨vals, []⟩
      = compFan ⟨vals, []⟩ (getHeaderKey (Header.comp parent c1)) (joinDots parent) c1
          ⟨row, basePath ++ [Seg.idx rowIndex]⟩ (JValue.arr items) actual := by
    rw [flattenComp]
    rw [show findContext row rowIndex basePath (joinDots parent) (Wip.mk vals []).contexts
        = ("", ⟨row, basePath ++ [Seg.idx rowIndex]⟩) from rfl]
    simp only [show dotSegCount "" = 0 from rfl, List.drop_zero, hci]
  cases items with
  | nil => exact absurd rfl hne
  | cons x xs =>
    refine ⟨?_, ?_⟩
    · rw [hstep]
      simp [compFan, List.enum_length]
    · intro w' hw'
      rw [hstep] at hw'
      simp only [compFan, List.mem_map] at hw'
      obtain ⟨pr, hpr, hw'eq⟩ := hw'
      obtain ⟨i, it⟩ := pr
      have hgetI : (x :: xs)[i]? = some it := List.mk_mem_enum_iff_getElem?.mp hpr
      have hmem : it ∈ x :: xs := by
        obtain ⟨hlt, hget⟩ := List.getElem?_eq_some.mp hgetI
        exact hget ▸ List.getElem_mem hlt
      subst hw'eq
      exact ⟨it, _, hmem, rfl⟩

/-- Whether a value is a JS array (the `Array.isArray` test compFan makes). -/
def isArrB : JValue → Bool
  | JValue.arr _ => true
  | _ => false

/-- A later composite column whose joined parent path is exactly the one
context key reuses that context; when the context item is not an array the
column adds no rows (the work-in-progress row maps to exactly one). -/
theorem flattenComp_second_length (row : JValue) (rowIndex : Nat) (basePath : List Seg)
    (parent : List String) (c2 : String) (w : Wip) (it : JValue) (p : List Seg)
    (hctxs : w.contexts = [(joinDots parent, ⟨it, p⟩)])
    (hflat : isArrB it = false)
    (hseg : dotSegCount (joinDots parent) = parent.length)
    (hpos : 0 < (joinDots parent).length) :
    (flattenComp row rowIndex basePath parent c2 w).length = 1 := by
  have hfc : findContext row rowIndex basePath (joinDots parent) w.contexts
      = ((joinDots parent), ⟨it, p⟩) := by
    rw [hctxs, findContext, List.foldl_cons, List.foldl_nil]
    rw [if_pos ?_]
    constructor
    · show strStartsWith (joinDots parent) (joinDots parent) = true
      rw [strStartsWith]
      exact List.isPrefixOf_iff_prefix.mpr (List.prefix_refl _)
    · simpa using hpos
  rw [flattenComp, hfc]
  simp only [hseg, List.drop_length]
  show (compFan w (getHeaderKey (Header.comp parent c2)) (joinDots parent) c2
      ⟨it, p⟩ it []).length = 1
  cases it with
  | null => rfl
  | str s => rfl
  | obj kvs => rfl
  | arr xs => exact absurd hflat (by simp [isArrB])

/-- Claim C4 counterexample: two composite columns with the same parent
`["A"]` over the row `{A: [[x, y], [z]]}` — the parent resolves to a 2-item
sequence, yet flattening yields 3 rows, not 2: the second column re-fans
each context item that is itself an array (here into 2 and 1 rows), so the
fan-out is not once per distinct parent path. -/
theorem flattenRow_shared_parent_counterexample :
    (ciGet (JValue.obj [("A", JValue.arr [JValue.arr [JValue.str "x", JValue.str "y"],
        JValue.arr [JValue.str "z"]])]) ["A"]).map (fun q => q.1)
      = some (JValue.arr [JValue.arr [JValue.str "x", JValue.str "y"],
          JValue.arr [JValue.str "z"]]) ∧
    [JValue.arr [JValue.str "x", JValue.str "y"], JValue.arr [JValue.str "z"]].length = 2 ∧
    (flattenRow (JValue.obj [("A", JValue.arr [JValue.arr [JValue.str "x", JValue.str "y"],
        JValue.arr [JValue.str "z"]])]) 0
      [Header.comp ["A"] "b", Header.comp ["A"] "c"] []).length = 3 := by
  decide

/-- Claim C4 (amended): for a pair of composite columns with the same
parent path — components nonempty and dot-free — whose parent resolves to
a nonempty N-item sequence of non-array items, flattenRow fans out once per
distinct parent path: the second column reuses the context established by
the first and adds no rows, so the row yields exactly N flattened rows, not
N*N. (When an item is itself an array, the second column re-fans it; see
the counterexample.) -/
theorem flattenRow_shared_parent_fanout (row : JValue) (rowIndex : Nat)
    (basePath : List Seg) (parent : List String) (c1 c2 : String)
    (items : List JValue) (actual : List String)
    (hcomp : ∀ s ∈ parent, s ≠ "" ∧ '.' ∉ s.data)
    (hpne : parent ≠ [])
    (hci : ciGet row parent = some (JValue.arr items, actual))
    (hne : items ≠ [])
    (hflat : ∀ it ∈ items, isArrB it = false) :
    (flattenRow row rowIndex [Header.comp parent c1, Header.comp parent c2] basePath).length
      = items.length := by
  have hseg := dotSegCount_joinDots parent hcomp hpne
  have hpos := joinDots_length_pos parent hpne (fun s hs => (hcomp s hs).1)
  obtain ⟨hlen1, hmem1⟩ :=
    flattenComp_first row rowIndex basePath parent c1 [] items actual hci hne
  rw [flattenRow]
  simp only [List.length_map, List.foldl_cons, List.foldl_nil]
  rw [show ([(⟨[], []⟩ : Wip)].flatMap
        (flattenStep row rowIndex basePath (Header.comp parent c1)))
      = flattenComp row rowIndex basePath parent c1 ⟨[], []⟩ by
    simp [flattenStep]]
  rw [length_flatMap_sum]
  have hone : ∀ w ∈ flattenComp row rowIndex basePath parent c1 ⟨[], []⟩,
      (flattenStep row rowIndex basePath (Header.comp parent c2) w).length = 1 := by
    intro w hw
    obtain ⟨it, pth, hit, hctxs⟩ := hmem1 w hw
    exact flattenComp_second_length row rowIndex basePath parent c2 w it pth hctxs
      (hflat it hit) hseg hpos
  rw [List.map_congr_left hone, sum_map_ones, hlen1]

/-- Claim C4 witness: the amended fan-out theorem at the concrete row
`{A: [{B:"1"}, {B:"2"}]}` with two composite columns over the shared parent
`["A"]`: the result has exactly 2 rows, the item count. -/
theorem flattenRow_shared_parent_fanout_witness :
    (flattenRow (JValue.obj [("A", JValue.arr [JValue.obj [("B", JValue.str "1")],
        JValue.obj [("B", JValue.str "2")]])]) 0
      [Header.comp ["A"] "b", Header.comp ["A"] "c"] []).length
      = [JValue.obj [("B", JValue.str "1")], JValue.obj [("B", JValue.str "2")]].length :=
  flattenRow_shared_parent_fanout
    (JValue.obj [("A", JValue.arr [JValue.obj [("B", JValue.str "1")],
      JValue.obj [("B", JValue.str "2")]])]) 0 [] ["A"] "b" "c"
    [JValue.obj [("B", JValue.str "1")], JValue.obj [("B", JValue.str "2")]] ["A"]
    (by decide) (by decide) (by decide) (by decide) (by decide)

/-! ## Claim C8: advanced filters (DataTable.jsx checkPathInObject,
rowMatchesAdvancedFilter, filteredRows) -/

/-- checkPathInObject (DataTable.jsx lines 252-281): an array target matches
when some element matches the full remaining path; an object target resolves
the next segment case-insensitively and either tests the final value (a
final array element-wise) or recurses; anything else — or an object with an
exhausted path — fails. `attach` only carries the membership evidence for
termination; the recursion is the JS one. -/
def checkPathInObject : JValue → List String → List Condition → Bool
  | JValue.arr xs, segs, conds =>
      xs.attach.any (fun item => checkPathInObject item.1 segs conds)
  | JValue.obj kvs, seg :: rest, conds =>
      (match kvs.find? (fun p => lowerStr p.1 == lowerStr seg) with
      | none => false
      | some kv =>
          if rest.isEmpty then
            match kv.2 with
            | JValue.arr ys => ys.any (fun item => testValue (some item) conds)
            | v => testValue (some v) conds
          else checkPathInObject kv.2 rest conds)
  | _, _, _ => false
termination_by target segs _ => (segs.length, sizeOf target)
decreasing_by
  · have h := List.sizeOf_lt_of_mem item.2
    exact Prod.Lex.right _ (by simp; omega)
  · exact Prod.Lex.left _ _ (by simp)

/-- The spec's declarative reading of the advanced-filter descent: at a
sequence, SOME element matches the remaining path; at the final segment a
sequence matches iff some element passes the conditions, a scalar is tested
directly; otherwise resolve the segment case-insensitively and continue. -/
inductive PathSem (conds : List Condition) : JValue → List String → Prop where
  | arrStep {xs : List JValue} {segs : List String} {it : JValue} :
      it ∈ xs → PathSem conds it segs → PathSem conds (JValue.arr xs) segs
  | objLast {kvs : List (String × JValue)} {seg : String} {kv : String × JValue} :
      kvs.find? (fun p => lowerStr p.1 == lowerStr seg) = some kv →
      isArrB kv.2 = false → testValue (some kv.2) conds = true →
      PathSem conds (JValue.obj kvs) [seg]
  | objLastArr {kvs : List (String × JValue)} {seg : String} {kv : String × JValue}
      {ys : List JValue} {it : JValue} :
      kvs.find? (fun p => lowerStr p.1 == lowerStr seg) = some kv →
      kv.2 = JValue.arr ys → it ∈ ys → testValue (some it) conds = true →
      PathSem conds (JValue.obj kvs) [seg]
  | objStep {kvs : List (String × JValue)} {seg : String} {rest : List String}
      {kv : String × JValue} :
      rest ≠ [] →
      kvs.find? (fun p => lowerStr p.1 == lowerStr seg) = some kv →
      PathSem conds kv.2 rest → PathSem conds (JValue.obj kvs) (seg :: rest)

/-- The executable descent agrees with the declarative existential
semantics. -/
theorem checkPathInObject_iff : ∀ (target : JValue) (segs : List String)
    (conds : List Condition),
    checkPathInObject target segs conds = true ↔ PathSem conds target segs := by
  intro target segs conds
  induction target, segs, conds using checkPathInObject.induct with
  | case1 xs segs conds ih =>
    rw [checkPathInObject]
    constructor
    · intro h
      rw [List.any_eq_true] at h
      obtain ⟨⟨it, hmem⟩, _, hit⟩ := h
      exact PathSem.arrStep hmem ((ih ⟨it, hmem⟩).mp hit)
    · intro h
      cases h with
      | arrStep hmem hps =>
        rw [List.any_eq_true]
        exact ⟨⟨_, hmem⟩, List.mem_attach _ _, (ih ⟨_, hmem⟩).mpr hps⟩
  | case2 kvs seg rest conds hf =>
    rw [checkPathInObject]
    simp only [hf]
    constructor
    · intro h
      exact absurd h (by simp)
    · intro h
      cases h with
      | objLast hfind _ _ => rw [hf] at hfind; cases hfind
      | objLastArr hfind _ _ _ => rw [hf] at hfind; cases hfind
      | objStep _ hfind _ => rw [hf] at hfind; cases hfind
  | case3 kvs seg rest conds kv hf hemp a harr =>
    have hrest : rest = [] := by simpa using hemp
    subst hrest
    rw [checkPathInObject]
    simp only [hf]
    rw [if_pos hemp]
    simp only [harr]
    constructor
    · intro h
      rw [List.any_eq_true] at h
      obtain ⟨it, hmem, hit⟩ := h
      exact PathSem.objLastArr hf harr hmem hit
    · intro h
      cases h with
      | objLast hfind hnarr _ =>
        rw [hf] at hfind
        cases hfind
        rw [harr] at hnarr
        simp [isArrB] at hnarr
      | objLastArr hfind hisarr hmem htest =>
        rw [hf] at hfind
        cases hfind
        rw [harr] at hisarr
        cases hisarr
        rw [List.any_eq_true]
        exact ⟨_, hmem, htest⟩
      | objStep hne _ _ => exact absurd rfl hne
  | case4 kvs seg rest conds kv hf hemp hnotarr =>
    have hrest : rest = [] := by simpa using hemp
    subst hrest
    rw [checkPathInObject]
    simp only [hf]
    rw [if_pos hemp]
    constructor
    · intro h
      refine PathSem.objLast hf ?_ h
      cases hkv : kv.2 with
      | arr ys => exact (hnotarr ys hkv).elim
      | null => rfl
      | str s => rfl
      | obj o => rfl
    · intro h
      cases h with
      | objLast hfind _ htest => rw [hf] at hfind; cases hfind; exact htest
      | objLastArr hfind hisarr _ _ =>
        rw [hf] at hfind; cases hfind; exact (hnotarr _ hisarr).elim
      | objStep hne _ _ => exact absurd rfl hne
  | case5 kvs seg rest conds kv hf hemp ih =>
    rw [checkPathInObject]
    simp only [hf]
    rw [if_neg hemp]
    have hrest : rest ≠ [] := by
      intro hh
      subst hh
      exact hemp rfl
    constructor
    · intro h
      exact PathSem.objStep hrest hf (ih.mp h)
    · intro h
      cases h with
      | objLast hfind _ _ => exact absurd rfl hrest
      | objLastArr hfind _ _ _ => exact absurd rfl hrest
      | objStep _ hfind hps => rw [hf] at hfind; cases hfind; exact ih.mpr hps
  | case6 x x1 x2 h1 h2 =>
    have hfalse : checkPathInObject x x1 x2 = false := by
      cases x with
      | null => rw [checkPathInObject.eq_def]
      | str s => rw [checkPathInObject.eq_def]
      | arr xs => exact (h1 xs rfl).elim
      | obj kvs =>
        cases x1 with
        | nil => rw [checkPathInObject.eq_def]
        | cons a b => exact (h2 kvs a b rfl rfl).elim
    rw [hfalse]
    simp only [Bool.false_eq_true, false_iff]
    intro h
    cases x with
    | null => cases h
    | str s => cases h
    | arr xs => exact h1 xs rfl
    | obj kvs =>
      cases x1 with
      | nil => cases h
      | cons a b => exact h2 kvs a b rfl rfl

/-- A parsed per-column filter: a simple query's conditions, or an advanced
filter's key path plus conditions (DataTableContent's parsedFilters). -/
inductive FilterSpec where
  | simple : List Condition → FilterSpec
  | advanced : List String → List Condition → FilterSpec
deriving DecidableEq

def specConds : FilterSpec → List Condition
  | FilterSpec.simple conds => conds
  | FilterSpec.advanced _ conds => conds

/-- JS truthiness of a document value (`if (!originalRow) return false`):
null and the empty string are falsy, objects and arrays always truthy. -/
def jsTruthy : JValue → Bool
  | JValue.null => false
  | JValue.str s => !(s == "")
  | _ => true

/-- rowMatchesAdvancedFilter (DataTable.jsx lines 337-349): vacuously true
unless the filtered column is a plain (string, truthy) header; then the
pre-flatten column value is fetched case-insensitively and tested with
checkPathInObject; a missing or null column value fails. -/
def rowMatchesAdvancedFilter (headers : List Header) (originalRow : JValue)
    (headerKey : String) (key : List String) (conds : List Condition) : Bool :=
  match headers.find? (fun h => getHeaderKey h == headerKey) with
  | some (Header.plain s) =>
    if s = "" then true
    else
      match ciGet originalRow [s] with
      | none => false
      | some (v, _) =>
        match v with
        | JValue.null => false
        | _ => checkPathInObject v key conds
  | _ => true

def lookupCell (vals : List (String × Cell)) (k : String) : Option Cell :=
  (vals.find? (fun p => p.1 == k)).map (fun p => p.2)

/-- cellMatchesSimpleFilter: `flatRow[headerKey]?.value` through testValue. -/
def cellMatchesSimpleFilter (fr : FlatRow) (headerKey : String)
    (conds : List Condition) : Bool :=
  testValue ((lookupCell fr.values headerKey).bind (fun c => c.value)) conds

/-- The per-flattened-row predicate of filteredRows' final `.filter`: every
active filter must pass; an advanced filter looks up the ORIGINAL row by
`__originalIndex` (out-of-range or falsy row fails) and delegates to
rowMatchesAdvancedFilter; a simple filter tests the flattened cell. -/
def keepRow (data : List JValue) (headers : List Header)
    (active : List (String × FilterSpec)) (fr : FlatRow) : Bool :=
  active.all (fun p =>
    match p.2 with
    | FilterSpec.advanced key conds =>
      match data[fr.originalIndex]? with
      | some orig =>
        if jsTruthy orig then rowMatchesAdvancedFilter headers orig p.1 key conds
        else false
      | none => false
    | FilterSpec.simple conds => cellMatchesSimpleFilter fr p.1 conds)

/-- `allFlatRows = data.flatMap((row, rowIndex) => flattenRow(...))`. -/
def allFlatRows (data : List JValue) (headers : List Header)
    (basePath : List Seg) : List FlatRow :=
  data.enum.flatMap (fun p => flattenRow p.2 p.1 headers basePath)

/-- filteredRows (DataTable.jsx lines 357-371): all rows when there is no
filter or no active filter, else the keepRow filter. -/
def filteredRows (data : List JValue) (headers : List Header)
    (basePath : List Seg) (fs : List (String × FilterSpec)) : List FlatRow :=
  let allRows := allFlatRows data headers basePath
  if fs.isEmpty then allRows
  else
    let active := fs.filter (fun p => !(specConds p.2).isEmpty)
    if active.isEmpty then allRows
    else allRows.filter (keepRow data headers active)

/-- Claim C8: (1) the advanced-filter descent agrees with the declarative
existential semantics — at a sequence SOME element must match the remaining
path, at the final segment a sequence matches iff some element passes the
conditions while a scalar is tested directly; (2) under one active advanced
filter over a plain-string column holding a non-null value, a flattened row
is kept iff it is a flattened row at all and the UNDERLYING ORIGINAL row's
column value satisfies that predicate — the test depends only on
`__originalIndex`, not on the flattened sub-row. -/
theorem advancedFilter_semantics :
    (∀ (target : JValue) (segs : List String) (conds : List Condition),
       checkPathInObject target segs conds = true ↔ PathSem conds target segs) ∧
    (∀ (data : List JValue) (headers : List Header) (basePath : List Seg)
       (hk : String) (key : List String) (conds : List Condition) (s : String)
       (fr : FlatRow) (orig v : JValue) (actual : List String),
       conds ≠ [] →
       headers.find? (fun h => getHeaderKey h == hk) = some (Header.plain s) →
       s ≠ "" →
       data[fr.originalIndex]? = some orig →
       jsTruthy orig = true →
       ciGet orig [s] = some (v, actual) →
       v ≠ JValue.null →
       (fr ∈ filteredRows data headers basePath [(hk, FilterSpec.advanced key conds)] ↔
        fr ∈ allFlatRows data headers basePath ∧ PathSem conds v key)) := by
  refine ⟨checkPathInObject_iff, ?_⟩
  intro data headers basePath hk key conds s fr orig v actual
  intro hconds hfind hs horig htruthy hciget hnull
  have hact : ([(hk, FilterSpec.advanced key conds)].filter
      (fun p => !(specConds p.2).isEmpty)) = [(hk, FilterSpec.advanced key conds)] := by
    cases conds with
    | nil => exact absurd rfl hconds
    | cons c cs => rfl
  have hfil : filteredRows data headers basePath [(hk, FilterSpec.advanced key conds)]
      = (allFlatRows data headers basePath).filter
          (keepRow data headers [(hk, FilterSpec.advanced key conds)]) := by
    rw [filteredRows]
    simp only [hact]
    rfl
  rw [hfil, List.mem_filter]
  have hkeep : keepRow data headers [(hk, FilterSpec.advanced key conds)] fr
      = checkPathInObject v key conds := by
    rw [keepRow, List.all_cons, List.all_nil, Bool.and_true]
    simp only [horig]
    rw [if_pos htruthy]
    rw [rowMatchesAdvancedFilter, hfind]
    simp only []
    rw [if_neg hs]
    rw [hciget]
    cases v with
    | null => exact absurd rfl hnull
    | str t => rfl
    | obj o => rfl
    | arr a => rfl
  rw [hkeep]
  exact and_congr_right (fun _ => checkPathInObject_iff v key conds)

/-- Claim C8 witness: the kept-iff characterization applied to the concrete
collection `[{ITEM: {LIST: [{NAME:"ab"},{NAME:"cd"}]}}]`, one flattened row,
one active advanced filter on column `ITEM` with key `["LIST","NAME"]`. -/
theorem advancedFilter_semantics_witness :
    (⟨[("ITEM", ⟨some (JValue.obj [("LIST", JValue.arr [JValue.obj [("NAME", JValue.str "ab")],
          JValue.obj [("NAME", JValue.str "cd")]])]),
        some [Seg.idx 0, Seg.key "ITEM"]⟩)], 0⟩ : FlatRow) ∈
      filteredRows
        [JValue.obj [("ITEM", JValue.obj [("LIST", JValue.arr [JValue.obj [("NAME", JValue.str "ab")],
          JValue.obj [("NAME", JValue.str "cd")]])])]]
        [Header.plain "ITEM"] []
        [("ITEM", FilterSpec.advanced ["LIST", "NAME"] [Condition.phrase "cd"])] ↔
    (⟨[("ITEM", ⟨some (JValue.obj [("LIST", JValue.arr [JValue.obj [("NAME", JValue.str "ab")],
          JValue.obj [("NAME", JValue.str "cd")]])]),
        some [Seg.idx 0, Seg.key "ITEM"]⟩)], 0⟩ : FlatRow) ∈
      allFlatRows
        [JValue.obj [("ITEM", JValue.obj [("LIST", JValue.arr [JValue.obj [("NAME", JValue.str "ab")],
          JValue.obj [("NAME", JValue.str "cd")]])])]]
        [Header.plain "ITEM"] [] ∧
    PathSem [Condition.phrase "cd"]
      (JValue.obj [("LIST", JValue.arr [JValue.obj [("NAME", JValue.str "ab")],
        JValue.obj [("NAME", JValue.str "cd")]])])
      ["LIST", "NAME"] :=
  advancedFilter_semantics.2
    [JValue.obj [("ITEM", JValue.obj [("LIST", JValue.arr [JValue.obj [("NAME", JValue.str "ab")],
      JValue.obj [("NAME", JValue.str "cd")]])])]]
    [Header.plain "ITEM"] [] "ITEM" ["LIST", "NAME"] [Condition.phrase "cd"] "ITEM"
    ⟨[("ITEM", ⟨some (JValue.obj [("LIST", JValue.arr [JValue.obj [("NAME", JValue.str "ab")],
        JValue.obj [("NAME", JValue.str "cd")]])]),
      some [Seg.idx 0, Seg.key "ITEM"]⟩)], 0⟩
    (JValue.obj [("ITEM", JValue.obj [("LIST", JValue.arr [JValue.obj [("NAME", JValue.str "ab")],
      JValue.obj [("NAME", JValue.str "cd")]])])])
    (JValue.obj [("LIST", JValue.arr [JValue.obj [("NAME", JValue.str "ab")],
      JValue.obj [("NAME", JValue.str "cd")]])])
    ["ITEM"]
    (by decide) (by decide) (by decide) (by decide) (by decide) (by decide) (by decide)

/-! ## Claim C1: XML decode/encode round trip (src/lib/xmlUtils.js)

`parseXML` delegates the text-to-DOM step to the browser's `DOMParser`;
we model a standard-conforming subset of it: EOL normalization (CR and
CRLF to LF), element/attribute syntax with double-quoted values,
attribute-value normalization (tab/LF/CR to space), the five predefined
entities, ASCII names, and no DTD/comments/CDATA/processing instructions
beyond the XML declaration. A parse failure (which the JS surfaces as a
thrown parsererror) is `none`. -/

inductive XNode where
  | elem : String → List (String × String) → List XNode → XNode
  | text : String → XNode

def xmlWS (c : Char) : Bool :=
  c == ' ' || c == '\t' || c == '\n' || c == '\r'

def normalizeEOL : List Char → List Char
  | [] => []
  | '\r' :: '\n' :: rest => '\n' :: normalizeEOL rest
  | '\r' :: rest => '\n' :: normalizeEOL rest
  | c :: rest => c :: normalizeEOL rest

def isNameStart (c : Char) : Bool := c.isAlpha || c == '_' || c == ':'

def isNameChar (c : Char) : Bool :=
  c.isAlphanum || c == '_' || c == ':' || c == '-' || c == '.'

def validNameB (s : String) : Bool :=
  match s.data with
  | [] => false
  | c :: rest => isNameStart c && rest.all isNameChar

def aposChar : Char := Char.ofNat 39

/-- escapeXml: the JS chains five global replaces; since no replacement
output contains a character a later stage rewrites, the chain equals this
per-character expansion. -/
def escChar (c : Char) : List Char :=
  if c = '&' then "&amp;".data
  else if c = '<' then "&lt;".data
  else if c = '>' then "&gt;".data
  else if c = '"' then "&quot;".data
  else if c = aposChar then "&apos;".data
  else [c]

def escText (l : List Char) : List Char := l.flatMap escChar

def parseName (input : List Char) : Option (String × List Char) :=
  match input with
  | c :: rest =>
    if isNameStart c then
      some (⟨c :: rest.takeWhile isNameChar⟩, rest.dropWhile isNameChar)
    else none
  | [] => none

/-- XML attribute-value normalization of a literal character (the input is
already EOL-normalized; CR is included for totality). -/
def normAttrChar (c : Char) : Char :=
  if c = '\t' || c = '\n' || c = '\r' then ' ' else c

/-- A double-quoted attribute value after the opening quote: literal
characters normalized, the five entities decoded, a raw `<` or a bad
entity is an error. -/
def parseQuoted : List Char → Option (List Char × List Char)
  | [] => none
  | '"' :: rest => some ([], rest)
  | '<' :: _ => none
  | '&' :: 'a' :: 'm' :: 'p' :: ';' :: rest =>
      (parseQuoted rest).map (fun p => ('&' :: p.1, p.2))
  | '&' :: 'l' :: 't' :: ';' :: rest =>
      (parseQuoted rest).map (fun p => ('<' :: p.1, p.2))
  | '&' :: 'g' :: 't' :: ';' :: rest =>
      (parseQuoted rest).map (fun p => ('>' :: p.1, p.2))
  | '&' :: 'q' :: 'u' :: 'o' :: 't' :: ';' :: rest =>
      (parseQuoted rest).map (fun p => ('"' :: p.1, p.2))
  | '&' :: 'a' :: 'p' :: 'o' :: 's' :: ';' :: rest =>
      (parseQuoted rest).map (fun p => (aposChar :: p.1, p.2))
  | '&' :: _ => none
  | c :: rest => (parseQuoted rest).map (fun p => (normAttrChar c :: p.1, p.2))

/-- A character-data run: ends at `<` or end of input, decodes the five
entities, rejects a bad entity reference. -/
def parseTextRun : List Char → Option (List Char × List Char)
  | [] => some ([], [])
  | '<' :: rest => some ([], '<' :: rest)
  | '&' :: 'a' :: 'm' :: 'p' :: ';' :: rest =>
      (parseTextRun rest).map (fun p => ('&' :: p.1, p.2))
  | '&' :: 'l' :: 't' :: ';' :: rest =>
      (parseTextRun rest).map (fun p => ('<' :: p.1, p.2))
  | '&' :: 'g' :: 't' :: ';' :: rest =>
      (parseTextRun rest).map (fun p => ('>' :: p.1, p.2))
  | '&' :: 'q' :: 'u' :: 'o' :: 't' :: ';' :: rest =>
      (parseTextRun rest).map (fun p => ('"' :: p.1, p.2))
  | '&' :: 'a' :: 'p' :: 'o' :: 's' :: ';' :: rest =>
      (parseTextRun rest).map (fun p => (aposChar :: p.1, p.2))
  | '&' :: _ => none
  | c :: rest => (parseTextRun rest).map (fun p => (c :: p.1, p.2))

/-- Skip the XML declaration `<?xml ...?>` if present. -/
def dropToDeclEnd : List Char → Option (List Char)
  | [] => none
  | c :: rest =>
    if c = '?' then
      match rest with
      | '>' :: rest2 => some rest2
      | _ => dropToDeclEnd rest
    else dropToDeclEnd rest

def dropDecl (cs : List Char) : Option (List Char) :=
  match cs with
  | c1 :: c2 :: rest =>
      if c1 = '<' && c2 = '?' then dropToDeclEnd rest else some cs
  | _ => some cs

mutual

/-- One element `<name attrs/>` or `<name attrs>content</name>`. The fuel
bounds the recursion depth; every recursive step passes the predecessor. -/
def parseElementF : Nat → List Char → Option (XNode × List Char)
  | 0, _ => none
  | Nat.succ fuel, input =>
    match input with
    | '<' :: rest =>
      match parseName rest with
      | none => none
      | some (nm, r1) =>
        match parseAttrsF fuel r1 with
        | none => none
        | some (attrs, r2) =>
          match r2.dropWhile xmlWS with
          | '/' :: '>' :: r3 => some (XNode.elem nm attrs [], r3)
          | '>' :: r3 =>
            match parseContentF fuel r3 with
            | none => none
            | some (children, r4) =>
              match r4 with
              | '<' :: '/' :: r5 =>
                match parseName r5 with
                | none => none
                | some (nm2, r6) =>
                  if nm2 = nm then
                    match r6.dropWhile xmlWS with
                    | '>' :: r7 => some (XNode.elem nm attrs children, r7)
                    | _ => none
                  else none
              | _ => none
          | _ => none
    | _ => none

/-- The attribute list: whitespace then `name="value"` repeatedly, stopping
at the first non-name character. -/
def parseAttrsF : Nat → List Char → Option (List (String × String) × List Char)
  | 0, _ => none
  | Nat.succ fuel, input =>
    match input.dropWhile xmlWS with
    | [] => some ([], [])
    | c :: rest =>
      if isNameStart c then
        match parseName (c :: rest) with
        | none => none
        | some (an, r1) =>
          match r1.dropWhile xmlWS with
          | '=' :: r2 =>
            match r2.dropWhile xmlWS with
            | '"' :: r3 =>
              match parseQuoted r3 with
              | none => none
              | some (val, r4) =>
                match parseAttrsF fuel r4 with
                | none => none
                | some (as2, r5) => some ((an, ⟨val⟩) :: as2, r5)
            | _ => none
          | _ => none
      else some ([], c :: rest)

/-- Element content: character data and child elements until the parent's
closing tag (left in the remainder); running out of input is an error. -/
def parseContentF : Nat → List Char → Option (List XNode × List Char)
  | 0, _ => none
  | Nat.succ fuel, input =>
    match input with
    | [] => none
    | c :: rest =>
      if c = '<' then
        match rest with
        | '/' :: rest2 => some ([], '<' :: '/' :: rest2)
        | _ =>
          match parseElementF fuel ('<' :: rest) with
          | none => none
          | some (nd, r1) =>
            match parseContentF fuel r1 with
            | none => none
            | some (nds, r2) => some (nd :: nds, r2)
      else
        match parseTextRun (c :: rest) with
        | none => none
        | some (txt, r1) =>
          match parseContentF fuel r1 with
          | none => none
          | some (nds, r2) => some (XNode.text ⟨txt⟩ :: nds, r2)

end

/-! xmlToJson (xmlUtils.js lines 194-259) over the parsed DOM. -/

/-- The distinct element-child names in first-occurrence order (the JS
`childrenByName` object's key order). -/
def groupNames : List XNode → List String
  | [] => []
  | XNode.elem m _ _ :: rest => m :: (groupNames rest).filter (fun n => n ≠ m)
  | XNode.text _ :: rest => groupNames rest

/-- The concatenation of the trimmed values of the non-blank text-node
children (the JS `textValue`). -/
def textConcat : List XNode → String
  | [] => ""
  | XNode.text s :: rest =>
      (if jsTrim s = "" then "" else jsTrim s) ++ textConcat rest
  | _ :: rest => textConcat rest

/-- One field per group: the non-null parses of the children with that
name; a singleton is unwrapped, two or more become an array, an empty
group is dropped. -/
def fieldsFor (pairs : List (String × JValue)) : List String → List (String × JValue)
  | [] => []
  | n :: ns =>
    (match ((pairs.filter (fun p => p.1 == n)).map (fun p => p.2)).filter
        (fun c => c ≠ JValue.null) with
     | [] => []
     | [v] => [(n, v)]
     | vs => [(n, JValue.arr vs)]) ++ fieldsFor pairs ns

mutual

def xmlToJson : XNode → JValue
  | XNode.text s => if jsTrim s = "" then JValue.null else JValue.str (jsTrim s)
  | XNode.elem _ attrs children =>
    if (groupNames children).isEmpty && attrs.isEmpty then
      JValue.str (textConcat children)
    else
      JValue.obj
        ((if attrs.isEmpty then []
          else [("@attributes",
                 JValue.obj (attrs.map (fun a => (a.1, JValue.str a.2))))]) ++
         fieldsFor (parsedAll children) (groupNames children) ++
         (if textConcat children = "" then []
          else [("#text", JValue.str (textConcat children))]))

/-- The per-element parses of the element children, tagged by name, in
document order. -/
def parsedAll : List XNode → List (String × JValue)
  | [] => []
  | x :: rest =>
    (match x with
     | XNode.elem m _ _ => [(m, xmlToJson x)]
     | XNode.text _ => []) ++ parsedAll rest

end

def rootNameOf : XNode → String
  | XNode.elem n _ _ => n
  | XNode.text _ => ""

/-- parseXML (xmlUtils.js lines 180-192): DOMParser (modeled), then
xmlToJson of the document element plus its nodeName; errors are none. -/
def parseXML (s : String) : Option (JValue × String) :=
  let cs := normalizeEOL s.data
  match dropDecl cs with
  | none => none
  | some cs1 =>
    match parseElementF (cs.length + 1) (cs1.dropWhile xmlWS) with
    | some (root, rest) =>
      if (rest.dropWhile xmlWS).isEmpty then
        some (xmlToJson root, rootNameOf root)
      else none
    | none => none

/-! jsonToXml (xmlUtils.js lines 268-315). -/

def attrChars (a : String × JValue) : List Char :=
  ' ' :: a.1.data ++ '=' :: '"' ::
    (match a.2 with | JValue.str v => escText v.data | _ => []) ++ ['"']

def attrsChars : JValue → List Char
  | JValue.obj avs => avs.flatMap attrChars
  | _ => []

/-- The `attributes` accumulator: contributions of the `@attributes` keys
in iteration order. -/
def objAttrs (kvs : List (String × JValue)) : List Char :=
  (kvs.filter (fun p => p.1 == "@attributes")).flatMap (fun p => attrsChars p.2)

/-- The `textContent` accumulator: the last `#text` key wins. -/
def objText (kvs : List (String × JValue)) : List Char :=
  match (kvs.filter (fun p => p.1 == "#text")).getLast? with
  | some (_, JValue.str t) => escText t.data
  | _ => []

/-- `<tag attrs/>` when there is no text and no children, else
`<tag attrs>text children</tag>` (the printed newline is appended by the
caller). -/
def renderCore (tag : String) (attrs text children : List Char) : List Char :=
  if text.isEmpty && children.isEmpty then
    '<' :: tag.data ++ attrs ++ ['/', '>']
  else
    '<' :: tag.data ++ attrs ++ '>' :: text ++ children ++
      '<' :: '/' :: tag.data ++ ['>']

mutual

def toXml : JValue → String → List Char
  | JValue.null, _ => []
  | JValue.str s, tag => renderCore tag [] (escText s.data) [] ++ ['\n']
  | JValue.arr items, tag => toXmlL items tag
  | JValue.obj kvs, tag =>
      renderCore tag (objAttrs kvs) (objText kvs) (toXmlKV kvs) ++ ['\n']

def toXmlL : List JValue → String → List Char
  | [], _ => []
  | v :: vs, tag => toXml v tag ++ toXmlL vs tag

def toXmlKV : List (String × JValue) → List Char
  | [] => []
  | p :: rest =>
      (if p.1 = "@attributes" || p.1 = "#text" then [] else toXml p.2 p.1) ++
        toXmlKV rest

end

def jsonToXml (obj : JValue) (rootName : String) : String :=
  ⟨"<?xml version=\"1.0\" encoding=\"UTF-8\"?>\n".data ++
    toXml (match obj with
           | JValue.obj kvs => (lookupKey kvs rootName).getD JValue.null
           | _ => JValue.null) rootName⟩

/-! Canonical form of parse outputs, used to prove the round trip. -/

def attrValClean (v : String) : Bool :=
  v.data.all (fun c => !(c = '\t' || c = '\n' || c = '\r'))

def attrOk (a : String × JValue) : Bool :=
  validNameB a.1 && (match a.2 with | JValue.str v => attrValClean v | _ => false)

def textOk (t : String) : Bool :=
  (jsTrim t == t) && t.data.all (fun c => !(c = '\r'))

mutual

/-- The shape of xmlToJson outputs: a trimmed CR-free string, or an object
laid out as optional nonempty attributes, then child fields with distinct
valid names holding non-null non-nested values (arrays only of length two
or more), then an optional nonempty #text — with at least attributes or
one child field present. -/
def elemCanon : JValue → Bool
  | JValue.str s => textOk s
  | JValue.obj kvs =>
    (match kvs with
     | ("@attributes", JValue.obj avs) :: rest =>
         !avs.isEmpty && avs.all attrOk && childTextCanon rest true
     | rest => childTextCanon rest false)
  | _ => false

def childTextCanon : List (String × JValue) → Bool → Bool
  | [], hasAny => hasAny
  | [("#text", JValue.str t)], hasAny => hasAny && !(t == "") && textOk t
  | (k, v) :: rest, _ =>
      validNameB k && rest.all (fun p => !(p.1 == k)) &&
      (match v with
       | JValue.arr items => decide (2 ≤ items.length) && listElemCanon items
       | JValue.null => false
       | v' => elemCanon v') &&
      childTextCanon rest true

def listElemCanon : List JValue → Bool
  | [] => true
  | v :: vs => elemCanon v && listElemCanon vs

end

def attrRawOk (a : String × String) : Bool :=
  validNameB a.1 && a.2.data.all (fun c => !(c = '\t' || c = '\n' || c = '\r'))

mutual

/-- The invariant of parsed DOM nodes: valid names, normalized attribute
values, CR-free text. -/
def nodeCanon : XNode → Bool
  | XNode.elem n attrs children =>
      validNameB n && attrs.all attrRawOk && nodesCanon children
  | XNode.text s => s.data.all (fun c => !(c = '\r'))

def nodesCanon : List XNode → Bool
  | [] => true
  | x :: rest => nodeCanon x && nodesCanon rest

end

/-- The attributes the printed form of a canonical object parses back to. -/
def jAttrs (kvs : List (String × JValue)) : List (String × String) :=
  (kvs.filter (fun p => p.1 == "@attributes")).flatMap (fun p =>
    match p.2 with
    | JValue.obj avs =>
        avs.map (fun a => (a.1, match a.2 with | JValue.str v => v | _ => ""))
    | _ => [])

/-- The leading text node the printed form of a canonical object parses
back to. -/
def jText (kvs : List (String × JValue)) : List XNode :=
  match (kvs.filter (fun p => p.1 == "#text")).getLast? with
  | some (_, JValue.str t) => if t = "" then [] else [XNode.text t]
  | _ => []

mutual

/-- The DOM node the printed form of a canonical value parses back to. -/
def nodeOf : JValue → String → XNode
  | JValue.str s, tag =>
      XNode.elem tag [] (if s = "" then [] else [XNode.text s])
  | JValue.obj kvs, tag =>
      XNode.elem tag (jAttrs kvs) (jText kvs ++ nodesOfKV kvs)
  | _, tag => XNode.elem tag [] []

def nodesOfKV : List (String × JValue) → List XNode
  | [] => []
  | (k, v) :: rest =>
      (if k = "@attributes" || k = "#text" then []
       else match v with
            | JValue.arr items => nodesOfL items k
            | JValue.null => []
            | v' => [nodeOf v' k, XNode.text "\n"]) ++ nodesOfKV rest

def nodesOfL : List JValue → String → List XNode
  | [], _ => []
  | v :: vs, tag =>
      (match v with
       | JValue.arr items => nodesOfL items tag
       | JValue.null => []
       | v' => [nodeOf v' tag, XNode.text "\n"]) ++ nodesOfL vs tag

end

/-- The printed element without its trailing newline. -/
def coreOf : JValue → String → List Char
  | JValue.str s, tag => renderCore tag [] (escText s.data) []
  | JValue.obj kvs, tag => renderCore tag (objAttrs kvs) (objText kvs) (toXmlKV kvs)
  | _, _ => []

theorem toXml_core_str (s : String) (tag : String) :
    toXml (JValue.str s) tag = coreOf (JValue.str s) tag ++ ['\n'] := rfl

theorem toXml_core_obj (kvs : List (String × JValue)) (tag : String) :
    toXml (JValue.obj kvs) tag = coreOf (JValue.obj kvs) tag ++ ['\n'] := rfl

theorem takeWhile_append_not {p : Char → Bool} :
    ∀ (l : List Char) (c : Char) (r : List Char),
    (∀ x ∈ l, p x = true) → p c = false →
    (l ++ c :: r).takeWhile p = l ∧ (l ++ c :: r).dropWhile p = c :: r
  | [], c, r, _, hc => by simp [List.takeWhile_cons, List.dropWhile_cons, hc]
  | x :: xs, c, r, hall, hc => by
    have hx : p x = true := hall x (by simp)
    have ih := takeWhile_append_not xs c r (fun y hy => hall y (by simp [hy])) hc
    simp [List.takeWhile_cons, List.dropWhile_cons, hx, ih.1, ih.2]

theorem isNameStart_isNameChar {c : Char} (h : isNameStart c = true) :
    isNameChar c = true := by
  rw [isNameStart] at h
  rw [isNameChar]
  rcases Bool.or_eq_true_iff.mp h with h1 | h1
  · rcases Bool.or_eq_true_iff.mp h1 with h2 | h2
    · simp [Char.isAlphanum, h2]
    · simp [h2]
  · simp [h1]

theorem validNameB_start {s : String} (h : validNameB s = true) :
    ∃ c rest, s.data = c :: rest ∧ isNameStart c = true ∧
      ∀ x ∈ s.data, isNameChar x = true := by
  match hd : s.data with
  | [] => rw [validNameB, hd] at h; cases h
  | c :: rest =>
    rw [validNameB, hd] at h
    rw [Bool.and_eq_true, List.all_eq_true] at h
    refine ⟨c, rest, rfl, h.1, ?_⟩
    intro x hx
    rcases List.mem_cons.mp hx with hx | hx
    · subst hx
      exact isNameStart_isNameChar h.1
    · exact h.2 x hx

theorem parseName_complete {nm : String} (c : Char) (r : List Char)
    (hnm : validNameB nm = true) (hc : isNameChar c = false) :
    parseName (nm.data ++ c :: r) = some (nm, c :: r) := by
  obtain ⟨h, t, hd, hstart, hall⟩ := validNameB_start hnm
  rw [hd]
  rw [List.cons_append, parseName]
  rw [if_pos hstart]
  have hw := takeWhile_append_not t c r
    (fun y hy => hall y (by rw [hd]; exact List.mem_cons_of_mem _ hy)) hc
  rw [hw.1, hw.2]
  have : (⟨h :: t⟩ : String) = nm := by
    cases nm with
    | mk d => cases hd; rfl
  rw [this]

set_option maxHeartbeats 2000000 in
theorem parseQuoted_cons_plain {c : Char} (rest : List Char)
    (h1 : ¬(c = '&')) (h2 : ¬(c = '<')) (h4 : ¬(c = '"')) :
    parseQuoted (c :: rest)
      = (parseQuoted rest).map (fun p => (normAttrChar c :: p.1, p.2)) := by
  rw [parseQuoted.eq_def]
  split
  · rename_i heq
    exact absurd heq (by simp)
  · rename_i r2 heq
    injection heq with e1 _
    exact absurd e1 h4
  · rename_i r2 heq
    injection heq with e1 _
    exact absurd e1 h2
  · rename_i r2 heq
    injection heq with e1 _
    exact absurd e1 h1
  · rename_i r2 heq
    injection heq with e1 _
    exact absurd e1 h1
  · rename_i r2 heq
    injection heq with e1 _
    exact absurd e1 h1
  · rename_i r2 heq
    injection heq with e1 _
    exact absurd e1 h1
  · rename_i r2 heq
    injection heq with e1 _
    exact absurd e1 h1
  · rename_i r2 heq
    injection heq with e1 _
    exact absurd e1 h1
  · rename_i heq2
    injection heq2 with e1 e2
    subst e1
    subst e2
    rfl

set_option maxHeartbeats 2000000 in
theorem parseTextRun_cons_plain {c : Char} (rest : List Char)
    (h1 : ¬(c = '&')) (h2 : ¬(c = '<')) :
    parseTextRun (c :: rest)
      = (parseTextRun rest).map (fun p => (c :: p.1, p.2)) := by
  rw [parseTextRun.eq_def]
  split
  · rename_i heq
    exact absurd heq (by simp)
  · rename_i r2 heq
    injection heq with e1 _
    exact absurd e1 h2
  · rename_i r2 heq
    injection heq with e1 _
    exact absurd e1 h1
  · rename_i r2 heq
    injection heq with e1 _
    exact absurd e1 h1
  · rename_i r2 heq
    injection heq with e1 _
    exact absurd e1 h1
  · rename_i r2 heq
    injection heq with e1 _
    exact absurd e1 h1
  · rename_i r2 heq
    injection heq with e1 _
    exact absurd e1 h1
  · rename_i r2 heq
    injection heq with e1 _
    exact absurd e1 h1
  · rename_i heq2
    injection heq2 with e1 e2
    subst e1
    subst e2
    rfl

theorem parseQuoted_complete : ∀ (val : List Char) (r : List Char),
    (∀ c ∈ val, ¬(c = '\t' ∨ c = '\n' ∨ c = '\r')) →
    parseQuoted (escText val ++ '"' :: r) = some (val, r)
  | [], r, _ => by
    rw [show escText [] = [] from rfl, List.nil_append]
    rw [show parseQuoted ('"' :: r) = some ([], r) from rfl]
  | c :: val, r, hcl => by
    have ih := parseQuoted_complete val r (fun x hx => hcl x (List.mem_cons_of_mem _ hx))
    have hc := hcl c (List.mem_cons_self _ _)
    rw [show escText (c :: val) = escChar c ++ escText val from rfl]
    by_cases h1 : c = '&'
    · subst h1
      rw [show escChar '&' = ['&', 'a', 'm', 'p', ';'] from rfl]
      rw [show (['&', 'a', 'm', 'p', ';'] ++ escText val) ++ '"' :: r
          = '&' :: 'a' :: 'm' :: 'p' :: ';' :: (escText val ++ '"' :: r) from by simp]
      rw [show parseQuoted ('&' :: 'a' :: 'm' :: 'p' :: ';' :: (escText val ++ '"' :: r))
          = (parseQuoted (escText val ++ '"' :: r)).map (fun p => ('&' :: p.1, p.2))
          from rfl]
      rw [ih]
      rfl
    by_cases h2 : c = '<'
    · subst h2
      rw [show escChar '<' = ['&', 'l', 't', ';'] from rfl]
      rw [show (['&', 'l', 't', ';'] ++ escText val) ++ '"' :: r
          = '&' :: 'l' :: 't' :: ';' :: (escText val ++ '"' :: r) from by simp]
      rw [show parseQuoted ('&' :: 'l' :: 't' :: ';' :: (escText val ++ '"' :: r))
          = (parseQuoted (escText val ++ '"' :: r)).map (fun p => ('<' :: p.1, p.2))
          from rfl]
      rw [ih]
      rfl
    by_cases h3 : c = '>'
    · subst h3
      rw [show escChar '>' = ['&', 'g', 't', ';'] from rfl]
      rw [show (['&', 'g', 't', ';'] ++ escText val) ++ '"' :: r
          = '&' :: 'g' :: 't' :: ';' :: (escText val ++ '"' :: r) from by simp]
      rw [show parseQuoted ('&' :: 'g' :: 't' :: ';' :: (escText val ++ '"' :: r))
          = (parseQuoted (escText val ++ '"' :: r)).map (fun p => ('>' :: p.1, p.2))
          from rfl]
      rw [ih]
      rfl
    by_cases h4 : c = '"'
    · subst h4
      rw [show escChar '"' = ['&', 'q', 'u', 'o', 't', ';'] from rfl]
      rw [show (['&', 'q', 'u', 'o', 't', ';'] ++ escText val) ++ '"' :: r
          = '&' :: 'q' :: 'u' :: 'o' :: 't' :: ';' :: (escText val ++ '"' :: r)
          from by simp]
      rw [show parseQuoted ('&' :: 'q' :: 'u' :: 'o' :: 't' :: ';' ::
            (escText val ++ '"' :: r))
          = (parseQuoted (escText val ++ '"' :: r)).map (fun p => ('"' :: p.1, p.2))
          from rfl]
      rw [ih]
      rfl
    by_cases h5 : c = aposChar
    · subst h5
      rw [show escChar aposChar = ['&', 'a', 'p', 'o', 's', ';'] from rfl]
      rw [show (['&', 'a', 'p', 'o', 's', ';'] ++ escText val) ++ '"' :: r
          = '&' :: 'a' :: 'p' :: 'o' :: 's' :: ';' :: (escText val ++ '"' :: r)
          from by simp]
      rw [show parseQuoted ('&' :: 'a' :: 'p' :: 'o' :: 's' :: ';' ::
            (escText val ++ '"' :: r))
          = (parseQuoted (escText val ++ '"' :: r)).map
              (fun p => (aposChar :: p.1, p.2)) from rfl]
      rw [ih]
      rfl
    · have hesc : escChar c = [c] := by
        rw [escChar, if_neg h1, if_neg h2, if_neg h3, if_neg h4, if_neg h5]
      rw [hesc]
      rw [show ([c] ++ escText val) ++ '"' :: r = c :: (escText val ++ '"' :: r)
          from by simp]
      rw [parseQuoted_cons_plain _ h1 h2 h4]
      rw [ih]
      have hnorm : normAttrChar c = c := by
        rw [normAttrChar, if_neg]
        intro hh
        rcases Bool.or_eq_true_iff.mp hh with hh | hh
        · rcases Bool.or_eq_true_iff.mp hh with hh | hh
          · exact hc (Or.inl (by simpa using hh))
          · exact hc (Or.inr (Or.inl (by simpa using hh)))
        · exact hc (Or.inr (Or.inr (by simpa using hh)))
      rw [hnorm]
      rfl

theorem parseTextRun_complete : ∀ (val : List Char) (r : List Char),
    parseTextRun (escText val ++ '<' :: r) = some (val, '<' :: r)
  | [], r => by
    rw [show escText [] = [] from rfl, List.nil_append]
    rw [show parseTextRun ('<' :: r) = some ([], '<' :: r) from rfl]
  | c :: val, r => by
    have ih := parseTextRun_complete val r
    rw [show escText (c :: val) = escChar c ++ escText val from rfl]
    by_cases h1 : c = '&'
    · subst h1
      rw [show escChar '&' = ['&', 'a', 'm', 'p', ';'] from rfl]
      rw [show (['&', 'a', 'm', 'p', ';'] ++ escText val) ++ '<' :: r
          = '&' :: 'a' :: 'm' :: 'p' :: ';' :: (escText val ++ '<' :: r) from by simp]
      rw [show parseTextRun ('&' :: 'a' :: 'm' :: 'p' :: ';' :: (escText val ++ '<' :: r))
          = (parseTextRun (escText val ++ '<' :: r)).map (fun p => ('&' :: p.1, p.2))
          from rfl]
      rw [ih]
      rfl
    by_cases h2 : c = '<'
    · subst h2
      rw [show escChar '<' = ['&', 'l', 't', ';'] from rfl]
      rw [show (['&', 'l', 't', ';'] ++ escText val) ++ '<' :: r
          = '&' :: 'l' :: 't' :: ';' :: (escText val ++ '<' :: r) from by simp]
      rw [show parseTextRun ('&' :: 'l' :: 't' :: ';' :: (escText val ++ '<' :: r))
          = (parseTextRun (escText val ++ '<' :: r)).map (fun p => ('<' :: p.1, p.2))
          from rfl]
      rw [ih]
      rfl
    by_cases h3 : c = '>'
    · subst h3
      rw [show escChar '>' = ['&', 'g', 't', ';'] from rfl]
      rw [show (['&', 'g', 't', ';'] ++ escText val) ++ '<' :: r
          = '&' :: 'g' :: 't' :: ';' :: (escText val ++ '<' :: r) from by simp]
      rw [show parseTextRun ('&' :: 'g' :: 't' :: ';' :: (escText val ++ '<' :: r))
          = (parseTextRun (escText val ++ '<' :: r)).map (fun p => ('>' :: p.1, p.2))
          from rfl]
      rw [ih]
      rfl
    by_cases h4 : c = '"'
    · subst h4
      rw [show escChar '"' = ['&', 'q', 'u', 'o', 't', ';'] from rfl]
      rw [show (['&', 'q', 'u', 'o', 't', ';'] ++ escText val) ++ '<' :: r
          = '&' :: 'q' :: 'u' :: 'o' :: 't' :: ';' :: (escText val ++ '<' :: r)
          from by simp]
      rw [show parseTextRun ('&' :: 'q' :: 'u' :: 'o' :: 't' :: ';' ::
            (escText val ++ '<' :: r))
          = (parseTextRun (escText val ++ '<' :: r)).map (fun p => ('"' :: p.1, p.2))
          from rfl]
      rw [ih]
      rfl
    by_cases h5 : c = aposChar
    · subst h5
      rw [show escChar aposChar = ['&', 'a', 'p', 'o', 's', ';'] from rfl]
      rw [show (['&', 'a', 'p', 'o', 's', ';'] ++ escText val) ++ '<' :: r
          = '&' :: 'a' :: 'p' :: 'o' :: 's' :: ';' :: (escText val ++ '<' :: r)
          from by simp]
      rw [show parseTextRun ('&' :: 'a' :: 'p' :: 'o' :: 's' :: ';' ::
            (escText val ++ '<' :: r))
          = (parseTextRun (escText val ++ '<' :: r)).map
              (fun p => (aposChar :: p.1, p.2)) from rfl]
      rw [ih]
      rfl
    · have hesc : escChar c = [c] := by
        rw [escChar, if_neg h1, if_neg h2, if_neg h3, if_neg h4, if_neg h5]
      rw [hesc]
      rw [show ([c] ++ escText val) ++ '<' :: r = c :: (escText val ++ '<' :: r)
          from by simp]
      rw [parseTextRun_cons_plain _ h1 h2]
      rw [ih]
      rfl

theorem normalizeEOL_cons_ne {c : Char} (rest : List Char) (hc : ¬(c = '\r')) :
    normalizeEOL (c :: rest) = c :: normalizeEOL rest := by
  rw [normalizeEOL.eq_def]
  split
  · rename_i heq
    exact absurd heq (by simp)
  · rename_i r2 heq
    injection heq with e1 _
    exact absurd e1 hc
  · rename_i r2 heq
    injection heq with e1 _
    exact absurd e1 hc
  · rename_i c' r2 heq
    injection heq with e1 e2
    subst e1
    subst e2
    rfl

theorem normalizeEOL_id : ∀ (l : List Char), (∀ c ∈ l, ¬(c = '\r')) →
    normalizeEOL l = l := by
  intro l
  induction l with
  | nil => intro _; rfl
  | cons c rest ih =>
    intro h
    rw [normalizeEOL_cons_ne rest (h c (List.mem_cons_self _ _))]
    rw [ih (fun x hx => h x (List.mem_cons_of_mem _ hx))]

theorem nameStart_not_ws {c : Char} (h : isNameStart c = true) : xmlWS c = false := by
  cases hcw : xmlWS c
  · rfl
  · exfalso
    rw [xmlWS] at hcw
    rcases Bool.or_eq_true_iff.mp hcw with h1 | h1
    · rcases Bool.or_eq_true_iff.mp h1 with h2 | h2
      · rcases Bool.or_eq_true_iff.mp h2 with h3 | h3
        · rw [show c = ' ' from by simpa using h3] at h
          exact absurd h (by decide)
        · rw [show c = '\t' from by simpa using h3] at h
          exact absurd h (by decide)
      · rw [show c = '\n' from by simpa using h2] at h
        exact absurd h (by decide)
    · rw [show c = '\r' from by simpa using h1] at h
      exact absurd h (by decide)

theorem dropWhile_ws_of_nameStart {c : Char} (l : List Char)
    (h : isNameStart c = true) :
    (c :: l).dropWhile xmlWS = c :: l := by
  rw [List.dropWhile_cons, if_neg (by rw [nameStart_not_ws h]; exact Bool.false_ne_true)]

theorem attrOk_parts {a : String × JValue} (h : attrOk a = true) :
    ∃ v, a.2 = JValue.str v ∧ validNameB a.1 = true ∧
      (∀ c ∈ v.data, ¬(c = '\t' ∨ c = '\n' ∨ c = '\r')) := by
  rw [attrOk, Bool.and_eq_true] at h
  obtain ⟨h1, h2⟩ := h
  match ha : a.2 with
  | JValue.str v =>
    refine ⟨v, rfl, h1, ?_⟩
    rw [ha] at h2
    intro c hc
    have := (List.all_eq_true.mp h2) c hc
    intro hor
    rcases hor with h3 | h3 | h3 <;> simp [h3] at this
  | JValue.null => rw [ha] at h2; cases h2
  | JValue.obj kvs => rw [ha] at h2; cases h2
  | JValue.arr items => rw [ha] at h2; cases h2

theorem parseAttrs_complete : ∀ (avs : List (String × JValue)) (d : Char) (r : List Char),
    (∀ a ∈ avs, attrOk a = true) →
    xmlWS d = false → isNameStart d = false →
    ∃ n0, n0 ≤ avs.length + 1 ∧ ∀ fuel, n0 ≤ fuel →
      parseAttrsF fuel (avs.flatMap attrChars ++ d :: r)
        = some (avs.map (fun a =>
            (a.1, match a.2 with | JValue.str v => v | _ => "")), d :: r)
  | [], d, r, _, hdw, hdn => by
    refine ⟨1, by omega, ?_⟩
    intro fuel hf
    cases fuel with
    | zero => omega
    | succ f =>
      rw [show (([] : List (String × JValue)).flatMap attrChars ++ d :: r)
          = d :: r from by simp]
      rw [parseAttrsF]
      simp only [List.dropWhile_cons, hdw, Bool.false_eq_true, if_false, hdn,
        List.map_nil]
  | a :: avs, d, r, hall, hdw, hdn => by
    obtain ⟨n0, hn0, ihspec⟩ := parseAttrs_complete avs d r
      (fun x hx => hall x (List.mem_cons_of_mem _ hx)) hdw hdn
    obtain ⟨v, ha2, hname, hclean⟩ := attrOk_parts (hall a (List.mem_cons_self _ _))
    obtain ⟨ch, ct, hcd, hcstart, _⟩ := validNameB_start hname
    refine ⟨n0 + 1, by simp; omega, ?_⟩
    intro fuel hf
    cases fuel with
    | zero => omega
    | succ f =>
      have hin : (a :: avs).flatMap attrChars ++ d :: r
          = ' ' :: (ch :: (ct ++ '=' :: ('"' ::
              (escText v.data ++ '"' :: (avs.flatMap attrChars ++ d :: r))))) := by
        rw [List.flatMap_cons, attrChars, ha2, hcd]
        simp [List.append_assoc]
      have hdrop1 : (' ' :: (ch :: (ct ++ '=' :: ('"' ::
              (escText v.data ++ '"' :: (avs.flatMap attrChars ++ d :: r)))))).dropWhile
            xmlWS
          = ch :: (ct ++ '=' :: ('"' ::
              (escText v.data ++ '"' :: (avs.flatMap attrChars ++ d :: r)))) := by
        rw [List.dropWhile_cons, if_pos (by decide)]
        exact dropWhile_ws_of_nameStart _ hcstart
      have hpn : parseName (ch :: (ct ++ '=' :: ('"' ::
              (escText v.data ++ '"' :: (avs.flatMap attrChars ++ d :: r)))))
          = some (a.1, '=' :: ('"' ::
              (escText v.data ++ '"' :: (avs.flatMap attrChars ++ d :: r)))) := by
        rw [show ch :: (ct ++ '=' :: ('"' ::
              (escText v.data ++ '"' :: (avs.flatMap attrChars ++ d :: r))))
            = a.1.data ++ '=' :: ('"' ::
              (escText v.data ++ '"' :: (avs.flatMap attrChars ++ d :: r)))
            from by rw [hcd, List.cons_append]]
        exact parseName_complete _ _ hname (by decide)
      have hpq : parseQuoted (escText v.data ++ '"' ::
            (avs.flatMap attrChars ++ d :: r))
          = some (v.data, avs.flatMap attrChars ++ d :: r) :=
        parseQuoted_complete v.data _ hclean
      have hih := ihspec f (by omega)
      rw [hin, parseAttrsF]
      simp only [hdrop1, hcstart, if_true, hpn, List.dropWhile_cons,
        show xmlWS '=' = false from rfl, show xmlWS '"' = false from rfl,
        Bool.false_eq_true, if_false, hpq, hih]
      rw [show (⟨v.data⟩ : String) = v from by cases v with | mk l => rfl]
      rw [List.map_cons, ha2]

theorem parseTextRun_lt (r : List Char) : parseTextRun ('<' :: r) = some ([], '<' :: r) :=
  rfl

theorem parseContentF_stop (f : Nat) (r : List Char) :
    parseContentF (Nat.succ f) ('<' :: '/' :: r) = some ([], '<' :: '/' :: r) := rfl

theorem parseContentF_elem (f : Nat) (c2 : Char) (rest2 : List Char)
    (hne : ¬(c2 = '/')) :
    parseContentF (Nat.succ f) ('<' :: c2 :: rest2)
      = (match parseElementF f ('<' :: c2 :: rest2) with
         | none => none
         | some (nd, r1) =>
           match parseContentF f r1 with
           | none => none
           | some (nds, r2) => some (nd :: nds, r2)) := by
  rw [parseContentF.eq_def]
  split
  · rename_i heq
    exact absurd heq (by simp)
  · rename_i r2 heq
    injection heq with e1
    subst e1
    split
    · rename_i heq2
      exact absurd heq2 (by simp)
    · rename_i c' rest' heq2
      injection heq2 with e2 e3
      subst e2
      subst e3
      rw [if_pos rfl]
      split
      · rename_i r3 heq3
        injection heq3 with e4 _
        exact absurd e4 hne
      · rfl

theorem parseContentF_text (f : Nat) (c : Char) (rest : List Char)
    (hne : ¬(c = '<')) :
    parseContentF (Nat.succ f) (c :: rest)
      = (match parseTextRun (c :: rest) with
         | none => none
         | some (txt, r1) =>
           match parseContentF f r1 with
           | none => none
           | some (nds, r2) => some (XNode.text ⟨txt⟩ :: nds, r2)) := by
  rw [parseContentF.eq_def]
  split
  · rename_i heq
    exact absurd heq (by simp)
  · rename_i r2 heq
    injection heq with e1
    subst e1
    split
    · rename_i heq2
      exact absurd heq2 (by simp)
    · rename_i c' rest' heq2
      injection heq2 with e2 e3
      subst e2
      subst e3
      rw [if_neg hne]

theorem coreOf_lt {v : JValue} (tag : String) (hv : elemCanon v = true) :
    ∃ tl, coreOf v tag = '<' :: tl := by
  cases v with
  | null => simp [elemCanon] at hv
  | arr items => simp [elemCanon] at hv
  | str s =>
    rw [coreOf, renderCore]
    split
    · exact ⟨_, rfl⟩
    · exact ⟨_, rfl⟩
  | obj kvs =>
    rw [coreOf, renderCore]
    split
    · exact ⟨_, rfl⟩
    · exact ⟨_, rfl⟩

theorem coreOf_expose {v : JValue} {tag : String} {ch : Char} {ct : List Char}
    (hv : elemCanon v = true) (hd : tag.data = ch :: ct) :
    ∃ tl, coreOf v tag = '<' :: ch :: tl := by
  cases v with
  | null => simp [elemCanon] at hv
  | arr items => simp [elemCanon] at hv
  | str s =>
    rw [coreOf, renderCore]
    split
    · exact ⟨_, by rw [hd]; simp only [List.cons_append]; rfl⟩
    · exact ⟨_, by rw [hd]; simp only [List.cons_append]; rfl⟩
  | obj kvs =>
    rw [coreOf, renderCore]
    split
    · exact ⟨_, by rw [hd]; simp only [List.cons_append]; rfl⟩
    · exact ⟨_, by rw [hd]; simp only [List.cons_append]; rfl⟩

theorem escText_head : ∀ (l : List Char), ¬(l = []) →
    ∃ c0 tl, escText l = c0 :: tl ∧ ¬(c0 = '<') := by
  intro l hl
  match l with
  | [] => exact absurd rfl hl
  | c :: rest =>
    rw [show escText (c :: rest) = escChar c ++ escText rest from rfl]
    rw [escChar]
    by_cases h1 : c = '&'
    · rw [if_pos h1]; exact ⟨'&', _, rfl, by decide⟩
    rw [if_neg h1]
    by_cases h2 : c = '<'
    · rw [if_pos h2]; exact ⟨'&', _, rfl, by decide⟩
    rw [if_neg h2]
    by_cases h3 : c = '>'
    · rw [if_pos h3]; exact ⟨'&', _, rfl, by decide⟩
    rw [if_neg h3]
    by_cases h4 : c = '"'
    · rw [if_pos h4]; exact ⟨'&', _, rfl, by decide⟩
    rw [if_neg h4]
    by_cases h5 : c = aposChar
    · rw [if_pos h5]; exact ⟨'&', _, rfl, by decide⟩
    rw [if_neg h5]
    exact ⟨c, _, rfl, h2⟩

theorem validNameB_ne_text {k : String} (h : validNameB k = true) :
    ¬(k = "#text") := by
  intro hk
  subst hk
  exact absurd h (by decide)

theorem validNameB_ne_attrs {k : String} (h : validNameB k = true) :
    ¬(k = "@attributes") := by
  intro hk
  subst hk
  exact absurd h (by decide)

theorem childTextCanon_cases : ∀ (kvs : List (String × JValue)) (b : Bool),
    childTextCanon kvs b = true →
    (kvs = [] ∧ b = true) ∨
    (∃ t, kvs = [("#text", JValue.str t)] ∧ b = true ∧ ¬(t = "") ∧ textOk t = true) ∨
    (∃ k v rest, kvs = (k, v) :: rest ∧ validNameB k = true ∧
      rest.all (fun p => !(p.1 == k)) = true ∧
      ((∃ items, v = JValue.arr items ∧ 2 ≤ items.length ∧ listElemCanon items = true) ∨
        elemCanon v = true) ∧
      childTextCanon rest true = true) := by
  intro kvs b hc
  rw [childTextCanon.eq_def] at hc
  split at hc
  · exact Or.inl ⟨rfl, hc⟩
  · rename_i t
    rw [Bool.and_eq_true, Bool.and_eq_true] at hc
    refine Or.inr (Or.inl ⟨t, rfl, hc.1.1, ?_, hc.2⟩)
    intro ht
    rw [ht] at hc
    simpa using hc.1.2
  · rename_i k v rest hm1
    rw [Bool.and_eq_true, Bool.and_eq_true, Bool.and_eq_true] at hc
    obtain ⟨⟨⟨hk, hdist⟩, hv⟩, hrest⟩ := hc
    refine Or.inr (Or.inr ⟨k, v, rest, rfl, hk, hdist, ?_, hrest⟩)
    cases v with
    | arr items =>
      rw [Bool.and_eq_true] at hv
      exact Or.inl ⟨items, rfl, by simpa using hv.1, hv.2⟩
    | null => cases hv
    | str s => exact Or.inr hv
    | obj o => exact Or.inr hv

theorem toXml_lt {v : JValue} (tag : String) (hv : elemCanon v = true) :
    ∃ tl, toXml v tag = '<' :: tl := by
  obtain ⟨tl, htl⟩ := coreOf_lt tag hv
  cases v with
  | null => simp [elemCanon] at hv
  | arr items => simp [elemCanon] at hv
  | str s => exact ⟨_, by rw [toXml_core_str, htl]; rfl⟩
  | obj kvs => exact ⟨_, by rw [toXml_core_obj, htl]; rfl⟩

theorem toXmlL_shape : ∀ (items : List JValue) (tag : String),
    listElemCanon items = true →
    toXmlL items tag = [] ∨ ∃ tl, toXmlL items tag = '<' :: tl
  | [], _, _ => Or.inl rfl
  | v :: vs, tag, h => by
    rw [listElemCanon, Bool.and_eq_true] at h
    obtain ⟨tl, htl⟩ := toXml_lt tag h.1
    right
    rw [toXmlL, htl]
    exact ⟨_, rfl⟩

theorem listElemCanon_all : ∀ {items : List JValue}, listElemCanon items = true →
    ∀ v ∈ items, elemCanon v = true := by
  intro items
  induction items with
  | nil => intro _ v hv; cases hv
  | cons x xs ih =>
    intro h v hv
    rw [listElemCanon, Bool.and_eq_true] at h
    rcases List.mem_cons.mp hv with hv | hv
    · subst hv; exact h.1
    · exact ih h.2 v hv

theorem kvParts : ∀ (kvs : List (String × JValue)) (b : Bool),
    childTextCanon kvs b = true →
    ((objText kvs = [] ∧ jText kvs = []) ∨
     (∃ t, ¬(t = "") ∧ textOk t = true ∧
        objText kvs = escText t.data ∧ jText kvs = [XNode.text t])) ∧
    (objAttrs kvs = [] ∧ jAttrs kvs = []) ∧
    (toXmlKV kvs = [] → nodesOfKV kvs = []) ∧
    (toXmlKV kvs = [] ∨ ∃ tl, toXmlKV kvs = '<' :: tl) := by
  intro kvs
  induction kvs with
  | nil =>
    intro b hc
    exact ⟨Or.inl ⟨rfl, rfl⟩, ⟨rfl, rfl⟩, fun _ => rfl, Or.inl rfl⟩
  | cons p rest ih =>
    intro b hc
    rcases childTextCanon_cases (p :: rest) b hc with ⟨heq, _⟩ | ⟨t, heq, _, ht, htok⟩ |
      ⟨k, v, rest', heq, hk, hdist, hval, hrest⟩
    · cases heq
    · injection heq with e1 e2
      subst e1
      subst e2
      refine ⟨Or.inr ⟨t, ht, htok, ?_, ?_⟩, ⟨rfl, rfl⟩, fun _ => rfl, Or.inl rfl⟩
      · rfl
      · rw [jText]
        rw [show ([("#text", JValue.str t)].filter
            (fun p => p.1 == "#text")).getLast? = some ("#text", JValue.str t) from rfl]
        show (if t = "" then ([] : List XNode) else [XNode.text t]) = [XNode.text t]
        rw [if_neg ht]
    · injection heq with e1 e2
      subst e1
      subst e2
      obtain ⟨htext, hattrs, hnil, hshape⟩ := ih true hrest
      have hkt : ¬(k = "#text") := validNameB_ne_text hk
      have hka : ¬(k = "@attributes") := validNameB_ne_attrs hk
      have hbt : (k == "#text") = false := beq_eq_false_iff_ne.mpr hkt
      have hba : (k == "@attributes") = false := beq_eq_false_iff_ne.mpr hka
      have hcond : ¬((decide (k = "@attributes") || decide (k = "#text")) = true) := by
        simp [hka, hkt]
      have htx : toXml v k ≠ [] := by
        rcases hval with ⟨items, hv, hlen, hlc⟩ | hec
        · subst hv
          cases items with
          | nil => simp at hlen
          | cons i1 irest =>
            rw [listElemCanon, Bool.and_eq_true] at hlc
            obtain ⟨tl, htl⟩ := toXml_lt k hlc.1
            rw [show toXml (JValue.arr (i1 :: irest)) k
                = toXml i1 k ++ toXmlL irest k from rfl, htl]
            simp
        · obtain ⟨tl, htl⟩ := toXml_lt k hec
          rw [htl]
          simp
      refine ⟨?_, ?_, ?_, ?_⟩
      · rw [show objText ((k, v) :: rest) = objText rest from by
          rw [objText, objText, List.filter_cons, hbt]; rfl]
        rw [show jText ((k, v) :: rest) = jText rest from by
          rw [jText, jText, List.filter_cons, hbt]; rfl]
        exact htext
      · constructor
        · rw [objAttrs, List.filter_cons, hba]
          exact hattrs.1
        · rw [jAttrs, List.filter_cons, hba]
          exact hattrs.2
      · intro h0
        rw [toXmlKV, if_neg hcond] at h0
        exact absurd (List.append_eq_nil.mp h0).1 htx
      · right
        rw [toXmlKV, if_neg hcond]
        rcases hval with ⟨items, hv, hlen, hlc⟩ | hec
        · subst hv
          cases items with
          | nil => simp at hlen
          | cons i1 irest =>
            rw [listElemCanon, Bool.and_eq_true] at hlc
            obtain ⟨tl, htl⟩ := toXml_lt k hlc.1
            rw [show toXml (JValue.arr (i1 :: irest)) k
                = toXml i1 k ++ toXmlL irest k from rfl, htl]
            exact ⟨_, rfl⟩
        · obtain ⟨tl, htl⟩ := toXml_lt k hec
          rw [htl]
          exact ⟨_, rfl⟩

theorem str_data_ne_nil {t : String} (h : ¬(t = "")) : ¬(t.data = []) := by
  intro hd
  exact h (by cases t with | mk d => cases hd; rfl)

theorem escText_ne_nil {t : String} (h : ¬(t = "")) : ¬(escText t.data = []) := by
  obtain ⟨c0, tl, he, _⟩ := escText_head t.data (str_data_ne_nil h)
  rw [he]
  simp

theorem len_le_flatMap {α β : Type} (g : α → List β) :
    ∀ (l : List α), (∀ a ∈ l, 1 ≤ (g a).length) → l.length ≤ (l.flatMap g).length
  | [], _ => by simp
  | a :: l, h => by
    have ih := len_le_flatMap g l (fun x hx => h x (List.mem_cons_of_mem _ hx))
    have ha := h a (List.mem_cons_self _ _)
    rw [List.flatMap_cons, List.length_append, List.length_cons]
    omega

theorem attrChars_len (a : String × JValue) : 1 ≤ (attrChars a).length := by
  rw [attrChars]
  simp

theorem attrsTxt_head (avs : List (String × JValue)) :
    avs.flatMap attrChars = [] ∨
    ∃ tl, avs.flatMap attrChars = ' ' :: tl := by
  cases avs with
  | nil => exact Or.inl rfl
  | cons a as =>
    right
    rw [List.flatMap_cons, attrChars]
    exact ⟨_, rfl⟩

theorem stop_spec (r : List Char) : ∀ g, 1 ≤ g →
    parseContentF g ('<' :: '/' :: r) = some ([], '<' :: '/' :: r) := by
  intro g hg
  cases g with
  | zero => omega
  | succ f => exact parseContentF_stop f r

/-- One printed element followed by its newline inside element content:
parses to the element's node and a `"\n"` text node, then continues. -/
theorem contentStep {v : JValue} {tag : String}
    (hv : elemCanon v = true) (htag : validNameB tag = true)
    (ne : Nat)
    (helem : ∀ fuel, ne ≤ fuel → ∀ rest,
      parseElementF fuel (coreOf v tag ++ rest) = some (nodeOf v tag, rest))
    (B : List Char) (nds : List XNode) (r2 : List Char) (m0 : Nat) (hm0 : 1 ≤ m0)
    (hB : ∃ Y, B = '<' :: Y)
    (hcont : ∀ g, m0 ≤ g → parseContentF g B = some (nds, r2)) :
    ∃ n0, n0 ≤ max ne (m0 + 1) + 1 ∧ ∀ fuel, n0 ≤ fuel →
      parseContentF fuel (toXml v tag ++ B)
        = some (nodeOf v tag :: XNode.text "\n" :: nds, r2) := by
  obtain ⟨ch, ct, hcd, hcstart, _⟩ := validNameB_start htag
  obtain ⟨tl, hcore⟩ := coreOf_expose hv hcd
  obtain ⟨Y, hBeq⟩ := hB
  have htx : toXml v tag = coreOf v tag ++ ['\n'] := by
    cases v with
    | null => simp [elemCanon] at hv
    | arr items => simp [elemCanon] at hv
    | str s => exact toXml_core_str s tag
    | obj kvs => exact toXml_core_obj kvs tag
  refine ⟨max ne (m0 + 1) + 1, le_refl _, ?_⟩
  intro fuel hfuel
  cases fuel with
  | zero => omega
  | succ f =>
    have hin : toXml v tag ++ B = '<' :: ch :: (tl ++ ('\n' :: B)) := by
      rw [htx, hcore]
      simp
    rw [hin]
    rw [parseContentF_elem f ch _ (by
      intro hh
      rw [hh] at hcstart
      exact absurd hcstart (by decide))]
    rw [show '<' :: ch :: (tl ++ ('\n' :: B)) = coreOf v tag ++ ('\n' :: B) from by
      rw [hcore]; simp]
    cases f with
    | zero => omega
    | succ f2 =>
      have htr : parseTextRun ('\n' :: B) = some (['\n'], B) := by
        rw [show parseTextRun ('\n' :: B)
            = (parseTextRun B).map (fun p => ('\n' :: p.1, p.2)) from
          parseTextRun_cons_plain B (by decide) (by decide)]
        rw [hBeq, parseTextRun_lt]
        rfl
      have hinner : parseContentF (Nat.succ f2) ('\n' :: B)
          = some (XNode.text "\n" :: nds, r2) := by
        rw [parseContentF_text f2 '\n' B (by decide)]
        simp only [htr, hcont f2 (by omega)]
      simp only [helem (Nat.succ f2) (by omega) ('\n' :: B), hinner]

theorem parseElementF_succ_lt (f : Nat) (rest : List Char) :
    parseElementF (Nat.succ f) ('<' :: rest)
      = (match parseName rest with
         | none => none
         | some (nm, r1) =>
           match parseAttrsF f r1 with
           | none => none
           | some (attrs, r2) =>
             match r2.dropWhile xmlWS with
             | '/' :: '>' :: r3 => some (XNode.elem nm attrs [], r3)
             | '>' :: r3 =>
               match parseContentF f r3 with
               | none => none
               | some (children, r4) =>
                 match r4 with
                 | '<' :: '/' :: r5 =>
                   match parseName r5 with
                   | none => none
                   | some (nm2, r6) =>
                     if nm2 = nm then
                       match r6.dropWhile xmlWS with
                       | '>' :: r7 => some (XNode.elem nm attrs children, r7)
                       | _ => none
                     else none
                 | _ => none
             | _ => none) := rfl

/-- Parsing the printed text part followed by the printed children, up to a
closing tag left in place. -/
theorem contentAll (textPart : List Char) (textNodes : List XNode)
    (kvChars : List Char) (kvNodes : List XNode) (CL : List Char)
    (htext : (textPart = [] ∧ textNodes = []) ∨
      ∃ t, ¬(t = "") ∧ textPart = escText t.data ∧ textNodes = [XNode.text t])
    (hkvshape : kvChars = [] ∨ ∃ tl, kvChars = '<' :: tl)
    (hCL : ∃ Y, CL = '<' :: '/' :: Y)
    (hkvC : ∀ g, kvChars.length + 1 ≤ g →
      parseContentF g (kvChars ++ CL) = some (kvNodes, CL)) :
    ∀ g, textPart.length + kvChars.length + 2 ≤ g →
      parseContentF g (textPart ++ (kvChars ++ CL))
        = some (textNodes ++ kvNodes, CL) := by
  rcases htext with ⟨hTP, hTN⟩ | ⟨t, htne, hTP, hTN⟩
  · intro g hg
    rw [hTP, hTN, List.nil_append, List.nil_append]
    exact hkvC g (by omega)
  · intro g hg
    cases g with
    | zero => omega
    | succ g2 =>
      obtain ⟨c0, tl0, hesc, hc0⟩ := escText_head t.data (str_data_ne_nil htne)
      obtain ⟨W, hW⟩ : ∃ W, kvChars ++ CL = '<' :: W := by
        obtain ⟨Y, hY⟩ := hCL
        rcases hkvshape with hK | ⟨tl, hK⟩
        · exact ⟨_, by rw [hK, List.nil_append, hY]⟩
        · exact ⟨_, by rw [hK, List.cons_append]⟩
      have htr : parseTextRun (textPart ++ (kvChars ++ CL))
          = some (t.data, kvChars ++ CL) := by
        rw [hTP, hW]
        exact parseTextRun_complete t.data W
      have hin2 : textPart ++ (kvChars ++ CL) = c0 :: (tl0 ++ (kvChars ++ CL)) := by
        rw [hTP, hesc, List.cons_append]
      rw [hin2, parseContentF_text g2 c0 (tl0 ++ (kvChars ++ CL)) hc0, ← hin2]
      simp only [htr, hkvC g2 (by omega)]
      rw [hTN]
      rw [show (⟨t.data⟩ : String) = t from by cases t with | mk d => rfl]
      rfl

/-- Reading back one printed element: attributes, optional text, children,
closing tag. The children's parse is a hypothesis, so this covers both the
string and object printing forms. -/
theorem elemAssemble (tag : String) (htag : validNameB tag = true)
    (avsEff : List (String × JValue)) (hall : ∀ a ∈ avsEff, attrOk a = true)
    (textPart : List Char) (textNodes : List XNode)
    (kvChars : List Char) (kvNodes : List XNode)
    (htext : (textPart = [] ∧ textNodes = []) ∨
      ∃ t, ¬(t = "") ∧ textPart = escText t.data ∧ textNodes = [XNode.text t])
    (hkvshape : kvChars = [] ∨ ∃ tl, kvChars = '<' :: tl)
    (hkvnil : kvChars = [] → kvNodes = [])
    (hkv : ∀ fuel, kvChars.length + 1 ≤ fuel → ∀ B0, (∃ Y, B0 = '<' :: '/' :: Y) →
      parseContentF fuel (kvChars ++ B0) = some (kvNodes, B0)) :
    ∃ n0, n0 ≤ (renderCore tag (avsEff.flatMap attrChars) textPart kvChars).length ∧
      ∀ fuel, n0 ≤ fuel → ∀ rest,
        parseElementF fuel
            (renderCore tag (avsEff.flatMap attrChars) textPart kvChars ++ rest)
          = some (XNode.elem tag
              (avsEff.map (fun a =>
                (a.1, match a.2 with | JValue.str v => v | _ => "")))
              (textNodes ++ kvNodes), rest) := by
  obtain ⟨ch, ct, hcd, hcstart, hcall⟩ := validNameB_start htag
  have htdlen : 1 ≤ tag.data.length := by rw [hcd]; simp
  have halen : avsEff.length ≤ (avsEff.flatMap attrChars).length :=
    len_le_flatMap attrChars avsEff (fun a _ => attrChars_len a)
  by_cases hif : (textPart.isEmpty && kvChars.isEmpty) = true
  · have hif2 := hif
    rw [Bool.and_eq_true] at hif2
    have hT : textPart = [] := List.isEmpty_iff.mp hif2.1
    have hK : kvChars = [] := List.isEmpty_iff.mp hif2.2
    have hTN : textNodes = [] := by
      rcases htext with ⟨_, h⟩ | ⟨t, htne, hTP, _⟩
      · exact h
      · rw [hT] at hTP
        exact absurd hTP.symm (escText_ne_nil htne)
    have hKN : kvNodes = [] := hkvnil hK
    have hcore : renderCore tag (avsEff.flatMap attrChars) textPart kvChars
        = '<' :: tag.data ++ avsEff.flatMap attrChars ++ ['/', '>'] := by
      rw [renderCore, if_pos hif]
    refine ⟨avsEff.length + 2, ?_, ?_⟩
    · rw [hcore]
      simp only [List.length_cons, List.length_append, List.length_nil]
      omega
    · intro fuel hfuel rest
      obtain ⟨na, hnale, haspec⟩ :=
        parseAttrs_complete avsEff '/' ('>' :: rest) hall (by decide) (by decide)
      cases fuel with
      | zero => omega
      | succ f =>
        have hin : renderCore tag (avsEff.flatMap attrChars) textPart kvChars ++ rest
            = '<' :: (tag.data ++ (avsEff.flatMap attrChars ++ '/' :: '>' :: rest)) := by
          rw [hcore]
          simp
        rw [hin, parseElementF_succ_lt]
        have hpn : parseName (tag.data ++ (avsEff.flatMap attrChars ++ '/' :: '>' :: rest))
            = some (tag, avsEff.flatMap attrChars ++ '/' :: '>' :: rest) := by
          rcases attrsTxt_head avsEff with hA | ⟨tlA, hA⟩
          · rw [hA, List.nil_append]
            exact parseName_complete '/' ('>' :: rest) htag (by decide)
          · rw [hA, List.cons_append]
            exact parseName_complete ' ' (tlA ++ '/' :: '>' :: rest) htag (by decide)
        have hpa : parseAttrsF f (avsEff.flatMap attrChars ++ '/' :: '>' :: rest)
            = some (avsEff.map (fun a =>
                (a.1, match a.2 with | JValue.str v => v | _ => "")),
                '/' :: '>' :: rest) := haspec f (by omega)
        have hdw : ('/' :: '>' :: rest).dropWhile xmlWS = '/' :: '>' :: rest := rfl
        rw [hTN, hKN]
        simp only [hpn, hpa, hdw, List.nil_append]
  · have hcore : renderCore tag (avsEff.flatMap attrChars) textPart kvChars
        = '<' :: tag.data ++ avsEff.flatMap attrChars ++ '>' :: textPart ++ kvChars ++
            '<' :: '/' :: tag.data ++ ['>'] := by
      rw [renderCore, if_neg hif]
    refine ⟨avsEff.length + textPart.length + kvChars.length + 4, ?_, ?_⟩
    · rw [hcore]
      simp only [List.length_cons, List.length_append, List.length_nil]
      omega
    · intro fuel hfuel rest
      obtain ⟨na, hnale, haspec⟩ :=
        parseAttrs_complete avsEff '>'
          (textPart ++ (kvChars ++ '<' :: '/' :: (tag.data ++ '>' :: rest)))
          hall (by decide) (by decide)
      cases fuel with
      | zero => omega
      | succ f =>
        have hin : renderCore tag (avsEff.flatMap attrChars) textPart kvChars ++ rest
            = '<' :: (tag.data ++ (avsEff.flatMap attrChars ++ '>' ::
                (textPart ++ (kvChars ++ '<' :: '/' :: (tag.data ++ '>' :: rest))))) := by
          rw [hcore]
          simp
        rw [hin, parseElementF_succ_lt]
        have hpn : parseName (tag.data ++ (avsEff.flatMap attrChars ++ '>' ::
              (textPart ++ (kvChars ++ '<' :: '/' :: (tag.data ++ '>' :: rest)))))
            = some (tag, avsEff.flatMap attrChars ++ '>' ::
              (textPart ++ (kvChars ++ '<' :: '/' :: (tag.data ++ '>' :: rest)))) := by
          rcases attrsTxt_head avsEff with hA | ⟨tlA, hA⟩
          · rw [hA, List.nil_append]
            exact parseName_complete '>' _ htag (by decide)
          · rw [hA, List.cons_append]
            exact parseName_complete ' ' _ htag (by decide)
        have hpa : parseAttrsF f (avsEff.flatMap attrChars ++ '>' ::
              (textPart ++ (kvChars ++ '<' :: '/' :: (tag.data ++ '>' :: rest))))
            = some (avsEff.map (fun a =>
                (a.1, match a.2 with | JValue.str v => v | _ => "")),
                '>' :: (textPart ++ (kvChars ++ '<' :: '/' :: (tag.data ++ '>' :: rest)))) :=
          haspec f (by omega)
        have hdw : ('>' :: (textPart ++ (kvChars ++ '<' :: '/' ::
              (tag.data ++ '>' :: rest)))).dropWhile xmlWS
            = '>' :: (textPart ++ (kvChars ++ '<' :: '/' :: (tag.data ++ '>' :: rest))) := rfl
        have hkvC : ∀ g, kvChars.length + 1 ≤ g →
            parseContentF g (kvChars ++ '<' :: '/' :: (tag.data ++ '>' :: rest))
              = some (kvNodes, '<' :: '/' :: (tag.data ++ '>' :: rest)) :=
          fun g hg => hkv g hg _ ⟨_, rfl⟩
        have hcont : parseContentF f
              (textPart ++ (kvChars ++ '<' :: '/' :: (tag.data ++ '>' :: rest)))
            = some (textNodes ++ kvNodes, '<' :: '/' :: (tag.data ++ '>' :: rest)) :=
          contentAll textPart textNodes kvChars kvNodes _ htext hkvshape ⟨_, rfl⟩
            hkvC f (by omega)
        have hpn2 : parseName (tag.data ++ '>' :: rest) = some (tag, '>' :: rest) :=
          parseName_complete '>' rest htag (by decide)
        have hdw2 : ('>' :: rest).dropWhile xmlWS = '>' :: rest := rfl
        simp only [hpn, hpa, hdw, hcont, hpn2, eq_self_iff_true, if_true, hdw2]

/-- A canonical leading `@attributes` entry: nonempty, well-formed, followed
by canonical children. -/
def headAttrsOk : List (String × JValue) → Bool
  | ("@attributes", JValue.obj avs) :: rest =>
      !avs.isEmpty && avs.all attrOk && childTextCanon rest true
  | _ => false

theorem headAttrsOk_cases (kvs : List (String × JValue)) (h : headAttrsOk kvs = true) :
    ∃ avs rest, kvs = ("@attributes", JValue.obj avs) :: rest ∧
      ¬(avs = []) ∧ (∀ a ∈ avs, attrOk a = true) ∧ childTextCanon rest true = true := by
  rw [headAttrsOk.eq_def] at h
  split at h
  · rename_i avs rest
    rw [Bool.and_eq_true, Bool.and_eq_true] at h
    refine ⟨avs, rest, rfl, ?_, ?_, h.2⟩
    · intro he
      rw [he] at h
      simpa using h.1.1
    · intro a ha
      exact List.all_eq_true.mp h.1.2 a ha
  · cases h

theorem elemCanon_obj_split (kvs : List (String × JValue))
    (h : elemCanon (JValue.obj kvs) = true) :
    childTextCanon kvs false = true ∨ headAttrsOk kvs = true := by
  rw [elemCanon.eq_def] at h
  split at h
  · rename_i s heq
    exact absurd heq (by simp)
  · rename_i kvs1 heq
    injection heq with e
    subst e
    split at h
    all_goals first
      | exact Or.inr h
      | exact Or.inl h
  · rename_i hns hno
    exact (hno kvs rfl).elim

theorem toXml_core {v : JValue} (tag : String) (hv : elemCanon v = true) :
    toXml v tag = coreOf v tag ++ ['\n'] := by
  cases v with
  | null => simp [elemCanon] at hv
  | arr items => simp [elemCanon] at hv
  | str s => exact toXml_core_str s tag
  | obj kvs => exact toXml_core_obj kvs tag

theorem coreOf_len2 {v : JValue} {tag : String} (hv : elemCanon v = true)
    (htag : validNameB tag = true) : 2 ≤ (coreOf v tag).length := by
  obtain ⟨ch, ct, hcd, _, _⟩ := validNameB_start htag
  obtain ⟨tl, h⟩ := coreOf_expose hv hcd
  rw [h, List.length_cons, List.length_cons]
  omega

theorem nodesOfL_cons_elem {v : JValue} (vs : List JValue) (tag : String)
    (hv : elemCanon v = true) :
    nodesOfL (v :: vs) tag = nodeOf v tag :: XNode.text "\n" :: nodesOfL vs tag := by
  cases v with
  | null => simp [elemCanon] at hv
  | arr items => simp [elemCanon] at hv
  | str s => rfl
  | obj kvs => rfl

theorem nodesOfKV_cons_elem {k : String} {v : JValue} (rest : List (String × JValue))
    (hv : elemCanon v = true) (hk : validNameB k = true) :
    toXmlKV ((k, v) :: rest) = toXml v k ++ toXmlKV rest ∧
    nodesOfKV ((k, v) :: rest) = nodeOf v k :: XNode.text "\n" :: nodesOfKV rest := by
  have hk1 := validNameB_ne_attrs hk
  have hk2 := validNameB_ne_text hk
  have hcond : (decide (k = "@attributes") || decide (k = "#text")) = false := by
    rw [decide_eq_false hk1, decide_eq_false hk2]
    rfl
  have hneg : ¬((decide (k = "@attributes") || decide (k = "#text")) = true) := by
    rw [hcond]
    exact Bool.false_ne_true
  cases v with
  | null => simp [elemCanon] at hv
  | arr items => simp [elemCanon] at hv
  | str s =>
    constructor
    · simp only [toXmlKV]
      rw [if_neg hneg]
    · simp only [nodesOfKV]
      rw [if_neg hneg]
      rfl
  | obj o =>
    constructor
    · simp only [toXmlKV]
      rw [if_neg hneg]
    · simp only [nodesOfKV]
      rw [if_neg hneg]
      rfl

/-- One canonical child field at the head of element content: parse the
child's element, its newline, then the remaining children. -/
theorem kvConsStep {k : String} {v : JValue} (rest : List (String × JValue))
    (hv : elemCanon v = true) (hk : validNameB k = true)
    (ne : Nat) (hnele : ne ≤ (coreOf v k).length)
    (helem : ∀ fuel, ne ≤ fuel → ∀ r,
      parseElementF fuel (coreOf v k ++ r) = some (nodeOf v k, r))
    (hctrest : childTextCanon rest true = true)
    (B : List Char) (nds : List XNode) (r2 : List Char) (n1 : Nat)
    (hB : ∃ Y, B = '<' :: Y)
    (hrest : ∀ g, n1 ≤ g →
      parseContentF g (toXmlKV rest ++ B) = some (nodesOfKV rest ++ nds, r2)) :
    ∃ n0, n0 ≤ (toXml v k).length + n1 ∧ ∀ fuel, n0 ≤ fuel →
      parseContentF fuel (toXmlKV ((k, v) :: rest) ++ B)
        = some (nodesOfKV ((k, v) :: rest) ++ nds, r2) := by
  obtain ⟨hx1, hx2⟩ := nodesOfKV_cons_elem rest hv hk
  have hB' : ∃ Y, toXmlKV rest ++ B = '<' :: Y := by
    rcases (kvParts rest true hctrest).2.2.2 with hsh | ⟨tl, hsh⟩
    · obtain ⟨Y, hY⟩ := hB
      exact ⟨Y, by rw [hsh, List.nil_append, hY]⟩
    · exact ⟨_, by rw [hsh, List.cons_append]⟩
  have hrest' : ∀ g, max n1 1 ≤ g →
      parseContentF g (toXmlKV rest ++ B) = some (nodesOfKV rest ++ nds, r2) :=
    fun g hg => hrest g (by omega)
  obtain ⟨n2, hn2le, spec2⟩ := contentStep hv hk ne helem (toXmlKV rest ++ B)
    (nodesOfKV rest ++ nds) r2 (max n1 1) (by omega) hB' hrest'
  have htl : (toXml v k).length = (coreOf v k).length + 1 := by
    rw [toXml_core k hv, List.length_append]
    rfl
  have hc2 : 2 ≤ (coreOf v k).length := coreOf_len2 hv hk
  refine ⟨n2, by omega, ?_⟩
  intro fuel hf
  have h3 := spec2 fuel hf
  rw [hx1, List.append_assoc, hx2]
  exact h3

/-- Folding an object's attribute, text and child facts into the element
parse of its printed core. -/
theorem objAssemble (tag : String) (htag : validNameB tag = true)
    (kvs : List (String × JValue)) (avsEff : List (String × JValue))
    (hall : ∀ a ∈ avsEff, attrOk a = true)
    (hoa : objAttrs kvs = avsEff.flatMap attrChars)
    (hja : jAttrs kvs = avsEff.map (fun a =>
      (a.1, match a.2 with | JValue.str v => v | _ => "")))
    (htext : (objText kvs = [] ∧ jText kvs = []) ∨
      ∃ t, ¬(t = "") ∧ objText kvs = escText t.data ∧ jText kvs = [XNode.text t])
    (hkshape : toXmlKV kvs = [] ∨ ∃ tl, toXmlKV kvs = '<' :: tl)
    (hknil : toXmlKV kvs = [] → nodesOfKV kvs = [])
    (hkvE : ∀ fuel, (toXmlKV kvs).length + 1 ≤ fuel → ∀ B0,
      (∃ Y, B0 = '<' :: '/' :: Y) →
      parseContentF fuel (toXmlKV kvs ++ B0) = some (nodesOfKV kvs, B0)) :
    ∃ n0, n0 ≤ (coreOf (JValue.obj kvs) tag).length ∧ ∀ fuel, n0 ≤ fuel → ∀ rest,
      parseElementF fuel (coreOf (JValue.obj kvs) tag ++ rest)
        = some (nodeOf (JValue.obj kvs) tag, rest) := by
  obtain ⟨n0, hn0, hsp⟩ := elemAssemble tag htag avsEff hall (objText kvs) (jText kvs)
    (toXmlKV kvs) (nodesOfKV kvs) htext hkshape hknil hkvE
  refine ⟨n0, ?_, ?_⟩
  · rw [show coreOf (JValue.obj kvs) tag
        = renderCore tag (objAttrs kvs) (objText kvs) (toXmlKV kvs) from rfl, hoa]
    exact hn0
  · intro fuel hf r
    have h2 := hsp fuel hf r
    rw [show coreOf (JValue.obj kvs) tag
        = renderCore tag (objAttrs kvs) (objText kvs) (toXmlKV kvs) from rfl, hoa,
      show nodeOf (JValue.obj kvs) tag
        = XNode.elem tag (jAttrs kvs) (jText kvs ++ nodesOfKV kvs) from rfl, hja]
    exact h2

mutual

/-- Completeness of the element parser on printed canonical values. -/
theorem parseElem_complete : ∀ (v : JValue) (tag : String),
    elemCanon v = true → validNameB tag = true →
    ∃ n0, n0 ≤ (coreOf v tag).length ∧ ∀ fuel, n0 ≤ fuel → ∀ rest,
      parseElementF fuel (coreOf v tag ++ rest) = some (nodeOf v tag, rest)
  | JValue.null, tag, hv, htag => by simp [elemCanon] at hv
  | JValue.arr items, tag, hv, htag => by simp [elemCanon] at hv
  | JValue.str s, tag, hv, htag => by
      have hkvp : ∀ fuel, ([] : List Char).length + 1 ≤ fuel → ∀ B0,
          (∃ Y, B0 = '<' :: '/' :: Y) →
          parseContentF fuel (([] : List Char) ++ B0) = some (([] : List XNode), B0) := by
        intro fuel hf B0 hB0
        obtain ⟨Y, hY⟩ := hB0
        rw [List.nil_append, hY]
        exact stop_spec Y fuel (by omega)
      by_cases hs : s = ""
      · subst hs
        obtain ⟨n0, hn0, hspec⟩ := elemAssemble tag htag []
          (fun a ha => absurd ha (List.not_mem_nil a))
          (escText ("" : String).data) [] [] []
          (Or.inl ⟨rfl, rfl⟩) (Or.inl rfl) (fun _ => rfl) hkvp
        exact ⟨n0, hn0, fun fuel hf rest => hspec fuel hf rest⟩
      · obtain ⟨n0, hn0, hspec⟩ := elemAssemble tag htag []
          (fun a ha => absurd ha (List.not_mem_nil a))
          (escText s.data) [XNode.text s] [] []
          (Or.inr ⟨s, hs, rfl, rfl⟩) (Or.inl rfl) (fun _ => rfl) hkvp
        refine ⟨n0, hn0, ?_⟩
        intro fuel hf rest
        have h2 := hspec fuel hf rest
        rw [show nodeOf (JValue.str s) tag
            = XNode.elem tag [] (if s = "" then [] else [XNode.text s]) from rfl,
          if_neg hs]
        exact h2
  | JValue.obj kvs, tag, hv, htag => by
      have hsplit := elemCanon_obj_split kvs hv
      have hkvE : ∀ fuel, (toXmlKV kvs).length + 1 ≤ fuel → ∀ B0,
          (∃ Y, B0 = '<' :: '/' :: Y) →
          parseContentF fuel (toXmlKV kvs ++ B0) = some (nodesOfKV kvs, B0) := by
        intro fuel hf B0 hB0
        obtain ⟨Y, hY⟩ := hB0
        obtain ⟨n0x, hn0x, hsx⟩ := parseKV_complete kvs false hsplit B0 [] B0 1
          ⟨'/' :: Y, by rw [hY]⟩
          (by
            intro g hg
            rw [hY]
            exact stop_spec Y g hg)
        have h2 := hsx fuel (by omega)
        rw [List.append_nil] at h2
        exact h2
      rcases hsplit with hct | hha
      · obtain ⟨htx, ⟨hoa, hja⟩, hknil, hkshape⟩ := kvParts kvs false hct
        refine objAssemble tag htag kvs []
          (fun a ha => absurd ha (List.not_mem_nil a))
          (by rw [hoa]; rfl) (by rw [hja]; rfl) ?_ hkshape hknil hkvE
        rcases htx with ⟨h1, h2⟩ | ⟨t, h1, h2, h3, h4⟩
        · exact Or.inl ⟨h1, h2⟩
        · exact Or.inr ⟨t, h1, h3, h4⟩
      · obtain ⟨avs, rest, heq, hane, hallA, hct⟩ := headAttrsOk_cases kvs hha
        subst heq
        obtain ⟨htxR, ⟨hoaR, hjaR⟩, hknilR, hkshapeR⟩ := kvParts rest true hct
        have e1 : objAttrs (("@attributes", JValue.obj avs) :: rest)
            = avs.flatMap attrChars ++ objAttrs rest := rfl
        have e2 : jAttrs (("@attributes", JValue.obj avs) :: rest)
            = avs.map (fun a =>
                (a.1, match a.2 with | JValue.str v => v | _ => "")) ++ jAttrs rest := rfl
        have e3 : objText (("@attributes", JValue.obj avs) :: rest) = objText rest := rfl
        have e4 : jText (("@attributes", JValue.obj avs) :: rest) = jText rest := rfl
        have e5 : toXmlKV (("@attributes", JValue.obj avs) :: rest) = toXmlKV rest := rfl
        have e6 : nodesOfKV (("@attributes", JValue.obj avs) :: rest) = nodesOfKV rest := rfl
        refine objAssemble tag htag _ avs hallA
          (by rw [e1, hoaR, List.append_nil])
          (by rw [e2, hjaR, List.append_nil]) ?_ ?_ ?_ hkvE
        · rw [e3, e4]
          rcases htxR with ⟨h1, h2⟩ | ⟨t, h1, h2, h3, h4⟩
          · exact Or.inl ⟨h1, h2⟩
          · exact Or.inr ⟨t, h1, h3, h4⟩
        · rw [e5]
          exact hkshapeR
        · rw [e5, e6]
          exact hknilR

/-- Completeness of the content parser on an object's printed child
fields, with an optional leading `@attributes` entry. -/
theorem parseKV_complete : ∀ (kvs : List (String × JValue)) (b : Bool),
    (childTextCanon kvs b = true ∨ headAttrsOk kvs = true) →
    ∀ (B : List Char) (nds : List XNode) (r2 : List Char) (m0 : Nat),
    (∃ Y, B = '<' :: Y) →
    (∀ g, m0 ≤ g → parseContentF g B = some (nds, r2)) →
    ∃ n0, n0 ≤ (toXmlKV kvs).length + m0 ∧ ∀ fuel, n0 ≤ fuel →
      parseContentF fuel (toXmlKV kvs ++ B) = some (nodesOfKV kvs ++ nds, r2)
  | [], b, h, B, nds, r2, m0, hB, hcont => by
      refine ⟨m0, by simp, ?_⟩
      intro fuel hf
      rw [show toXmlKV [] = [] from rfl, show nodesOfKV [] = [] from rfl,
        List.nil_append, List.nil_append]
      exact hcont fuel hf
  | (k, v) :: rest, b, h, B, nds, r2, m0, hB, hcont => by
      have helemF := parseElem_complete v
      have hkvF := parseKV_complete rest
      cases v with
      | null =>
        exfalso
        rcases h with hct | hha
        · rcases childTextCanon_cases _ _ hct with ⟨heq, _⟩ |
            ⟨t, heq, hb, htne, htok⟩ |
            ⟨k', v', rest', heq, hk', hdist, hval, hctr⟩
          · exact absurd heq (by simp)
          · injection heq with e1 e2
            injection e1 with ek ev
            exact absurd ev (by simp)
          · injection heq with e1 e2
            injection e1 with ek ev
            subst ev
            rcases hval with ⟨items, hvi, hlen2, hlc⟩ | hev
            · exact absurd hvi (by simp)
            · simp [elemCanon] at hev
        · obtain ⟨avs, rest', heq, hane, hallA, hctr⟩ := headAttrsOk_cases _ hha
          injection heq with e1 e2
          injection e1 with ek ev
          exact absurd ev (by simp)
      | arr items =>
        rcases h with hct | hha
        · rcases childTextCanon_cases _ _ hct with ⟨heq, _⟩ |
            ⟨t, heq, hb, htne, htok⟩ |
            ⟨k', v', rest', heq, hk', hdist, hval, hctr⟩
          · exact absurd heq (by simp)
          · injection heq with e1 e2
            injection e1 with ek ev
            exact absurd ev (by simp)
          · injection heq with e1 e2
            injection e1 with ek ev
            subst ek
            subst e2
            rcases hval with ⟨items2, hvi, hlen2, hlc⟩ | hev
            · rw [← ev] at hvi
              injection hvi with e3
              subst e3
              have hk1 := validNameB_ne_attrs hk'
              have hk2 := validNameB_ne_text hk'
              have hneg : ¬((decide (k = "@attributes")
                  || decide (k = "#text")) = true) := by
                rw [decide_eq_false hk1, decide_eq_false hk2]
                simp
              have f1 : toXmlKV ((k, JValue.arr items) :: rest)
                  = toXmlL items k ++ toXmlKV rest := by
                simp only [toXmlKV]
                rw [if_neg hneg]
                rfl
              have f2 : nodesOfKV ((k, JValue.arr items) :: rest)
                  = nodesOfL items k ++ nodesOfKV rest := by
                simp only [nodesOfKV]
                rw [if_neg hneg]
              obtain ⟨n1, hn1le, spec1⟩ := hkvF true (Or.inl hctr) B nds r2 m0 hB hcont
              have hB' : ∃ Y, toXmlKV rest ++ B = '<' :: Y := by
                rcases (kvParts rest true hctr).2.2.2 with hsh | ⟨tl, hsh⟩
                · obtain ⟨Y, hY⟩ := hB
                  exact ⟨Y, by rw [hsh, List.nil_append, hY]⟩
                · exact ⟨_, by rw [hsh, List.cons_append]⟩
              obtain ⟨n2, hn2le, spec2⟩ := parseL_complete items k hlc hk'
                (toXmlKV rest ++ B) (nodesOfKV rest ++ nds) r2 n1 hB' spec1
              refine ⟨n2, ?_, ?_⟩
              · have hlen : (toXmlKV ((k, JValue.arr items) :: rest)).length
                    = (toXmlL items k).length + (toXmlKV rest).length := by
                  rw [f1, List.length_append]
                omega
              · intro fuel hf
                have h3 := spec2 fuel hf
                rw [f1, List.append_assoc, f2, List.append_assoc]
                exact h3
            · rw [← ev] at hev
              simp [elemCanon] at hev
        · obtain ⟨avs, rest', heq, hane, hallA, hctr⟩ := headAttrsOk_cases _ hha
          injection heq with e1 e2
          injection e1 with ek ev
          exact absurd ev (by simp)
      | str s =>
        rcases h with hct | hha
        · rcases childTextCanon_cases _ _ hct with ⟨heq, _⟩ |
            ⟨t, heq, hb, htne, htok⟩ |
            ⟨k', v', rest', heq, hk', hdist, hval, hctr⟩
          · exact absurd heq (by simp)
          · injection heq with e1 e2
            injection e1 with ek ev
            subst ek
            subst e2
            refine ⟨m0, ?_, ?_⟩
            · rw [show toXmlKV [("#text", JValue.str s)] = [] from rfl]
              simp
            · intro fuel hf
              rw [show toXmlKV [("#text", JValue.str s)] = [] from rfl,
                show nodesOfKV [("#text", JValue.str s)] = [] from rfl,
                List.nil_append, List.nil_append]
              exact hcont fuel hf
          · injection heq with e1 e2
            injection e1 with ek ev
            subst ek
            subst e2
            rcases hval with ⟨items2, hvi, hlen2, hlc⟩ | hev
            · rw [← ev] at hvi
              exact absurd hvi (by simp)
            · rw [← ev] at hev
              obtain ⟨n1, hn1le, spec1⟩ := hkvF true (Or.inl hctr) B nds r2 m0 hB hcont
              obtain ⟨ne, hnele, helem⟩ := helemF k hev hk'
              obtain ⟨n2, hn2le, spec2⟩ := kvConsStep rest hev hk' ne hnele helem
                hctr B nds r2 n1 hB spec1
              refine ⟨n2, ?_, ?_⟩
              · have hf1 := (nodesOfKV_cons_elem
                  (k := k) (v := JValue.str s) rest hev hk').1
                have hlen : (toXmlKV ((k, JValue.str s) :: rest)).length
                    = (toXml (JValue.str s) k).length + (toXmlKV rest).length := by
                  rw [hf1, List.length_append]
                omega
              · exact spec2
        · obtain ⟨avs, rest', heq, hane, hallA, hctr⟩ := headAttrsOk_cases _ hha
          injection heq with e1 e2
          injection e1 with ek ev
          exact absurd ev (by simp)
      | obj o =>
        rcases h with hct | hha
        · rcases childTextCanon_cases _ _ hct with ⟨heq, _⟩ |
            ⟨t, heq, hb, htne, htok⟩ |
            ⟨k', v', rest', heq, hk', hdist, hval, hctr⟩
          · exact absurd heq (by simp)
          · injection heq with e1 e2
            injection e1 with ek ev
            exact absurd ev (by simp)
          · injection heq with e1 e2
            injection e1 with ek ev
            subst ek
            subst e2
            rcases hval with ⟨items2, hvi, hlen2, hlc⟩ | hev
            · rw [← ev] at hvi
              exact absurd hvi (by simp)
            · rw [← ev] at hev
              obtain ⟨n1, hn1le, spec1⟩ := hkvF true (Or.inl hctr) B nds r2 m0 hB hcont
              obtain ⟨ne, hnele, helem⟩ := helemF k hev hk'
              obtain ⟨n2, hn2le, spec2⟩ := kvConsStep rest hev hk' ne hnele helem
                hctr B nds r2 n1 hB spec1
              refine ⟨n2, ?_, ?_⟩
              · have hf1 := (nodesOfKV_cons_elem
                  (k := k) (v := JValue.obj o) rest hev hk').1
                have hlen : (toXmlKV ((k, JValue.obj o) :: rest)).length
                    = (toXml (JValue.obj o) k).length + (toXmlKV rest).length := by
                  rw [hf1, List.length_append]
                omega
              · exact spec2
        · obtain ⟨avs, rest', heq, hane, hallA, hctr⟩ := headAttrsOk_cases _ hha
          injection heq with e1 e2
          subst e2
          injection e1 with ek ev
          subst ek
          obtain ⟨n1, hn1le, spec1⟩ := hkvF true (Or.inl hctr) B nds r2 m0 hB hcont
          have e5 : toXmlKV (("@attributes", JValue.obj o) :: rest) = toXmlKV rest := rfl
          have e6 : nodesOfKV (("@attributes", JValue.obj o) :: rest)
              = nodesOfKV rest := rfl
          refine ⟨n1, ?_, ?_⟩
          · rw [e5]
            exact hn1le
          · intro fuel hf
            rw [e5, e6]
            exact spec1 fuel hf

/-- Completeness of the content parser on a printed canonical sequence. -/
theorem parseL_complete : ∀ (items : List JValue) (tag : String),
    listElemCanon items = true → validNameB tag = true →
    ∀ (B : List Char) (nds : List XNode) (r2 : List Char) (m0 : Nat),
    (∃ Y, B = '<' :: Y) →
    (∀ g, m0 ≤ g → parseContentF g B = some (nds, r2)) →
    ∃ n0, n0 ≤ (toXmlL items tag).length + m0 ∧ ∀ fuel, n0 ≤ fuel →
      parseContentF fuel (toXmlL items tag ++ B) = some (nodesOfL items tag ++ nds, r2)
  | [], tag, hlc, htag, B, nds, r2, m0, hB, hcont => by
      refine ⟨m0, by simp, ?_⟩
      intro fuel hf
      rw [show toXmlL [] tag = [] from rfl, show nodesOfL [] tag = [] from rfl,
        List.nil_append, List.nil_append]
      exact hcont fuel hf
  | v :: vs, tag, hlc, htag, B, nds, r2, m0, hB, hcont => by
      have hlc' : (elemCanon v && listElemCanon vs) = true := hlc
      rw [Bool.and_eq_true] at hlc'
      obtain ⟨hv, hvs⟩ := hlc'
      obtain ⟨n1, hn1le, spec1⟩ := parseL_complete vs tag hvs htag B nds r2 m0 hB hcont
      obtain ⟨ne, hnele, helem⟩ := parseElem_complete v tag hv htag
      have hB' : ∃ Y, toXmlL vs tag ++ B = '<' :: Y := by
        rcases toXmlL_shape vs tag hvs with hsh | ⟨tl, hsh⟩
        · obtain ⟨Y, hY⟩ := hB
          exact ⟨Y, by rw [hsh, List.nil_append, hY]⟩
        · exact ⟨_, by rw [hsh, List.cons_append]⟩
      have spec1' : ∀ g, max n1 1 ≤ g →
          parseContentF g (toXmlL vs tag ++ B) = some (nodesOfL vs tag ++ nds, r2) :=
        fun g hg => spec1 g (by omega)
      obtain ⟨n2, hn2le, spec2⟩ := contentStep hv htag ne helem (toXmlL vs tag ++ B)
        (nodesOfL vs tag ++ nds) r2 (max n1 1) (by omega) hB' spec1'
      have htl : (toXml v tag).length = (coreOf v tag).length + 1 := by
        rw [toXml_core tag hv, List.length_append]
        rfl
      have hc2 : 2 ≤ (coreOf v tag).length := coreOf_len2 hv htag
      have f1 : toXmlL (v :: vs) tag = toXml v tag ++ toXmlL vs tag := rfl
      have f2 := nodesOfL_cons_elem vs tag hv
      refine ⟨n2, ?_, ?_⟩
      · have hlen : (toXmlL (v :: vs) tag).length
            = (toXml v tag).length + (toXmlL vs tag).length := by
          rw [f1, List.length_append]
        omega
      · intro fuel hf
        have h3 := spec2 fuel hf
        rw [f1, List.append_assoc, f2]
        exact h3

end

/-! Trimming infrastructure for the text round trip. -/

theorem dropWhile_head_false (p : Char → Bool) :
    ∀ (l : List Char) (c : Char) (t : List Char),
    l.dropWhile p = c :: t → p c = false
  | [], c, t, h => by simp at h
  | x :: xs, c, t, h => by
    rw [List.dropWhile_cons] at h
    by_cases hx : p x = true
    · rw [if_pos hx] at h
      exact dropWhile_head_false p xs c t h
    · rw [if_neg hx] at h
      injection h with e1 _
      subst e1
      simpa using hx

theorem dropWhile_eq_self_of_head (p : Char → Bool) (l : List Char)
    (h : ∀ c, l.head? = some c → p c = false) : l.dropWhile p = l := by
  cases l with
  | nil => rfl
  | cons x xs =>
    rw [List.dropWhile_cons, if_neg (by rw [h x rfl]; exact Bool.false_ne_true)]

theorem getLast_dropWhile (p : Char → Bool) (l : List Char)
    (hne : ¬(l.dropWhile p = [])) : (l.dropWhile p).getLast? = l.getLast? := by
  obtain ⟨w, hw⟩ := List.dropWhile_suffix (l := l) p
  conv_rhs => rw [← hw]
  exact (List.getLast?_append_of_ne_nil w hne).symm

theorem head_false_of_dropWhile_self (p : Char → Bool) (c : Char) (t : List Char)
    (h : (c :: t).dropWhile p = c :: t) : p c = false := by
  by_cases hc : p c = true
  · rw [List.dropWhile_cons, if_pos hc] at h
    have hlen := congrArg List.length h
    have hle := (List.dropWhile_sublist (l := t) p).length_le
    rw [List.length_cons] at hlen
    omega
  · simpa using hc

theorem jsTrimList_idem (l : List Char) : jsTrimList (jsTrimList l) = jsTrimList l := by
  have h1 : (jsTrimList l).dropWhile isJsSpace = jsTrimList l := by
    apply dropWhile_eq_self_of_head
    intro c hc
    rw [jsTrimList, List.head?_reverse] at hc
    by_cases hu : ((l.dropWhile isJsSpace).reverse.dropWhile isJsSpace) = []
    · rw [hu] at hc
      exact Option.noConfusion hc
    · rw [getLast_dropWhile _ _ hu, List.getLast?_reverse] at hc
      cases hd : l.dropWhile isJsSpace with
      | nil => rw [hd] at hc; exact Option.noConfusion hc
      | cons x xs =>
        rw [hd] at hc
        injection hc with e
        subst e
        exact dropWhile_head_false _ l x xs hd
  have h2 : (jsTrimList l).reverse.dropWhile isJsSpace = (jsTrimList l).reverse := by
    rw [jsTrimList, List.reverse_reverse]
    exact dropWhile_dropWhile_self _ _
  rw [show jsTrimList (jsTrimList l)
      = (((jsTrimList l).dropWhile isJsSpace).reverse.dropWhile isJsSpace).reverse
    from rfl]
  rw [h1, h2, List.reverse_reverse]

theorem trimmedL_parts (l : List Char) (h : jsTrimList l = l) :
    l.dropWhile isJsSpace = l ∧ l.reverse.dropWhile isJsSpace = l.reverse := by
  have hsub1 : (l.dropWhile isJsSpace).Sublist l := List.dropWhile_sublist _
  have hsub2 : (((l.dropWhile isJsSpace).reverse).dropWhile isJsSpace).Sublist
      (l.dropWhile isJsSpace).reverse := List.dropWhile_sublist _
  have hlen : l.length = (jsTrimList l).length := by rw [h]
  rw [jsTrimList, List.length_reverse] at hlen
  have hle2 := hsub2.length_le
  rw [List.length_reverse] at hle2
  have hle1 := hsub1.length_le
  have he1 : l.dropWhile isJsSpace = l := hsub1.eq_of_length (by omega)
  refine ⟨he1, ?_⟩
  rw [jsTrimList, he1] at h
  have h4 := congrArg List.reverse h
  rw [List.reverse_reverse] at h4
  exact h4

theorem trimmedL_append (x y : List Char) (hx : jsTrimList x = x) (hy : jsTrimList y = y) :
    jsTrimList (x ++ y) = x ++ y := by
  cases x with
  | nil => rw [List.nil_append]; exact hy
  | cons a x2 =>
    cases y with
    | nil => rw [List.append_nil]; exact hx
    | cons b y2 =>
      obtain ⟨hx1, hx2⟩ := trimmedL_parts _ hx
      obtain ⟨hy1, hy2⟩ := trimmedL_parts _ hy
      have hpa : isJsSpace a = false := head_false_of_dropWhile_self _ a x2 hx1
      have hrvne : ¬((b :: y2).reverse = []) := by simp
      cases hrv : (b :: y2).reverse with
      | nil => exact absurd hrv hrvne
      | cons c t =>
        rw [hrv] at hy2
        have hpc : isJsSpace c = false := head_false_of_dropWhile_self _ c t hy2
        rw [jsTrimList]
        have hfront : ((a :: x2) ++ b :: y2).dropWhile isJsSpace
            = (a :: x2) ++ b :: y2 := by
          rw [List.cons_append, List.dropWhile_cons,
            if_neg (by rw [hpa]; exact Bool.false_ne_true)]
        rw [hfront, List.reverse_append, hrv, List.cons_append, List.dropWhile_cons,
          if_neg (by rw [hpc]; exact Bool.false_ne_true)]
        rw [← List.cons_append, ← hrv, ← List.reverse_append, List.reverse_reverse]

theorem mem_jsTrimList {c : Char} {l : List Char} (h : c ∈ jsTrimList l) : c ∈ l := by
  rw [jsTrimList, List.mem_reverse] at h
  have h2 := (List.dropWhile_sublist (l := (l.dropWhile isJsSpace).reverse)
    isJsSpace).subset h
  rw [List.mem_reverse] at h2
  exact (List.dropWhile_sublist (l := l) isJsSpace).subset h2

theorem jsTrim_idem (s : String) : jsTrim (jsTrim s) = jsTrim s := by
  apply String.ext
  show jsTrimList (jsTrim s).data = (jsTrim s).data
  show jsTrimList (jsTrimList s.data) = jsTrimList s.data
  exact jsTrimList_idem s.data

theorem jsTrim_append {x y : String} (hx : jsTrim x = x) (hy : jsTrim y = y) :
    jsTrim (x ++ y) = x ++ y := by
  apply String.ext
  show jsTrimList (x ++ y).data = (x ++ y).data
  rw [String.data_append]
  exact trimmedL_append x.data y.data (congrArg String.data hx) (congrArg String.data hy)

theorem textOk_parts {t : String} (h : textOk t = true) :
    jsTrim t = t ∧ ∀ c ∈ t.data, ¬(c = '\r') := by
  rw [textOk, Bool.and_eq_true] at h
  refine ⟨by simpa using h.1, ?_⟩
  intro c hc he
  have := List.all_eq_true.mp h.2 c hc
  rw [he] at this
  simp at this

theorem textOk_of {t : String} (h1 : jsTrim t = t) (h2 : ∀ c ∈ t.data, ¬(c = '\r')) :
    textOk t = true := by
  rw [textOk, Bool.and_eq_true]
  constructor
  · simp [h1]
  · rw [List.all_eq_true]
    intro c hc
    simp [h2 c hc]

theorem textConcat_trimmed : ∀ (l : List XNode), jsTrim (textConcat l) = textConcat l
  | [] => rfl
  | XNode.text s :: rest => by
      rw [show textConcat (XNode.text s :: rest)
          = (if jsTrim s = "" then "" else jsTrim s) ++ textConcat rest from rfl]
      have hp : jsTrim (if jsTrim s = "" then "" else jsTrim s)
          = (if jsTrim s = "" then "" else jsTrim s) := by
        by_cases h : jsTrim s = ""
        · rw [if_pos h]
          rfl
        · rw [if_neg h]
          exact jsTrim_idem s
      exact jsTrim_append hp (textConcat_trimmed rest)
  | XNode.elem n a ch :: rest => by
      rw [show textConcat (XNode.elem n a ch :: rest) = textConcat rest from rfl]
      exact textConcat_trimmed rest

theorem textConcat_crfree : ∀ (l : List XNode), nodesCanon l = true →
    ∀ c ∈ (textConcat l).data, ¬(c = '\r')
  | [], _, c, hc => by
      rw [show textConcat [] = "" from rfl] at hc
      simp at hc
  | XNode.text s :: rest, h, c, hc => by
      have h' : (nodeCanon (XNode.text s) && nodesCanon rest) = true := h
      rw [Bool.and_eq_true] at h'
      rw [show textConcat (XNode.text s :: rest)
          = (if jsTrim s = "" then "" else jsTrim s) ++ textConcat rest from rfl,
        String.data_append] at hc
      rcases List.mem_append.mp hc with h1 | h1
      · by_cases hq : jsTrim s = ""
        · rw [if_pos hq] at h1
          simp at h1
        · rw [if_neg hq] at h1
          have h2 : c ∈ s.data := mem_jsTrimList h1
          have h3 : (s.data.all (fun c => !(c = '\r'))) = true := h'.1
          have h4 := List.all_eq_true.mp h3 c h2
          intro he
          rw [he] at h4
          simp at h4
      · exact textConcat_crfree rest h'.2 c h1
  | XNode.elem n a ch :: rest, h, c, hc => by
      have h' : (nodeCanon (XNode.elem n a ch) && nodesCanon rest) = true := h
      rw [Bool.and_eq_true] at h'
      rw [show textConcat (XNode.elem n a ch :: rest) = textConcat rest from rfl] at hc
      exact textConcat_crfree rest h'.2 c hc

/-! Invariants of the parsed pieces: valid names, normalized attribute
values, CR-free text, and remainders that are sublists of the input. -/

theorem parseName_canon {input : List Char} {nm : String} {r : List Char}
    (h : parseName input = some (nm, r)) : validNameB nm = true ∧ r.Sublist input := by
  cases input with
  | nil => exact Option.noConfusion h
  | cons c rest =>
    rw [parseName] at h
    by_cases hc : isNameStart c = true
    · rw [if_pos hc] at h
      injection h with h1
      injection h1 with hnm hr
      subst hnm
      subst hr
      constructor
      · show (match (c :: rest.takeWhile isNameChar : List Char) with
          | [] => false
          | c :: rest => isNameStart c && rest.all isNameChar) = true
        rw [Bool.and_eq_true]
        refine ⟨hc, ?_⟩
        rw [List.all_eq_true]
        intro x hx
        exact List.mem_takeWhile_imp hx
      · exact (List.dropWhile_sublist _).cons _
    · rw [if_neg hc] at h
      exact Option.noConfusion h

theorem normAttrChar_clean (c : Char) :
    (normAttrChar c = '\t' ∨ normAttrChar c = '\n' ∨ normAttrChar c = '\r') → False := by
  rw [normAttrChar]
  by_cases h : (c = '\t' || c = '\n' || c = '\r') = true
  · rw [if_pos h]
    intro hb
    rcases hb with h2 | h2 | h2 <;> exact absurd h2 (by decide)
  · rw [if_neg h]
    intro hb
    apply h
    rcases hb with h2 | h2 | h2 <;> simp [h2]

set_option maxHeartbeats 4000000 in
theorem parseQuoted_canon (l : List Char) : ∀ val r, parseQuoted l = some (val, r) →
    (∀ c ∈ val, (c = '\t' ∨ c = '\n' ∨ c = '\r') → False) ∧ r.Sublist l := by
  induction l using parseQuoted.induct with
  | case1 =>
      intro val r h
      exact Option.noConfusion h
  | case2 rest =>
      intro val r h
      rw [show parseQuoted ('"' :: rest) = some ([], rest) from rfl] at h
      injection h with h1
      injection h1 with hv hr
      subst hv
      subst hr
      exact ⟨fun c hc => absurd hc (by simp), (List.Sublist.refl rest).cons _⟩
  | case3 tail =>
      intro val r h
      rw [show parseQuoted ('<' :: tail) = none from rfl] at h
      exact Option.noConfusion h
  | case4 rest ih =>
      intro val r h
      rw [show parseQuoted ('&' :: 'a' :: 'm' :: 'p' :: ';' :: rest)
          = (parseQuoted rest).map (fun p => ('&' :: p.1, p.2)) from rfl] at h
      rcases hpq : parseQuoted rest with _ | ⟨v2, r2⟩
      · rw [hpq] at h
        exact Option.noConfusion h
      · rw [hpq] at h
        rw [show Option.map (fun p => ('&' :: p.1, p.2)) (some (v2, r2))
            = some ('&' :: v2, r2) from rfl] at h
        injection h with h1
        injection h1 with hv hr
        subst hv
        subst hr
        obtain ⟨ih1, ih2⟩ := ih v2 r2 hpq
        refine ⟨?_, ((((ih2.cons _).cons _).cons _).cons _).cons _⟩
        intro c hc hbad
        rcases List.mem_cons.mp hc with he | he
        · subst he
          rcases hbad with h2 | h2 | h2 <;> exact absurd h2 (by decide)
        · exact ih1 c he hbad
  | case5 rest ih =>
      intro val r h
      rw [show parseQuoted ('&' :: 'l' :: 't' :: ';' :: rest)
          = (parseQuoted rest).map (fun p => ('<' :: p.1, p.2)) from rfl] at h
      rcases hpq : parseQuoted rest with _ | ⟨v2, r2⟩
      · rw [hpq] at h
        exact Option.noConfusion h
      · rw [hpq] at h
        rw [show Option.map (fun p => ('<' :: p.1, p.2)) (some (v2, r2))
            = some ('<' :: v2, r2) from rfl] at h
        injection h with h1
        injection h1 with hv hr
        subst hv
        subst hr
        obtain ⟨ih1, ih2⟩ := ih v2 r2 hpq
        refine ⟨?_, (((ih2.cons _).cons _).cons _).cons _⟩
        intro c hc hbad
        rcases List.mem_cons.mp hc with he | he
        · subst he
          rcases hbad with h2 | h2 | h2 <;> exact absurd h2 (by decide)
        · exact ih1 c he hbad
  | case6 rest ih =>
      intro val r h
      rw [show parseQuoted ('&' :: 'g' :: 't' :: ';' :: rest)
          = (parseQuoted rest).map (fun p => ('>' :: p.1, p.2)) from rfl] at h
      rcases hpq : parseQuoted rest with _ | ⟨v2, r2⟩
      · rw [hpq] at h
        exact Option.noConfusion h
      · rw [hpq] at h
        rw [show Option.map (fun p => ('>' :: p.1, p.2)) (some (v2, r2))
            = some ('>' :: v2, r2) from rfl] at h
        injection h with h1
        injection h1 with hv hr
        subst hv
        subst hr
        obtain ⟨ih1, ih2⟩ := ih v2 r2 hpq
        refine ⟨?_, (((ih2.cons _).cons _).cons _).cons _⟩
        intro c hc hbad
        rcases List.mem_cons.mp hc with he | he
        · subst he
          rcases hbad with h2 | h2 | h2 <;> exact absurd h2 (by decide)
        · exact ih1 c he hbad
  | case7 rest ih =>
      intro val r h
      rw [show parseQuoted ('&' :: 'q' :: 'u' :: 'o' :: 't' :: ';' :: rest)
          = (parseQuoted rest).map (fun p => ('"' :: p.1, p.2)) from rfl] at h
      rcases hpq : parseQuoted rest with _ | ⟨v2, r2⟩
      · rw [hpq] at h
        exact Option.noConfusion h
      · rw [hpq] at h
        rw [show Option.map (fun p => ('"' :: p.1, p.2)) (some (v2, r2))
            = some ('"' :: v2, r2) from rfl] at h
        injection h with h1
        injection h1 with hv hr
        subst hv
        subst hr
        obtain ⟨ih1, ih2⟩ := ih v2 r2 hpq
        refine ⟨?_, (((((ih2.cons _).cons _).cons _).cons _).cons _).cons _⟩
        intro c hc hbad
        rcases List.mem_cons.mp hc with he | he
        · subst he
          rcases hbad with h2 | h2 | h2 <;> exact absurd h2 (by decide)
        · exact ih1 c he hbad
  | case8 rest ih =>
      intro val r h
      rw [show parseQuoted ('&' :: 'a' :: 'p' :: 'o' :: 's' :: ';' :: rest)
          = (parseQuoted rest).map (fun p => (aposChar :: p.1, p.2)) from rfl] at h
      rcases hpq : parseQuoted rest with _ | ⟨v2, r2⟩
      · rw [hpq] at h
        exact Option.noConfusion h
      · rw [hpq] at h
        rw [show Option.map (fun p => (aposChar :: p.1, p.2)) (some (v2, r2))
            = some (aposChar :: v2, r2) from rfl] at h
        injection h with h1
        injection h1 with hv hr
        subst hv
        subst hr
        obtain ⟨ih1, ih2⟩ := ih v2 r2 hpq
        refine ⟨?_, (((((ih2.cons _).cons _).cons _).cons _).cons _).cons _⟩
        intro c hc hbad
        rcases List.mem_cons.mp hc with he | he
        · subst he
          rcases hbad with h2 | h2 | h2 <;> exact absurd h2 (by decide)
        · exact ih1 c he hbad
  | case9 tail hn1 hn2 hn3 hn4 hn5 =>
      intro val r h
      rw [parseQuoted.eq_def] at h
      split at h
      all_goals try exact Option.noConfusion h
      all_goals try (rename_i heq
                     injection heq with e1 e2
                     first
                       | exact absurd e1 (by decide)
                       | exact (hn1 _ e2).elim
                       | exact (hn2 _ e2).elim
                       | exact (hn3 _ e2).elim
                       | exact (hn4 _ e2).elim
                       | exact (hn5 _ e2).elim)
      · rename_i c2 rest2 h1 h2 h3 h4 h5 h6 h7 h8 heq
        injection heq with e1 e2
        exact (h8 e1.symm).elim
  | case10 c rest hq hl ha1 ha2 ha3 ha4 ha5 hamp ih =>
      intro val r h
      rw [parseQuoted_cons_plain rest hamp hl hq] at h
      rcases hpq : parseQuoted rest with _ | ⟨v2, r2⟩
      · rw [hpq] at h
        exact Option.noConfusion h
      · rw [hpq] at h
        rw [show Option.map (fun p => (normAttrChar c :: p.1, p.2)) (some (v2, r2))
            = some (normAttrChar c :: v2, r2) from rfl] at h
        injection h with h1
        injection h1 with hv hr
        subst hv
        subst hr
        obtain ⟨ih1, ih2⟩ := ih v2 r2 hpq
        refine ⟨?_, ih2.cons _⟩
        intro c2 hc hbad
        rcases List.mem_cons.mp hc with he | he
        · subst he
          exact normAttrChar_clean c hbad
        · exact ih1 c2 he hbad

set_option maxHeartbeats 4000000 in
theorem parseTextRun_canon (l : List Char) : (∀ c ∈ l, ¬(c = '\r')) →
    ∀ val r, parseTextRun l = some (val, r) →
    (∀ c ∈ val, ¬(c = '\r')) ∧ r.Sublist l := by
  induction l using parseTextRun.induct with
  | case1 =>
      intro hcr val r h
      rw [show parseTextRun [] = some ([], []) from rfl] at h
      injection h with h1
      injection h1 with hv hr
      subst hv
      subst hr
      exact ⟨fun c hc => absurd hc (by simp), List.Sublist.refl _⟩
  | case2 rest =>
      intro hcr val r h
      rw [show parseTextRun ('<' :: rest) = some ([], '<' :: rest) from rfl] at h
      injection h with h1
      injection h1 with hv hr
      subst hv
      subst hr
      exact ⟨fun c hc => absurd hc (by simp), List.Sublist.refl _⟩
  | case3 rest ih =>
      intro hcr val r h
      rw [show parseTextRun ('&' :: 'a' :: 'm' :: 'p' :: ';' :: rest)
          = (parseTextRun rest).map (fun p => ('&' :: p.1, p.2)) from rfl] at h
      rcases hpq : parseTextRun rest with _ | ⟨v2, r2⟩
      · rw [hpq] at h
        exact Option.noConfusion h
      · rw [hpq] at h
        rw [show Option.map (fun p => ('&' :: p.1, p.2)) (some (v2, r2))
            = some ('&' :: v2, r2) from rfl] at h
        injection h with h1
        injection h1 with hv hr
        subst hv
        subst hr
        obtain ⟨ih1, ih2⟩ := ih (fun c hc => hcr c (by simp [hc])) v2 r2 hpq
        refine ⟨?_, ((((ih2.cons _).cons _).cons _).cons _).cons _⟩
        intro c hc
        rcases List.mem_cons.mp hc with he | he
        · subst he; decide
        · exact ih1 c he
  | case4 rest ih =>
      intro hcr val r h
      rw [show parseTextRun ('&' :: 'l' :: 't' :: ';' :: rest)
          = (parseTextRun rest).map (fun p => ('<' :: p.1, p.2)) from rfl] at h
      rcases hpq : parseTextRun rest with _ | ⟨v2, r2⟩
      · rw [hpq] at h
        exact Option.noConfusion h
      · rw [hpq] at h
        rw [show Option.map (fun p => ('<' :: p.1, p.2)) (some (v2, r2))
            = some ('<' :: v2, r2) from rfl] at h
        injection h with h1
        injection h1 with hv hr
        subst hv
        subst hr
        obtain ⟨ih1, ih2⟩ := ih (fun c hc => hcr c (by simp [hc])) v2 r2 hpq
        refine ⟨?_, (((ih2.cons _).cons _).cons _).cons _⟩
        intro c hc
        rcases List.mem_cons.mp hc with he | he
        · subst he; decide
        · exact ih1 c he
  | case5 rest ih =>
      intro hcr val r h
      rw [show parseTextRun ('&' :: 'g' :: 't' :: ';' :: rest)
          = (parseTextRun rest).map (fun p => ('>' :: p.1, p.2)) from rfl] at h
      rcases hpq : parseTextRun rest with _ | ⟨v2, r2⟩
      · rw [hpq] at h
        exact Option.noConfusion h
      · rw [hpq] at h
        rw [show Option.map (fun p => ('>' :: p.1, p.2)) (some (v2, r2))
            = some ('>' :: v2, r2) from rfl] at h
        injection h with h1
        injection h1 with hv hr
        subst hv
        subst hr
        obtain ⟨ih1, ih2⟩ := ih (fun c hc => hcr c (by simp [hc])) v2 r2 hpq
        refine ⟨?_, (((ih2.cons _).cons _).cons _).cons _⟩
        intro c hc
        rcases List.mem_cons.mp hc with he | he
        · subst he; decide
        · exact ih1 c he
  | case6 rest ih =>
      intro hcr val r h
      rw [show parseTextRun ('&' :: 'q' :: 'u' :: 'o' :: 't' :: ';' :: rest)
          = (parseTextRun rest).map (fun p => ('"' :: p.1, p.2)) from rfl] at h
      rcases hpq : parseTextRun rest with _ | ⟨v2, r2⟩
      · rw [hpq] at h
        exact Option.noConfusion h
      · rw [hpq] at h
        rw [show Option.map (fun p => ('"' :: p.1, p.2)) (some (v2, r2))
            = some ('"' :: v2, r2) from rfl] at h
        injection h with h1
        injection h1 with hv hr
        subst hv
        subst hr
        obtain ⟨ih1, ih2⟩ := ih (fun c hc => hcr c (by simp [hc])) v2 r2 hpq
        refine ⟨?_, (((((ih2.cons _).cons _).cons _).cons _).cons _).cons _⟩
        intro c hc
        rcases List.mem_cons.mp hc with he | he
        · subst he; decide
        · exact ih1 c he
  | case7 rest ih =>
      intro hcr val r h
      rw [show parseTextRun ('&' :: 'a' :: 'p' :: 'o' :: 's' :: ';' :: rest)
          = (parseTextRun rest).map (fun p => (aposChar :: p.1, p.2)) from rfl] at h
      rcases hpq : parseTextRun rest with _ | ⟨v2, r2⟩
      · rw [hpq] at h
        exact Option.noConfusion h
      · rw [hpq] at h
        rw [show Option.map (fun p => (aposChar :: p.1, p.2)) (some (v2, r2))
            = some (aposChar :: v2, r2) from rfl] at h
        injection h with h1
        injection h1 with hv hr
        subst hv
        subst hr
        obtain ⟨ih1, ih2⟩ := ih (fun c hc => hcr c (by simp [hc])) v2 r2 hpq
        refine ⟨?_, (((((ih2.cons _).cons _).cons _).cons _).cons _).cons _⟩
        intro c hc
        rcases List.mem_cons.mp hc with he | he
        · subst he; decide
        · exact ih1 c he
  | case8 tail hn1 hn2 hn3 hn4 hn5 =>
      intro hcr val r h
      rw [parseTextRun.eq_def] at h
      split at h
      all_goals try exact Option.noConfusion h
      all_goals try (rename_i heq
                     first
                       | exact List.noConfusion heq
                       | (injection heq with e1 e2
                          first
                            | exact absurd e1 (by decide)
                            | exact (hn1 _ e2).elim
                            | exact (hn2 _ e2).elim
                            | exact (hn3 _ e2).elim
                            | exact (hn4 _ e2).elim
                            | exact (hn5 _ e2).elim))
      · rename_i z c2 rest2 h1 h2 h3 h4 h5 h6 h7 heq
        injection heq with e1 e2
        exact (h7 e1.symm).elim
  | case9 c rest hl ha1 ha2 ha3 ha4 ha5 hamp ih =>
      intro hcr val r h
      rw [show parseTextRun (c :: rest)
          = (parseTextRun rest).map (fun p => (c :: p.1, p.2)) from
        parseTextRun_cons_plain rest hamp hl] at h
      rcases hpq : parseTextRun rest with _ | ⟨v2, r2⟩
      · rw [hpq] at h
        exact Option.noConfusion h
      · rw [hpq] at h
        rw [show Option.map (fun p => (c :: p.1, p.2)) (some (v2, r2))
            = some (c :: v2, r2) from rfl] at h
        injection h with h1
        injection h1 with hv hr
        subst hv
        subst hr
        obtain ⟨ih1, ih2⟩ := ih (fun c2 hc => hcr c2 (by simp [hc])) v2 r2 hpq
        refine ⟨?_, ih2.cons _⟩
        intro c2 hc
        rcases List.mem_cons.mp hc with he | he
        · subst he
          exact hcr c2 (by simp)
        · exact ih1 c2 he

theorem sub_cr {l1 l2 : List Char} (hs : l1.Sublist l2)
    (h : ∀ c ∈ l2, ¬(c = '\r')) : ∀ c ∈ l1, ¬(c = '\r') :=
  fun c hc => h c (hs.subset hc)

set_option maxHeartbeats 4000000 in
/-- The parser's output invariant: parsed nodes have valid names, clean
attribute values and CR-free text, and each remainder is a sublist of its
input. -/
theorem parse_canon : ∀ fuel : Nat,
    (∀ input nd r, (∀ c ∈ input, ¬(c = '\r')) →
      parseElementF fuel input = some (nd, r) →
      nodeCanon nd = true ∧ r.Sublist input) ∧
    (∀ input attrs r, (∀ c ∈ input, ¬(c = '\r')) →
      parseAttrsF fuel input = some (attrs, r) →
      attrs.all attrRawOk = true ∧ r.Sublist input) ∧
    (∀ input nds r, (∀ c ∈ input, ¬(c = '\r')) →
      parseContentF fuel input = some (nds, r) →
      nodesCanon nds = true ∧ r.Sublist input) := by
  intro fuel
  induction fuel with
  | zero =>
    refine ⟨?_, ?_, ?_⟩
    · intro input nd r _ h
      exact Option.noConfusion h
    · intro input attrs r _ h
      exact Option.noConfusion h
    · intro input nds r _ h
      exact Option.noConfusion h
  | succ f ih =>
    obtain ⟨ihE, ihA, ihC⟩ := ih
    refine ⟨?_, ?_, ?_⟩
    · -- element
      intro input nd r hcr h
      rw [parseElementF.eq_def] at h
      split at h
      · rename_i heq
        exact absurd heq (by simp)
      · rename_i f2 heq
        injection heq with ef
        subst ef
        split at h
        · rename_i rest
          rcases hpn : parseName rest with _ | ⟨nm, r1⟩
          · rw [hpn] at h
            exact Option.noConfusion h
          simp only [hpn] at h
          obtain ⟨hnm, hsub1⟩ := parseName_canon hpn
          rcases hpa : parseAttrsF f r1 with _ | ⟨attrs, r2⟩
          · rw [hpa] at h
            exact Option.noConfusion h
          simp only [hpa] at h
          have hsubr1 : r1.Sublist ('<' :: rest) := hsub1.cons _
          obtain ⟨hattrs, hsub2⟩ := ihA r1 attrs r2 (sub_cr hsubr1 hcr) hpa
          split at h
          · rename_i r3 heqd
            injection h with h1
            injection h1 with hnd hr
            subst hnd
            subst hr
            constructor
            · show (validNameB nm && attrs.all attrRawOk && nodesCanon []) = true
              rw [hnm, hattrs]
              rfl
            · have s1 : r3.Sublist ('/' :: '>' :: r3) :=
                ((List.Sublist.refl r3).cons _).cons _
              have s2 := List.dropWhile_sublist (l := r2) xmlWS
              rw [heqd] at s2
              exact ((s1.trans s2).trans hsub2).trans hsubr1
          · rename_i r3 heqd
            rcases hpc : parseContentF f r3 with _ | ⟨children, r4⟩
            · rw [hpc] at h
              exact Option.noConfusion h
            simp only [hpc] at h
            have s1 : r3.Sublist ('>' :: r3) := (List.Sublist.refl r3).cons _
            have s2 := List.dropWhile_sublist (l := r2) xmlWS
            rw [heqd] at s2
            have hsubr3 : r3.Sublist ('<' :: rest) :=
              ((s1.trans s2).trans hsub2).trans hsubr1
            obtain ⟨hch, hsub3⟩ := ihC r3 children r4 (sub_cr hsubr3 hcr) hpc
            split at h
            · rename_i r5
              rcases hpn2 : parseName r5 with _ | ⟨nm2, r6⟩
              · rw [hpn2] at h
                exact Option.noConfusion h
              simp only [hpn2] at h
              obtain ⟨hnm2, hsub4⟩ := parseName_canon hpn2
              split at h
              · split at h
                · rename_i r7 heqd2
                  injection h with h1
                  injection h1 with hnd hr
                  subst hnd
                  subst hr
                  constructor
                  · show (validNameB nm && attrs.all attrRawOk
                      && nodesCanon children) = true
                    rw [hnm, hattrs, hch]
                    rfl
                  · have t1 : r7.Sublist ('>' :: r7) := (List.Sublist.refl r7).cons _
                    have t2 := List.dropWhile_sublist (l := r6) xmlWS
                    rw [heqd2] at t2
                    have t3 : r6.Sublist r5 := hsub4
                    have t4 : r5.Sublist ('<' :: '/' :: r5) :=
                      ((List.Sublist.refl r5).cons _).cons _
                    have t5 : ('<' :: '/' :: r5).Sublist r3 := hsub3
                    exact ((((t1.trans t2).trans t3).trans t4).trans t5).trans hsubr3
                · exact Option.noConfusion h
              · exact Option.noConfusion h
            · exact Option.noConfusion h
          · exact Option.noConfusion h
        · exact Option.noConfusion h
    · -- attributes
      intro input attrs r hcr h
      rw [parseAttrsF.eq_def] at h
      split at h
      · rename_i heq
        exact absurd heq (by simp)
      · rename_i f2 heq
        injection heq with ef
        subst ef
        split at h
        · rename_i heqd
          injection h with h1
          injection h1 with ha hr
          subst ha
          subst hr
          exact ⟨rfl, List.nil_sublist _⟩
        · rename_i c rest heqd
          have hsubd := heqd ▸ List.dropWhile_sublist xmlWS
          split at h
          · rcases hpn : parseName (c :: rest) with _ | ⟨an, r1⟩
            · rw [hpn] at h
              exact Option.noConfusion h
            simp only [hpn] at h
            obtain ⟨hvn, hs1⟩ := parseName_canon hpn
            split at h
            · rename_i r2 heq2
              split at h
              · rename_i r3 heq3
                rcases hpq : parseQuoted r3 with _ | ⟨val, r4⟩
                · rw [hpq] at h
                  exact Option.noConfusion h
                simp only [hpq] at h
                obtain ⟨hclean, hs2⟩ := parseQuoted_canon r3 val r4 hpq
                rcases hpa2 : parseAttrsF f r4 with _ | ⟨as2, r5⟩
                · rw [hpa2] at h
                  exact Option.noConfusion h
                simp only [hpa2] at h
                have u1 : r2.Sublist r1 := by
                  have := List.dropWhile_sublist (l := r1) xmlWS
                  rw [heq2] at this
                  exact ((List.Sublist.refl r2).cons _).trans this
                have u2 : r3.Sublist r2 := by
                  have := List.dropWhile_sublist (l := r2) xmlWS
                  rw [heq3] at this
                  exact ((List.Sublist.refl r3).cons _).trans this
                have u3 := (((hs2.trans u2).trans u1).trans hs1).trans hsubd
                obtain ⟨hall2, hs3⟩ := ihA r4 as2 r5 (sub_cr u3 hcr) hpa2
                injection h with h1
                injection h1 with ha hr
                subst ha
                subst hr
                constructor
                · show (attrRawOk (an, (⟨val⟩ : String)) && as2.all attrRawOk) = true
                  rw [Bool.and_eq_true]
                  refine ⟨?_, hall2⟩
                  show (validNameB an && val.all
                    (fun c => !(c = '\t' || c = '\n' || c = '\r'))) = true
                  rw [hvn, Bool.and_eq_true]
                  refine ⟨rfl, ?_⟩
                  rw [List.all_eq_true]
                  intro x hx
                  have h3 := hclean x hx
                  have n1 : ¬(x = '\t') := fun he => h3 (Or.inl he)
                  have n2 : ¬(x = '\n') := fun he => h3 (Or.inr (Or.inl he))
                  have n3 : ¬(x = '\r') := fun he => h3 (Or.inr (Or.inr he))
                  simp [n1, n2, n3]
                · exact hs3.trans u3
              · exact Option.noConfusion h
            · exact Option.noConfusion h
          · injection h with h1
            injection h1 with ha hr
            subst ha
            subst hr
            exact ⟨rfl, hsubd⟩
    · -- content
      intro input nds r hcr h
      rw [parseContentF.eq_def] at h
      split at h
      · rename_i heq
        exact absurd heq (by simp)
      · rename_i f2 heq
        injection heq with ef
        subst ef
        split at h
        · exact Option.noConfusion h
        · rename_i c rest
          split at h
          · rename_i hlt
            subst hlt
            split at h
            · rename_i rest2
              injection h with h1
              injection h1 with hn hr
              subst hn
              subst hr
              exact ⟨rfl, List.Sublist.refl _⟩
            · rcases hpe : parseElementF f ('<' :: rest) with _ | ⟨nd1, r1⟩
              · rw [hpe] at h
                exact Option.noConfusion h
              simp only [hpe] at h
              obtain ⟨hnd1, hs1⟩ := ihE ('<' :: rest) nd1 r1 hcr hpe
              rcases hpc2 : parseContentF f r1 with _ | ⟨nds2, r2⟩
              · rw [hpc2] at h
                exact Option.noConfusion h
              simp only [hpc2] at h
              obtain ⟨hnds2, hs2⟩ := ihC r1 nds2 r2 (sub_cr hs1 hcr) hpc2
              injection h with h1
              injection h1 with hn hr
              subst hn
              subst hr
              constructor
              · show (nodeCanon nd1 && nodesCanon nds2) = true
                rw [hnd1, hnds2]
                rfl
              · exact hs2.trans hs1
          · rename_i hne
            rcases hpt : parseTextRun (c :: rest) with _ | ⟨txt, r1⟩
            · rw [hpt] at h
              exact Option.noConfusion h
            simp only [hpt] at h
            obtain ⟨htxt, hs1⟩ := parseTextRun_canon (c :: rest) hcr txt r1 hpt
            rcases hpc2 : parseContentF f r1 with _ | ⟨nds2, r2⟩
            · rw [hpc2] at h
              exact Option.noConfusion h
            simp only [hpc2] at h
            obtain ⟨hnds2, hs2⟩ := ihC r1 nds2 r2 (sub_cr hs1 hcr) hpc2
            injection h with h1
            injection h1 with hn hr
            subst hn
            subst hr
            constructor
            · show (nodeCanon (XNode.text ⟨txt⟩) && nodesCanon nds2) = true
              rw [Bool.and_eq_true]
              refine ⟨?_, hnds2⟩
              show (txt.all (fun c => !(c = '\r'))) = true
              rw [List.all_eq_true]
              intro x hx
              simp [htxt x hx]
            · exact hs2.trans hs1

/-! From parsed canonical nodes to canonical JSON: xmlToJson postcondition. -/

theorem groupNames_nodup : ∀ (l : List XNode), (groupNames l).Nodup
  | [] => List.nodup_nil
  | XNode.elem m a c :: rest => by
      rw [show groupNames (XNode.elem m a c :: rest)
          = m :: (groupNames rest).filter (fun n => n ≠ m) from rfl]
      refine List.Nodup.cons ?_ ((groupNames_nodup rest).filter _)
      intro hm
      have := List.of_mem_filter hm
      simp at this
  | XNode.text s :: rest => by
      rw [show groupNames (XNode.text s :: rest) = groupNames rest from rfl]
      exact groupNames_nodup rest

theorem groupNames_valid : ∀ (l : List XNode), nodesCanon l = true →
    ∀ n ∈ groupNames l, validNameB n = true
  | [], _, n, hn => by simp [groupNames] at hn
  | XNode.elem m a c :: rest, h, n, hn => by
      have h' : (nodeCanon (XNode.elem m a c) && nodesCanon rest) = true := h
      rw [Bool.and_eq_true] at h'
      rw [show groupNames (XNode.elem m a c :: rest)
          = m :: (groupNames rest).filter (fun n => n ≠ m) from rfl] at hn
      rcases List.mem_cons.mp hn with he | he
      · subst he
        have h2 : (validNameB n && a.all attrRawOk && nodesCanon c) = true := h'.1
        rw [Bool.and_eq_true, Bool.and_eq_true] at h2
        exact h2.1.1
      · exact groupNames_valid rest h'.2 n (List.mem_of_mem_filter he)
  | XNode.text s :: rest, h, n, hn => by
      have h' : (nodeCanon (XNode.text s) && nodesCanon rest) = true := h
      rw [Bool.and_eq_true] at h'
      rw [show groupNames (XNode.text s :: rest) = groupNames rest from rfl] at hn
      exact groupNames_valid rest h'.2 n hn

theorem groupNames_mem : ∀ (l : List XNode) (n : String), n ∈ groupNames l →
    ∃ a c, XNode.elem n a c ∈ l
  | [], n, hn => by simp [groupNames] at hn
  | XNode.elem m a c :: rest, n, hn => by
      rw [show groupNames (XNode.elem m a c :: rest)
          = m :: (groupNames rest).filter (fun n => n ≠ m) from rfl] at hn
      rcases List.mem_cons.mp hn with he | he
      · subst he
        exact ⟨a, c, List.mem_cons_self _ _⟩
      · obtain ⟨a2, c2, hm⟩ := groupNames_mem rest n (List.mem_of_mem_filter he)
        exact ⟨a2, c2, List.mem_cons_of_mem _ hm⟩
  | XNode.text s :: rest, n, hn => by
      rw [show groupNames (XNode.text s :: rest) = groupNames rest from rfl] at hn
      obtain ⟨a2, c2, hm⟩ := groupNames_mem rest n hn
      exact ⟨a2, c2, List.mem_cons_of_mem _ hm⟩

theorem pa_keys_sub : ∀ (l : List XNode) (q : String × JValue), q ∈ parsedAll l →
    q.1 ∈ groupNames l
  | [], q, hq => by simp [parsedAll] at hq
  | XNode.elem m a c :: rest, q, hq => by
      rw [show parsedAll (XNode.elem m a c :: rest)
          = (m, xmlToJson (XNode.elem m a c)) :: parsedAll rest from rfl] at hq
      rw [show groupNames (XNode.elem m a c :: rest)
          = m :: (groupNames rest).filter (fun n => n ≠ m) from rfl]
      rcases List.mem_cons.mp hq with he | he
      · subst he
        exact List.mem_cons_self _ _
      · have := pa_keys_sub rest q he
        by_cases hqm : q.1 = m
        · rw [hqm]
          exact List.mem_cons_self _ _
        · exact List.mem_cons_of_mem _ (List.mem_filter.mpr ⟨this, by simp [hqm]⟩)
  | XNode.text s :: rest, q, hq => by
      rw [show parsedAll (XNode.text s :: rest) = parsedAll rest from rfl] at hq
      rw [show groupNames (XNode.text s :: rest) = groupNames rest from rfl]
      exact pa_keys_sub rest q hq

theorem parsedAll_mem : ∀ (l : List XNode) (m : String) (a : List (String × String))
    (c : List XNode), XNode.elem m a c ∈ l →
    (m, xmlToJson (XNode.elem m a c)) ∈ parsedAll l
  | [], m, a, c, hm => by cases hm
  | x :: rest, m, a, c, hm => by
      rcases List.mem_cons.mp hm with he | he
      · subst he
        rw [show parsedAll (XNode.elem m a c :: rest)
            = (m, xmlToJson (XNode.elem m a c)) :: parsedAll rest from rfl]
        exact List.mem_cons_self _ _
      · have ih := parsedAll_mem rest m a c he
        cases x with
        | elem m2 a2 c2 =>
            rw [show parsedAll (XNode.elem m2 a2 c2 :: rest)
                = (m2, xmlToJson (XNode.elem m2 a2 c2)) :: parsedAll rest from rfl]
            exact List.mem_cons_of_mem _ ih
        | text s =>
            rw [show parsedAll (XNode.text s :: rest) = parsedAll rest from rfl]
            exact ih

theorem xmlToJson_elem_ne_null (n : String) (attrs : List (String × String))
    (children : List XNode) : ¬(xmlToJson (XNode.elem n attrs children) = JValue.null) := by
  rw [show xmlToJson (XNode.elem n attrs children)
      = (if (groupNames children).isEmpty && attrs.isEmpty then
          JValue.str (textConcat children)
        else
          JValue.obj
            ((if attrs.isEmpty then []
              else [("@attributes",
                     JValue.obj (attrs.map (fun a => (a.1, JValue.str a.2))))]) ++
             fieldsFor (parsedAll children) (groupNames children) ++
             (if textConcat children = "" then []
              else [("#text", JValue.str (textConcat children))]))) from rfl]
  by_cases h : ((groupNames children).isEmpty && attrs.isEmpty) = true
  · rw [if_pos h]
    intro he
    cases he
  · rw [if_neg h]
    intro he
    cases he

theorem childTextCanon_cons_build (k : String) (v : JValue)
    (rest : List (String × JValue)) (b : Bool)
    (hk : validNameB k = true) (hdist : rest.all (fun p => !(p.1 == k)) = true)
    (hv : (∃ items, v = JValue.arr items ∧
        (decide (2 ≤ items.length) && listElemCanon items) = true) ∨
      elemCanon v = true)
    (hrest : childTextCanon rest true = true) :
    childTextCanon ((k, v) :: rest) b = true := by
  rw [childTextCanon.eq_def]
  split
  · rename_i heq
    exact List.noConfusion heq
  · rename_i hb
    injection hb with e1 e2
    injection e1 with ek ev
    exact absurd ek (validNameB_ne_text hk)
  · rename_i heq
    injection heq with e1 e2
    injection e1 with ek ev
    subst ek
    subst ev
    subst e2
    rw [Bool.and_eq_true, Bool.and_eq_true, Bool.and_eq_true]
    refine ⟨⟨⟨hk, hdist⟩, ?_⟩, hrest⟩
    rcases hv with ⟨items, hvi, hok⟩ | hev
    · subst hvi
      exact hok
    · cases v with
      | null => simp [elemCanon] at hev
      | arr items => simp [elemCanon] at hev
      | str s => exact hev
      | obj o => exact hev

theorem elemCanon_of_split (kvs : List (String × JValue))
    (h : childTextCanon kvs false = true ∨ headAttrsOk kvs = true) :
    elemCanon (JValue.obj kvs) = true := by
  rw [elemCanon.eq_def]
  split
  · rename_i s heq
    exact absurd heq (by simp)
  · rename_i kvs1 heq
    injection heq with e
    subst e
    split
    · rename_i avs rest
      rcases h with hct | hha
      · rcases childTextCanon_cases _ _ hct with ⟨heq2, _⟩ |
          ⟨t, heq2, hb, _⟩ | ⟨k2, v2, rest2, heq2, hk2, _⟩
        · exact List.noConfusion heq2
        · injection heq2 with e1 e2
          injection e1 with ek ev
          exact absurd ek.symm (by decide)
        · injection heq2 with e1 e2
          injection e1 with ek ev
          rw [← ek] at hk2
          exact absurd hk2 (by decide)
      · exact hha
    · rename_i hno
      rcases h with hct | hha
      · exact hct
      · obtain ⟨avs, rest, heq2, _⟩ := headAttrsOk_cases _ hha
        exact (hno avs rest heq2).elim
  · rename_i hns hno
    exact (hno kvs rfl).elim

theorem attrOk_of_raw : ∀ (attrs : List (String × String)),
    attrs.all attrRawOk = true →
    (attrs.map (fun a => (a.1, JValue.str a.2))).all attrOk = true := by
  intro attrs h
  induction attrs with
  | nil => rfl
  | cons a as ih =>
    have h' : (attrRawOk a && as.all attrRawOk) = true := h
    rw [Bool.and_eq_true] at h'
    rw [List.map_cons, List.all_cons, Bool.and_eq_true]
    exact ⟨h'.1, ih h'.2⟩

theorem fieldsFor_keys : ∀ (ns : List String) (pairs : List (String × JValue))
    (q : String × JValue), q ∈ fieldsFor pairs ns → q.1 ∈ ns
  | [], pairs, q, hq => by simp [fieldsFor] at hq
  | n :: ns, pairs, q, hq => by
      rw [show fieldsFor pairs (n :: ns)
          = (match ((pairs.filter (fun p => p.1 == n)).map (fun p => p.2)).filter
              (fun c => c ≠ JValue.null) with
             | [] => []
             | [v] => [(n, v)]
             | vs => [(n, JValue.arr vs)]) ++ fieldsFor pairs ns from rfl] at hq
      rcases List.mem_append.mp hq with hm | hm
      · rcases hF : ((pairs.filter (fun p => p.1 == n)).map (fun p => p.2)).filter
            (fun c => c ≠ JValue.null) with _ | ⟨v1, _ | ⟨v2, tl⟩⟩ <;> rw [hF] at hm
        · cases hm
        · rcases List.mem_singleton.mp hm with he
          rw [he]
          exact List.mem_cons_self _ _
        · rcases List.mem_singleton.mp hm with he
          rw [he]
          exact List.mem_cons_self _ _
      · exact List.mem_cons_of_mem _ (fieldsFor_keys ns pairs q hm)

theorem listElemCanon_of_all : ∀ (l : List JValue),
    (∀ v ∈ l, elemCanon v = true) → listElemCanon l = true
  | [], _ => rfl
  | v :: vs, h => by
      rw [show listElemCanon (v :: vs) = (elemCanon v && listElemCanon vs) from rfl,
        Bool.and_eq_true]
      exact ⟨h v (List.mem_cons_self _ _),
        listElemCanon_of_all vs (fun w hw => h w (List.mem_cons_of_mem _ hw))⟩

theorem fieldsFor_canon : ∀ (ns : List String) (pairs : List (String × JValue))
    (T : List (String × JValue)),
    (∀ q ∈ pairs, validNameB q.1 = true ∧ elemCanon q.2 = true) →
    ns.Nodup → (∀ n ∈ ns, validNameB n = true) →
    (∀ n ∈ ns, ¬(((pairs.filter (fun p => p.1 == n)).map (fun p => p.2)).filter
        (fun c => c ≠ JValue.null) = [])) →
    childTextCanon T true = true →
    (∀ q ∈ T, q.1 = "#text") →
    ∀ b2 : Bool, (b2 = true ∨ ¬(ns = [])) →
    childTextCanon (fieldsFor pairs ns ++ T) b2 = true
  | [], pairs, T, hpairs, hnd, hval, hfull, hT, hTk, b2, hb2 => by
      rcases hb2 with hb | hb
      · subst hb
        rw [show fieldsFor pairs ([] : List String) = [] from rfl, List.nil_append]
        exact hT
      · exact absurd rfl hb
  | n :: ns, pairs, T, hpairs, hnd, hval, hfull, hT, hTk, b2, hb2 => by
      have hvn : validNameB n = true := hval n (List.mem_cons_self _ _)
      have e : fieldsFor pairs (n :: ns)
          = (match ((pairs.filter (fun p => p.1 == n)).map (fun p => p.2)).filter
              (fun c => c ≠ JValue.null) with
             | [] => []
             | [v] => [(n, v)]
             | vs => [(n, JValue.arr vs)]) ++ fieldsFor pairs ns := rfl
      have hdist : (fieldsFor pairs ns ++ T).all (fun p => !(p.1 == n)) = true := by
        rw [List.all_eq_true]
        intro q hq
        rcases List.mem_append.mp hq with hm | hm
        · have hkm := fieldsFor_keys ns pairs q hm
          have hne : ¬(q.1 = n) := by
            intro he
            rw [he] at hkm
            exact (List.nodup_cons.mp hnd).1 hkm
          simp [hne]
        · have hkm := hTk q hm
          have hne : ¬(q.1 = n) := by
            intro he
            rw [he] at hkm
            exact validNameB_ne_text hvn hkm
          simp [hne]
      have hrest : childTextCanon (fieldsFor pairs ns ++ T) true = true :=
        fieldsFor_canon ns pairs T hpairs (List.nodup_cons.mp hnd).2
          (fun m hm => hval m (List.mem_cons_of_mem _ hm))
          (fun m hm => hfull m (List.mem_cons_of_mem _ hm)) hT hTk true (Or.inl rfl)
      have hmemv : ∀ v ∈ ((pairs.filter (fun p => p.1 == n)).map (fun p => p.2)).filter
          (fun c => c ≠ JValue.null), elemCanon v = true := by
        intro v hv
        have h1 := List.mem_of_mem_filter hv
        obtain ⟨q, hq, he⟩ := List.mem_map.mp h1
        have h2 := (hpairs q (List.mem_of_mem_filter hq)).2
        rw [he] at h2
        exact h2
      rcases hF : ((pairs.filter (fun p => p.1 == n)).map (fun p => p.2)).filter
          (fun c => c ≠ JValue.null) with _ | ⟨v1, vtl⟩
      · exact absurd hF (hfull n (List.mem_cons_self _ _))
      · cases vtl with
        | nil =>
          have hv1 : elemCanon v1 = true := hmemv v1 (by rw [hF]; exact List.mem_cons_self _ _)
          have e2 : fieldsFor pairs (n :: ns) = (n, v1) :: fieldsFor pairs ns := by
            rw [e, hF]
            rfl
          rw [e2, List.cons_append]
          exact childTextCanon_cons_build n v1 _ b2 hvn hdist (Or.inr hv1) hrest
        | cons v2 vtl2 =>
          have e2 : fieldsFor pairs (n :: ns)
              = (n, JValue.arr (v1 :: v2 :: vtl2)) :: fieldsFor pairs ns := by
            rw [e, hF]
            rfl
          have hlen : (decide (2 ≤ (v1 :: v2 :: vtl2).length)
              && listElemCanon (v1 :: v2 :: vtl2)) = true := by
            rw [Bool.and_eq_true]
            refine ⟨by simp, ?_⟩
            exact listElemCanon_of_all _ (fun w hw => hmemv w (by rw [hF]; exact hw))
          rw [e2, List.cons_append]
          exact childTextCanon_cons_build n _ _ b2 hvn hdist (Or.inl ⟨_, rfl, hlen⟩) hrest

mutual

/-- xmlToJson of a canonical parsed element is a canonical value. -/
theorem xmlToJson_canon : ∀ (x : XNode), nodeCanon x = true →
    ∀ n a c, x = XNode.elem n a c → elemCanon (xmlToJson x) = true
  | XNode.text s, h, n, a, c, heq => XNode.noConfusion heq
  | XNode.elem n0 a0 c0, h, n, a, c, heq => by
      have h' : (validNameB n0 && a0.all attrRawOk && nodesCanon c0) = true := h
      rw [Bool.and_eq_true, Bool.and_eq_true] at h'
      obtain ⟨⟨hn, hattrs⟩, hch⟩ := h'
      have hpairs : ∀ q ∈ parsedAll c0, validNameB q.1 = true ∧ elemCanon q.2 = true :=
        parsedAll_canon c0 hch
      have e : xmlToJson (XNode.elem n0 a0 c0)
          = (if (groupNames c0).isEmpty && a0.isEmpty then
              JValue.str (textConcat c0)
            else
              JValue.obj
                ((if a0.isEmpty then []
                  else [("@attributes",
                         JValue.obj (a0.map (fun a => (a.1, JValue.str a.2))))]) ++
                 fieldsFor (parsedAll c0) (groupNames c0) ++
                 (if textConcat c0 = "" then []
                  else [("#text", JValue.str (textConcat c0))]))) := rfl
      have hT : childTextCanon (if textConcat c0 = "" then []
          else [("#text", JValue.str (textConcat c0))]) true = true := by
        by_cases htc : textConcat c0 = ""
        · rw [if_pos htc]
          rfl
        · rw [if_neg htc]
          show (true && !(textConcat c0 == "") && textOk (textConcat c0)) = true
          rw [Bool.and_eq_true, Bool.and_eq_true]
          refine ⟨⟨rfl, by simp [htc]⟩, ?_⟩
          exact textOk_of (textConcat_trimmed c0) (textConcat_crfree c0 hch)
      have hTk : ∀ q2 ∈ (if textConcat c0 = "" then ([] : List (String × JValue))
          else [("#text", JValue.str (textConcat c0))]), q2.1 = "#text" := by
        by_cases htc : textConcat c0 = ""
        · rw [if_pos htc]
          intro q2 hq2
          cases hq2
        · rw [if_neg htc]
          intro q2 hq2
          rw [List.mem_singleton.mp hq2]
      have hfull : ∀ m ∈ groupNames c0,
          ¬((((parsedAll c0).filter (fun p => p.1 == m)).map (fun p => p.2)).filter
            (fun c => c ≠ JValue.null) = []) := by
        intro m hm hemp
        obtain ⟨a2, c2, hmem⟩ := groupNames_mem c0 m hm
        have hpm := parsedAll_mem c0 m a2 c2 hmem
        have hmem2 : xmlToJson (XNode.elem m a2 c2)
            ∈ ((parsedAll c0).filter (fun p => p.1 == m)).map (fun p => p.2) :=
          List.mem_map.mpr ⟨(m, xmlToJson (XNode.elem m a2 c2)),
            List.mem_filter.mpr ⟨hpm, by simp⟩, rfl⟩
        have hmem3 : xmlToJson (XNode.elem m a2 c2)
            ∈ (((parsedAll c0).filter (fun p => p.1 == m)).map (fun p => p.2)).filter
              (fun c => c ≠ JValue.null) :=
          List.mem_filter.mpr ⟨hmem2,
            decide_eq_true (xmlToJson_elem_ne_null m a2 c2)⟩
        rw [hemp] at hmem3
        exact absurd hmem3 (List.not_mem_nil _)
      by_cases hif : ((groupNames c0).isEmpty && a0.isEmpty) = true
      · rw [e, if_pos hif]
        show textOk (textConcat c0) = true
        exact textOk_of (textConcat_trimmed c0) (textConcat_crfree c0 hch)
      · rw [e, if_neg hif]
        by_cases ha : a0.isEmpty = true
        · have hae : a0 = [] := by
            cases a0 with
            | nil => rfl
            | cons x xs => simp at ha
          subst hae
          have hgne : ¬((groupNames c0) = []) := by
            intro hg
            apply hif
            rw [hg]
            rfl
          rw [show (if ([] : List (String × String)).isEmpty
              then ([] : List (String × JValue))
              else [("@attributes", JValue.obj (([] : List (String × String)).map
                (fun a => (a.1, JValue.str a.2))))]) = [] from rfl]
          rw [List.nil_append]
          exact elemCanon_of_split _ (Or.inl
            (fieldsFor_canon (groupNames c0) (parsedAll c0) _ hpairs
              (groupNames_nodup c0) (groupNames_valid c0 hch) hfull hT hTk
              false (Or.inr hgne)))
        · rw [if_neg ha]
          rw [show ([("@attributes", JValue.obj (a0.map (fun a => (a.1, JValue.str a.2))))]
              ++ fieldsFor (parsedAll c0) (groupNames c0)
              ++ (if textConcat c0 = "" then ([] : List (String × JValue))
                  else [("#text", JValue.str (textConcat c0))]))
            = ("@attributes", JValue.obj (a0.map (fun a => (a.1, JValue.str a.2))))
              :: (fieldsFor (parsedAll c0) (groupNames c0)
                ++ (if textConcat c0 = "" then ([] : List (String × JValue))
                    else [("#text", JValue.str (textConcat c0))])) from by simp]
          apply elemCanon_of_split
          right
          show (!(a0.map (fun a => (a.1, JValue.str a.2))).isEmpty
            && (a0.map (fun a => (a.1, JValue.str a.2))).all attrOk
            && childTextCanon (fieldsFor (parsedAll c0) (groupNames c0)
              ++ (if textConcat c0 = "" then ([] : List (String × JValue))
                  else [("#text", JValue.str (textConcat c0))])) true) = true
          rw [Bool.and_eq_true, Bool.and_eq_true]
          refine ⟨⟨?_, attrOk_of_raw a0 hattrs⟩, ?_⟩
          · cases a0 with
            | nil => exact absurd rfl ha
            | cons x xs => rfl
          · exact fieldsFor_canon (groupNames c0) (parsedAll c0) _ hpairs
              (groupNames_nodup c0) (groupNames_valid c0 hch) hfull hT hTk
              true (Or.inl rfl)

/-- Every entry of parsedAll over canonical nodes is a valid name with a
canonical value. -/
theorem parsedAll_canon : ∀ (l : List XNode), nodesCanon l = true →
    ∀ q ∈ parsedAll l, validNameB q.1 = true ∧ elemCanon q.2 = true
  | [], _, q, hq => by
      rw [show parsedAll [] = [] from rfl] at hq
      exact absurd hq (List.not_mem_nil _)
  | x :: rest, h, q, hq => by
      have hx := xmlToJson_canon x
      have h' : (nodeCanon x && nodesCanon rest) = true := h
      rw [Bool.and_eq_true] at h'
      cases x with
      | text s =>
          rw [show parsedAll (XNode.text s :: rest) = parsedAll rest from rfl] at hq
          exact parsedAll_canon rest h'.2 q hq
      | elem m a2 c2 =>
          rw [show parsedAll (XNode.elem m a2 c2 :: rest)
              = (m, xmlToJson (XNode.elem m a2 c2)) :: parsedAll rest from rfl] at hq
          rcases List.mem_cons.mp hq with he | he
          · subst he
            have h2 : (validNameB m && a2.all attrRawOk && nodesCanon c2) = true := h'.1
            rw [Bool.and_eq_true, Bool.and_eq_true] at h2
            exact ⟨h2.1.1, hx h'.1 m a2 c2 rfl⟩
          · exact parsedAll_canon rest h'.2 q he

end

theorem parsedAll_append : ∀ (A B : List XNode),
    parsedAll (A ++ B) = parsedAll A ++ parsedAll B
  | [], B => by
      rw [List.nil_append, show parsedAll [] = [] from rfl, List.nil_append]
  | x :: A, B => by
      rw [List.cons_append,
        show parsedAll (x :: (A ++ B))
          = (match x with
             | XNode.elem m _ _ => [(m, xmlToJson x)]
             | XNode.text _ => []) ++ parsedAll (A ++ B) from rfl,
        show parsedAll (x :: A)
          = (match x with
             | XNode.elem m _ _ => [(m, xmlToJson x)]
             | XNode.text _ => []) ++ parsedAll A from rfl,
        parsedAll_append A B, List.append_assoc]

theorem textConcat_append : ∀ (A B : List XNode),
    textConcat (A ++ B) = textConcat A ++ textConcat B
  | [], B => by
      rw [List.nil_append, show textConcat [] = "" from rfl, String.empty_append]
  | XNode.text s :: A, B => by
      rw [List.cons_append,
        show textConcat (XNode.text s :: (A ++ B))
          = (if jsTrim s = "" then "" else jsTrim s) ++ textConcat (A ++ B) from rfl,
        show textConcat (XNode.text s :: A)
          = (if jsTrim s = "" then "" else jsTrim s) ++ textConcat A from rfl,
        textConcat_append A B, String.append_assoc]
  | XNode.elem m a c :: A, B => by
      rw [List.cons_append,
        show textConcat (XNode.elem m a c :: (A ++ B)) = textConcat (A ++ B) from rfl,
        show textConcat (XNode.elem m a c :: A) = textConcat A from rfl,
        textConcat_append A B]

theorem jsTrim_nl : jsTrim "\n" = "" := by decide

theorem textConcat_nl : ∀ (l : List XNode), (∀ s, XNode.text s ∈ l → s = "\n") →
    textConcat l = ""
  | [], _ => rfl
  | XNode.text s :: rest, h => by
      have hs := h s (List.mem_cons_self _ _)
      subst hs
      rw [show textConcat (XNode.text "\n" :: rest)
          = (if jsTrim "\n" = "" then "" else jsTrim "\n") ++ textConcat rest from rfl,
        if_pos jsTrim_nl,
        textConcat_nl rest (fun s2 hs2 => h s2 (List.mem_cons_of_mem _ hs2))]
      rfl
  | XNode.elem m a c :: rest, h => by
      rw [show textConcat (XNode.elem m a c :: rest) = textConcat rest from rfl]
      exact textConcat_nl rest (fun s2 hs2 => h s2 (List.mem_cons_of_mem _ hs2))

theorem nodeOf_is_elem : ∀ (v : JValue) (tag : String),
    ∃ a c, nodeOf v tag = XNode.elem tag a c
  | JValue.null, tag => ⟨[], [], rfl⟩
  | JValue.str s, tag => ⟨[], _, rfl⟩
  | JValue.arr items, tag => ⟨[], [], rfl⟩
  | JValue.obj kvs, tag => ⟨_, _, rfl⟩

/-- The field keys of a canonical child list: every key up to the trailing
text entry. -/
def fkeys : List (String × JValue) → List String
  | [] => []
  | (k, _) :: rest =>
      if k = "#text" then []
      else if k = "@attributes" then fkeys rest
      else k :: fkeys rest

theorem fkeys_sub : ∀ (kvs : List (String × JValue)) (n : String), n ∈ fkeys kvs →
    ∃ p, p ∈ kvs ∧ n = p.1
  | [], n, hn => absurd hn (List.not_mem_nil n)
  | (k, v) :: rest, n, hn => by
      rw [show fkeys ((k, v) :: rest)
          = if k = "#text" then []
            else if k = "@attributes" then fkeys rest
            else k :: fkeys rest from rfl] at hn
      by_cases hk : k = "#text"
      · rw [if_pos hk] at hn
        exact absurd hn (List.not_mem_nil n)
      · rw [if_neg hk] at hn
        by_cases hk2 : k = "@attributes"
        · rw [if_pos hk2] at hn
          obtain ⟨p, hp, he2⟩ := fkeys_sub rest n hn
          exact ⟨p, List.mem_cons_of_mem _ hp, he2⟩
        · rw [if_neg hk2] at hn
          rcases List.mem_cons.mp hn with he | he
          · exact ⟨(k, v), List.mem_cons_self _ _, he⟩
          · obtain ⟨p, hp, he2⟩ := fkeys_sub rest n he
            exact ⟨p, List.mem_cons_of_mem _ hp, he2⟩

theorem ctc_keys (kvs : List (String × JValue)) : ∀ (b : Bool),
    childTextCanon kvs b = true → ∀ p ∈ kvs, validNameB p.1 = true ∨ p.1 = "#text" := by
  induction kvs with
  | nil =>
    intro b h p hp
    exact absurd hp (List.not_mem_nil p)
  | cons q rest ih =>
    intro b h p hp
    rcases childTextCanon_cases (q :: rest) b h with ⟨heq, _⟩ | ⟨t, heq, _, _, _⟩ |
      ⟨k, v, rest', heq, hk, _, _, hrest⟩
    · cases heq
    · injection heq with e1 e2
      subst e1
      subst e2
      rcases List.mem_cons.mp hp with he | he
      · rw [he]
        exact Or.inr rfl
      · exact absurd he (List.not_mem_nil p)
    · injection heq with e1 e2
      subst e1
      subst e2
      rcases List.mem_cons.mp hp with he | he
      · rw [he]
        exact Or.inl hk
      · exact ih true hrest p he

theorem fieldsFor_skip : ∀ (ns : List String) (p0 p1 : List (String × JValue)),
    (∀ q ∈ p0, ∀ n ∈ ns, ¬(q.1 = n)) →
    fieldsFor (p0 ++ p1) ns = fieldsFor p1 ns
  | [], p0, p1, h => rfl
  | n :: ns, p0, p1, h => by
      have e : (p0 ++ p1).filter (fun p => p.1 == n) = p1.filter (fun p => p.1 == n) := by
        rw [List.filter_append,
          show p0.filter (fun p => p.1 == n) = [] from
            List.filter_eq_nil_iff.mpr (fun a ha hb =>
              h a ha n (List.mem_cons_self _ _) (eq_of_beq hb)),
          List.nil_append]
      rw [show fieldsFor (p0 ++ p1) (n :: ns)
          = (match (((p0 ++ p1).filter (fun p => p.1 == n)).map (fun p => p.2)).filter
              (fun c => c ≠ JValue.null) with
             | [] => []
             | [v] => [(n, v)]
             | vs => [(n, JValue.arr vs)]) ++ fieldsFor (p0 ++ p1) ns from rfl,
        show fieldsFor p1 (n :: ns)
          = (match ((p1.filter (fun p => p.1 == n)).map (fun p => p.2)).filter
              (fun c => c ≠ JValue.null) with
             | [] => []
             | [v] => [(n, v)]
             | vs => [(n, JValue.arr vs)]) ++ fieldsFor p1 ns from rfl,
        e, fieldsFor_skip ns p0 p1 (fun q hq m hm => h q hq m (List.mem_cons_of_mem _ hm))]

theorem filter_key_group (grp p1 : List (String × JValue)) (k : String)
    (hg : ∀ q ∈ grp, q.1 = k) (hp : ∀ q ∈ p1, ¬(q.1 = k)) :
    (grp ++ p1).filter (fun p => p.1 == k) = grp := by
  rw [List.filter_append,
    show p1.filter (fun p => p.1 == k) = [] from
      List.filter_eq_nil_iff.mpr (fun a ha hb => hp a ha (eq_of_beq hb)),
    List.append_nil]
  exact List.filter_eq_self.mpr (fun a ha => beq_iff_eq.mpr (hg a ha))

theorem avs_roundtrip : ∀ (avs : List (String × JValue)),
    (∀ a ∈ avs, attrOk a = true) →
    ((avs.map (fun a => (a.1, match a.2 with | JValue.str v => v | _ => ""))).map
      (fun a => (a.1, JValue.str a.2))) = avs
  | [], _ => rfl
  | (a1, a2) :: avs, h => by
      have ha := h (a1, a2) (List.mem_cons_self _ _)
      rw [attrOk, Bool.and_eq_true] at ha
      rw [List.map_cons, List.map_cons,
        avs_roundtrip avs (fun x hx => h x (List.mem_cons_of_mem _ hx))]
      cases a2 with
      | str v => rfl
      | null => exact absurd ha.2 (by simp)
      | arr items => exact absurd ha.2 (by simp)
      | obj o => exact absurd ha.2 (by simp)

theorem elemCanon_ne_null {v : JValue} (h : elemCanon v = true) :
    ¬(v = JValue.null) := by
  intro e
  subst e
  simp [elemCanon] at h

theorem gn_text (s : String) (l : List XNode) :
    groupNames (XNode.text s :: l) = groupNames l := rfl

theorem gn_elem (m : String) (a : List (String × String)) (c : List XNode)
    (l : List XNode) :
    groupNames (XNode.elem m a c :: l)
      = m :: (groupNames l).filter (fun n => n ≠ m) := rfl

theorem pa_text (s : String) (l : List XNode) :
    parsedAll (XNode.text s :: l) = parsedAll l := rfl

theorem pa_elem (m : String) (a : List (String × String)) (c : List XNode)
    (l : List XNode) :
    parsedAll (XNode.elem m a c :: l)
      = (m, xmlToJson (XNode.elem m a c)) :: parsedAll l := rfl

theorem tc_text (s : String) (l : List XNode) :
    textConcat (XNode.text s :: l)
      = (if jsTrim s = "" then "" else jsTrim s) ++ textConcat l := rfl

theorem nodesOfKV_cons_arr (k : String) (items : List JValue)
    (rest : List (String × JValue)) (hk : validNameB k = true) :
    nodesOfKV ((k, JValue.arr items) :: rest) = nodesOfL items k ++ nodesOfKV rest := by
  have hneg : ¬((decide (k = "@attributes") || decide (k = "#text")) = true) := by
    rw [decide_eq_false (validNameB_ne_attrs hk), decide_eq_false (validNameB_ne_text hk)]
    simp
  simp only [nodesOfKV]
  rw [if_neg hneg]

theorem fkeys_cons_valid (k : String) (v : JValue) (rest : List (String × JValue))
    (hk : validNameB k = true) :
    fkeys ((k, v) :: rest) = k :: fkeys rest := by
  rw [show fkeys ((k, v) :: rest)
      = if k = "#text" then []
        else if k = "@attributes" then fkeys rest
        else k :: fkeys rest from rfl,
    if_neg (validNameB_ne_text hk), if_neg (validNameB_ne_attrs hk)]

theorem filter_ne_all (l : List String) (k : String) (h : ∀ n ∈ l, ¬(n = k)) :
    l.filter (fun n => n ≠ k) = l :=
  List.filter_eq_self.mpr (fun a ha => decide_eq_true (h a ha))

theorem filter_ne_idem (l : List String) (k : String) :
    (l.filter (fun n => n ≠ k)).filter (fun n => n ≠ k) = l.filter (fun n => n ≠ k) :=
  List.filter_eq_self.mpr (fun a ha => (List.mem_filter.mp ha).2)

theorem map_snd_tag (k : String) : ∀ (items : List JValue),
    (items.map (fun v => (k, v))).map (fun p => p.2) = items
  | [] => rfl
  | v :: vs => by
      rw [List.map_cons, List.map_cons, map_snd_tag k vs]

theorem no_attrs_head (rest : List (String × JValue))
    (h : childTextCanon rest true = true) :
    ∀ avs2 rest2, ¬(rest = ("@attributes", JValue.obj avs2) :: rest2) := by
  intro avs2 rest2 he
  have hm := ctc_keys rest true h ("@attributes", JValue.obj avs2)
    (by rw [he]; exact List.mem_cons_self _ _)
  rcases hm with hv | hv
  · have hv2 : validNameB "@attributes" = true := hv
    exact absurd hv2 (by decide)
  · have hv2 : "@attributes" = "#text" := hv
    exact absurd hv2 (by decide)

theorem jText_of_nil {kvs2 : List (String × JValue)}
    (hf : kvs2.filter (fun p => p.1 == "#text") = []) : jText kvs2 = [] := by
  rw [jText, hf]
  rfl

theorem jText_of_t {kvs2 : List (String × JValue)} {t : String} (ht : ¬(t = ""))
    (hf : kvs2.filter (fun p => p.1 == "#text") = [("#text", JValue.str t)]) :
    jText kvs2 = [XNode.text t] := by
  rw [jText, hf]
  show (if t = "" then ([] : List XNode) else [XNode.text t]) = [XNode.text t]
  rw [if_neg ht]

/-- A canonical child list minus its optional `@attributes` head. -/
def dropA : List (String × JValue) → List (String × JValue)
  | ("@attributes", JValue.obj _) :: rest => rest
  | kvs => kvs

theorem dropA_cons_valid (k : String) (v : JValue) (rest : List (String × JValue))
    (hk : validNameB k = true) : dropA ((k, v) :: rest) = (k, v) :: rest := by
  rw [dropA.eq_def]
  split
  · rename_i avs2 rest2 heq
    injection heq with e1 e2
    injection e1 with ek ev
    exact absurd ek (validNameB_ne_attrs hk)
  · rfl

theorem dropA_of_ctc (kvs : List (String × JValue)) (b : Bool)
    (h : childTextCanon kvs b = true) : dropA kvs = kvs := by
  rcases childTextCanon_cases kvs b h with ⟨heq, _⟩ | ⟨t, heq, _, _, _⟩ |
    ⟨k, v, rest, heq, hk, _, _, _⟩
  · subst heq
    rfl
  · subst heq
    rfl
  · subst heq
    exact dropA_cons_valid k v rest hk

theorem fkeys_ne_nil_of_false (kvs : List (String × JValue))
    (h : childTextCanon kvs false = true) : ¬(fkeys kvs = []) := by
  rcases childTextCanon_cases kvs false h with ⟨_, hb⟩ | ⟨t, _, hb, _, _⟩ |
    ⟨k, v, rest, heq, hk, _, _, _⟩
  · cases hb
  · cases hb
  · subst heq
    rw [fkeys_cons_valid k v rest hk]
    simp

theorem dist_keys {rest : List (String × JValue)} {k : String}
    (hdist : rest.all (fun p => !(p.1 == k)) = true)
    {p : String × JValue} (hp : p ∈ rest) : ¬(p.1 = k) := by
  have hd := List.all_eq_true.mp hdist p hp
  rw [Bool.not_eq_true'] at hd
  exact beq_eq_false_iff_ne.mp hd

theorem fkeys_ne {rest : List (String × JValue)} {k : String}
    (hdist : rest.all (fun p => !(p.1 == k)) = true) :
    ∀ n ∈ fkeys rest, ¬(n = k) := by
  intro n hn
  obtain ⟨p, hp, he⟩ := fkeys_sub rest n hn
  rw [he]
  exact dist_keys hdist hp

/-- The reconstruction facts carried through the child-field recursion:
the printed children hold only newline text nodes, their parses key into
the list, their group names are the field keys, and re-grouping rebuilds
the fields with the trailing text entry. -/
def KVClauses (kvs : List (String × JValue)) : Prop :=
  (∀ s, XNode.text s ∈ nodesOfKV kvs → s = "\n") ∧
  (∀ q ∈ parsedAll (nodesOfKV kvs), ∃ p, p ∈ kvs ∧ q.1 = p.1) ∧
  groupNames (nodesOfKV kvs) = fkeys kvs ∧
  (fieldsFor (parsedAll (nodesOfKV kvs)) (fkeys kvs)
    ++ kvs.filter (fun p => p.1 == "#text") = dropA kvs) ∧
  (kvs.filter (fun p => p.1 == "#text") = [] ∨
   ∃ t, ¬(t = "") ∧ textOk t = true ∧
     kvs.filter (fun p => p.1 == "#text") = [("#text", JValue.str t)])

/-- The reconstruction facts for a printed array field. -/
def LClauses (items : List JValue) (tag : String) : Prop :=
  (∀ s, XNode.text s ∈ nodesOfL items tag → s = "\n") ∧
  parsedAll (nodesOfL items tag) = items.map (fun v => (tag, v)) ∧
  (items = [] → nodesOfL items tag = []) ∧
  (¬(items = []) → ∀ X, groupNames (nodesOfL items tag ++ X)
      = tag :: (groupNames X).filter (fun n => n ≠ tag))

theorem kv_text_single (t : String) (htne : ¬(t = "")) (htok : textOk t = true) :
    KVClauses [("#text", JValue.str t)] := by
  refine ⟨?_, ?_, rfl, rfl, Or.inr ⟨t, htne, htok, rfl⟩⟩
  · intro s hs
    have hs2 : XNode.text s ∈ ([] : List XNode) := hs
    exact absurd hs2 (List.not_mem_nil _)
  · intro q hq
    have hq2 : q ∈ ([] : List (String × JValue)) := hq
    exact absurd hq2 (List.not_mem_nil _)

theorem kvstep_attrs (avs : List (String × JValue)) (rest : List (String × JValue))
    (hctR : childTextCanon rest true = true) (ihR : KVClauses rest) :
    KVClauses (("@attributes", JValue.obj avs) :: rest) := by
  obtain ⟨ih1, ih2, ih3, ih4, ih5⟩ := ihR
  have e6 : nodesOfKV (("@attributes", JValue.obj avs) :: rest) = nodesOfKV rest := rfl
  have e7 : (("@attributes", JValue.obj avs) :: rest).filter (fun p => p.1 == "#text")
      = rest.filter (fun p => p.1 == "#text") := rfl
  have e8 : fkeys (("@attributes", JValue.obj avs) :: rest) = fkeys rest := rfl
  have e9 : dropA (("@attributes", JValue.obj avs) :: rest) = rest := rfl
  refine ⟨?_, ?_, ?_, ?_, ?_⟩
  · rw [e6]
    exact ih1
  · rw [e6]
    intro q hq
    obtain ⟨p, hp, he⟩ := ih2 q hq
    exact ⟨p, List.mem_cons_of_mem _ hp, he⟩
  · rw [e6, e8]
    exact ih3
  · rw [e6, e8, e7, e9, ih4]
    exact dropA_of_ctc rest true hctR
  · rw [e7]
    exact ih5

theorem lstep (tag : String) (v : JValue) (vs : List JValue)
    (hev : elemCanon v = true) (hxv : xmlToJson (nodeOf v tag) = v)
    (ihV : LClauses vs tag) : LClauses (v :: vs) tag := by
  obtain ⟨ih1, ih2, ih3, ih4⟩ := ihV
  have hcons := nodesOfL_cons_elem vs tag hev
  obtain ⟨a0, c0, he⟩ := nodeOf_is_elem v tag
  refine ⟨?_, ?_, ?_, ?_⟩
  · intro s hs
    rw [hcons, he] at hs
    rcases List.mem_cons.mp hs with h1 | h1
    · exact XNode.noConfusion h1
    · rcases List.mem_cons.mp h1 with h2 | h2
      · injection h2
      · exact ih1 s h2
  · rw [hcons, he, pa_elem, pa_text, ← he, hxv, ih2, List.map_cons]
  · intro h0
    exact absurd h0 (by simp)
  · intro _ X
    rw [hcons, List.cons_append, List.cons_append, he, gn_elem, gn_text]
    by_cases hvs : vs = []
    · subst hvs
      rw [show nodesOfL [] tag = [] from rfl, List.nil_append]
    · rw [ih4 hvs X, List.filter_cons_of_neg (by simp), filter_ne_idem]

theorem kvstep_elem (k : String) (v : JValue) (rest : List (String × JValue))
    (hk : validNameB k = true) (hdist : rest.all (fun p => !(p.1 == k)) = true)
    (hctR : childTextCanon rest true = true)
    (hev : elemCanon v = true) (hxv : xmlToJson (nodeOf v k) = v)
    (ihR : KVClauses rest) : KVClauses ((k, v) :: rest) := by
  obtain ⟨ih1, ih2, ih3, ih4, ih5⟩ := ihR
  obtain ⟨hx1, hx2⟩ := nodesOfKV_cons_elem rest hev hk
  obtain ⟨a0, c0, he⟩ := nodeOf_is_elem v k
  have hpa : parsedAll (nodesOfKV ((k, v) :: rest))
      = (k, v) :: parsedAll (nodesOfKV rest) := by
    rw [hx2, he, pa_elem, pa_text, ← he, hxv]
  have hbt : (k == "#text") = false := beq_eq_false_iff_ne.mpr (validNameB_ne_text hk)
  have hfc : List.filter (fun q => q.1 == "#text") ((k, v) :: rest)
      = List.filter (fun q => q.1 == "#text") rest := by
    rw [List.filter_cons, hbt]
    rfl
  have hkeysR : ∀ q ∈ parsedAll (nodesOfKV rest), ¬(q.1 = k) := by
    intro q hq hqk
    obtain ⟨p, hp, hqp⟩ := ih2 q hq
    exact dist_keys hdist hp (by rw [← hqp]; exact hqk)
  have hfilt1 : ((k, v) :: parsedAll (nodesOfKV rest)).filter (fun p => p.1 == k)
      = [(k, v)] := by
    have h0 := filter_key_group [(k, v)] (parsedAll (nodesOfKV rest)) k
      (fun q hq => by rw [List.mem_singleton.mp hq]) hkeysR
    rw [List.singleton_append] at h0
    exact h0
  have hnn : (([(k, v)].map (fun p => p.2)).filter (fun c => c ≠ JValue.null)) = [v] := by
    rw [show ([(k, v)].map (fun p => p.2)) = [v] from rfl]
    exact List.filter_eq_self.mpr (fun c hc => by
      rw [List.mem_singleton.mp hc]
      exact decide_eq_true (elemCanon_ne_null hev))
  have hskip : fieldsFor ((k, v) :: parsedAll (nodesOfKV rest)) (fkeys rest)
      = fieldsFor (parsedAll (nodesOfKV rest)) (fkeys rest) := by
    rw [← List.singleton_append]
    exact fieldsFor_skip (fkeys rest) [(k, v)] _
      (fun q hq n hn => by
        rw [List.mem_singleton.mp hq]
        intro hkn
        exact fkeys_ne hdist n hn hkn.symm)
  have ih4a : fieldsFor (parsedAll (nodesOfKV rest)) (fkeys rest)
      ++ rest.filter (fun p => p.1 == "#text") = rest := by
    rw [ih4]
    exact dropA_of_ctc rest true hctR
  have hF : fieldsFor ((k, v) :: parsedAll (nodesOfKV rest)) (k :: fkeys rest)
      = (k, v) :: fieldsFor (parsedAll (nodesOfKV rest)) (fkeys rest) := by
    rw [show fieldsFor ((k, v) :: parsedAll (nodesOfKV rest)) (k :: fkeys rest)
        = (match ((((k, v) :: parsedAll (nodesOfKV rest)).filter
            (fun p => p.1 == k)).map (fun p => p.2)).filter
            (fun c => c ≠ JValue.null) with
           | [] => []
           | [v] => [(k, v)]
           | vs => [(k, JValue.arr vs)]) ++
          fieldsFor ((k, v) :: parsedAll (nodesOfKV rest)) (fkeys rest) from rfl,
      hfilt1, hnn, hskip]
    rfl
  refine ⟨?_, ?_, ?_, ?_, ?_⟩
  · intro s hs
    rw [hx2, he] at hs
    rcases List.mem_cons.mp hs with h1 | h1
    · exact XNode.noConfusion h1
    · rcases List.mem_cons.mp h1 with h2 | h2
      · injection h2
      · exact ih1 s h2
  · intro q hq
    rw [hpa] at hq
    rcases List.mem_cons.mp hq with h1 | h1
    · subst h1
      exact ⟨(k, v), List.mem_cons_self _ _, rfl⟩
    · obtain ⟨p, hp, hqp⟩ := ih2 q h1
      exact ⟨p, List.mem_cons_of_mem _ hp, hqp⟩
  · rw [hx2, he, gn_elem, gn_text, ih3, filter_ne_all (fkeys rest) k (fkeys_ne hdist),
      fkeys_cons_valid k v rest hk]
  · rw [fkeys_cons_valid k v rest hk, hpa, hF, hfc,
      dropA_cons_valid k v rest hk, List.cons_append, ih4a]
  · rw [hfc]
    exact ih5

theorem kvstep_arr (k : String) (items : List JValue) (rest : List (String × JValue))
    (hk : validNameB k = true) (hdist : rest.all (fun p => !(p.1 == k)) = true)
    (hctR : childTextCanon rest true = true)
    (hlen : 2 ≤ items.length) (hlc : listElemCanon items = true)
    (hL : LClauses items k) (ihR : KVClauses rest) :
    KVClauses ((k, JValue.arr items) :: rest) := by
  obtain ⟨ih1, ih2, ih3, ih4, ih5⟩ := ihR
  obtain ⟨hl1, hl2, hl3, hl4⟩ := hL
  have hne : ¬(items = []) := by
    intro h0
    rw [h0] at hlen
    simp at hlen
  have f2 := nodesOfKV_cons_arr k items rest hk
  have hpa : parsedAll (nodesOfKV ((k, JValue.arr items) :: rest))
      = items.map (fun v => (k, v)) ++ parsedAll (nodesOfKV rest) := by
    rw [f2, parsedAll_append, hl2]
  have hbt : (k == "#text") = false := beq_eq_false_iff_ne.mpr (validNameB_ne_text hk)
  have hfc : List.filter (fun q => q.1 == "#text") ((k, JValue.arr items) :: rest)
      = List.filter (fun q => q.1 == "#text") rest := by
    rw [List.filter_cons, hbt]
    rfl
  have hkeysR : ∀ q ∈ parsedAll (nodesOfKV rest), ¬(q.1 = k) := by
    intro q hq hqk
    obtain ⟨p, hp, hqp⟩ := ih2 q hq
    exact dist_keys hdist hp (by rw [← hqp]; exact hqk)
  have hfilt1 : (items.map (fun v => (k, v)) ++ parsedAll (nodesOfKV rest)).filter
      (fun p => p.1 == k) = items.map (fun v => (k, v)) :=
    filter_key_group _ _ k
      (fun q hq => by
        obtain ⟨v0, hv0, he0⟩ := List.mem_map.mp hq
        rw [← he0]) hkeysR
  have hmm : ((items.map (fun v => (k, v))).map (fun p => p.2)).filter
      (fun c => c ≠ JValue.null) = items := by
    rw [map_snd_tag]
    exact List.filter_eq_self.mpr
      (fun v0 hv0 => decide_eq_true (elemCanon_ne_null (listElemCanon_all hlc v0 hv0)))
  have hskip : fieldsFor (items.map (fun v => (k, v)) ++ parsedAll (nodesOfKV rest))
      (fkeys rest) = fieldsFor (parsedAll (nodesOfKV rest)) (fkeys rest) :=
    fieldsFor_skip (fkeys rest) _ _
      (fun q hq n hn => by
        obtain ⟨v0, hv0, he0⟩ := List.mem_map.mp hq
        rw [← he0]
        intro hkn
        exact fkeys_ne hdist n hn hkn.symm)
  have ih4a : fieldsFor (parsedAll (nodesOfKV rest)) (fkeys rest)
      ++ rest.filter (fun p => p.1 == "#text") = rest := by
    rw [ih4]
    exact dropA_of_ctc rest true hctR
  have hF : fieldsFor (items.map (fun v => (k, v)) ++ parsedAll (nodesOfKV rest))
      (k :: fkeys rest)
      = (k, JValue.arr items) :: fieldsFor (parsedAll (nodesOfKV rest)) (fkeys rest) := by
    rw [show fieldsFor (items.map (fun v => (k, v)) ++ parsedAll (nodesOfKV rest))
        (k :: fkeys rest)
        = (match (((items.map (fun v => (k, v)) ++ parsedAll (nodesOfKV rest)).filter
            (fun p => p.1 == k)).map (fun p => p.2)).filter
            (fun c => c ≠ JValue.null) with
           | [] => []
           | [v] => [(k, v)]
           | vs => [(k, JValue.arr vs)]) ++
          fieldsFor (items.map (fun v => (k, v)) ++ parsedAll (nodesOfKV rest))
            (fkeys rest) from rfl,
      hfilt1, hmm, hskip]
    rcases items with _ | ⟨v1, _ | ⟨v2, tl⟩⟩
    · simp at hlen
    · simp at hlen
    · rfl
  refine ⟨?_, ?_, ?_, ?_, ?_⟩
  · intro s hs
    rw [f2] at hs
    rcases List.mem_append.mp hs with h1 | h1
    · exact hl1 s h1
    · exact ih1 s h1
  · intro q hq
    rw [hpa] at hq
    rcases List.mem_append.mp hq with h1 | h1
    · obtain ⟨v0, hv0, he0⟩ := List.mem_map.mp h1
      exact ⟨(k, JValue.arr items), List.mem_cons_self _ _, by rw [← he0]⟩
    · obtain ⟨p, hp, hqp⟩ := ih2 q h1
      exact ⟨p, List.mem_cons_of_mem _ hp, hqp⟩
  · rw [f2, hl4 hne (nodesOfKV rest), ih3,
      filter_ne_all (fkeys rest) k (fkeys_ne hdist),
      fkeys_cons_valid k (JValue.arr items) rest hk]
  · rw [fkeys_cons_valid k (JValue.arr items) rest hk, hpa, hF, hfc,
      dropA_cons_valid k (JValue.arr items) rest hk, List.cons_append, ih4a]
  · rw [hfc]
    exact ih5

mutual

/-- Re-parsing the printed form of a canonical value: xmlToJson applied to
the reconstructed DOM element recovers the value. -/
theorem xmlToJson_nodeOf : ∀ (v : JValue) (tag : String), elemCanon v = true →
    xmlToJson (nodeOf v tag) = v
  | JValue.null, tag, hv => by simp [elemCanon] at hv
  | JValue.arr items, tag, hv => by simp [elemCanon] at hv
  | JValue.str s, tag, hv => by
      have htok : textOk s = true := hv
      by_cases hs : s = ""
      · subst hs
        rfl
      · have e : xmlToJson (nodeOf (JValue.str s) tag)
            = xmlToJson (XNode.elem tag [] (if s = "" then [] else [XNode.text s])) := rfl
        rw [e, if_neg hs,
          show xmlToJson (XNode.elem tag [] [XNode.text s])
            = JValue.str (textConcat [XNode.text s]) from rfl,
          show textConcat [XNode.text s]
            = (if jsTrim s = "" then "" else jsTrim s) ++ textConcat [] from rfl,
          (textOk_parts htok).1, if_neg hs,
          show textConcat [] = "" from rfl, String.append_empty]
  | JValue.obj kvs, tag, hv => by
      have hB := kvRecon kvs
      have hsplit := elemCanon_obj_split kvs hv
      have e : xmlToJson (nodeOf (JValue.obj kvs) tag)
          = (if (groupNames (jText kvs ++ nodesOfKV kvs)).isEmpty
                && (jAttrs kvs).isEmpty then
              JValue.str (textConcat (jText kvs ++ nodesOfKV kvs))
            else
              JValue.obj
                ((if (jAttrs kvs).isEmpty then []
                  else [("@attributes",
                         JValue.obj ((jAttrs kvs).map (fun a => (a.1, JValue.str a.2))))]) ++
                 fieldsFor (parsedAll (jText kvs ++ nodesOfKV kvs))
                   (groupNames (jText kvs ++ nodesOfKV kvs)) ++
                 (if textConcat (jText kvs ++ nodesOfKV kvs) = "" then []
                  else [("#text",
                         JValue.str (textConcat (jText kvs ++ nodesOfKV kvs)))]))) := rfl
      rcases hsplit with hct | hha
      · obtain ⟨hnl, hkeys2, hgn, hff, htf⟩ := hB false (Or.inl hct)
        rw [dropA_of_ctc kvs false hct] at hff
        have hja : jAttrs kvs = [] := (kvParts kvs false hct).2.1.2
        have hfke : (fkeys kvs).isEmpty = false := by
          have hfkne := fkeys_ne_nil_of_false kvs hct
          cases hfk : fkeys kvs with
          | nil => exact absurd hfk hfkne
          | cons a l => rfl
        have htcn : textConcat (nodesOfKV kvs) = "" := textConcat_nl _ hnl
        rcases htf with hfilt | ⟨t, htne, htok, hfilt⟩
        · rw [hfilt, List.append_nil] at hff
          rw [e, hja, jText_of_nil hfilt]
          simp only [List.nil_append]
          rw [hgn, htcn, if_neg (by rw [hfke]; simp),
            if_pos rfl,
            if_pos (show ([] : List (String × String)).isEmpty = true from rfl),
            List.nil_append, List.append_nil, hff]
        · rw [hfilt] at hff
          have hjt : jText kvs = [XNode.text t] := jText_of_t htne hfilt
          have htcv : textConcat (XNode.text t :: nodesOfKV kvs) = t := by
            rw [tc_text, htcn, (textOk_parts htok).1, if_neg htne, String.append_empty]
          rw [e, hja, hjt, List.singleton_append, gn_text, pa_text, hgn, htcv,
            if_neg (by rw [hfke]; simp),
            if_pos (show ([] : List (String × String)).isEmpty = true from rfl),
            if_neg htne, List.nil_append, hff]
      · obtain ⟨avs, rest, heq, hane, hallA, hct⟩ := headAttrsOk_cases kvs hha
        subst heq
        obtain ⟨hnl, hkeys2, hgn, hff, htf⟩ := hB true (Or.inr hha)
        have e4 : jText (("@attributes", JValue.obj avs) :: rest) = jText rest := rfl
        have e6 : nodesOfKV (("@attributes", JValue.obj avs) :: rest)
            = nodesOfKV rest := rfl
        have e7 : (("@attributes", JValue.obj avs) :: rest).filter
            (fun p => p.1 == "#text") = rest.filter (fun p => p.1 == "#text") := rfl
        have e8 : fkeys (("@attributes", JValue.obj avs) :: rest) = fkeys rest := rfl
        have e9 : dropA (("@attributes", JValue.obj avs) :: rest) = rest := rfl
        have hjaR : jAttrs rest = [] := (kvParts rest true hct).2.1.2
        have hja2 : jAttrs (("@attributes", JValue.obj avs) :: rest)
            = avs.map (fun a =>
                (a.1, match a.2 with | JValue.str v => v | _ => "")) := by
          rw [show jAttrs (("@attributes", JValue.obj avs) :: rest)
              = avs.map (fun a =>
                  (a.1, match a.2 with | JValue.str v => v | _ => "")) ++ jAttrs rest
              from rfl, hjaR, List.append_nil]
        have haem : (avs.map (fun a =>
            (a.1, match a.2 with | JValue.str v => v | _ => ""))).isEmpty = false := by
          cases avs with
          | nil => exact absurd rfl hane
          | cons a as => rfl
        rw [e6] at hnl hgn
        rw [e8] at hgn
        rw [e6, e8, e7, e9] at hff
        rw [e7] at htf
        have htcn : textConcat (nodesOfKV rest) = "" := textConcat_nl _ hnl
        rcases htf with hfilt | ⟨t, htne, htok, hfilt⟩
        · rw [hfilt, List.append_nil] at hff
          rw [e, hja2, e4, e6, jText_of_nil hfilt]
          simp only [List.nil_append]
          rw [hgn, htcn, if_neg (by rw [haem, Bool.and_false]; simp),
            if_neg (by rw [haem]; simp), if_pos rfl, avs_roundtrip avs hallA,
            List.append_nil, hff, List.singleton_append]
        · rw [hfilt] at hff
          have hjt : jText rest = [XNode.text t] := jText_of_t htne hfilt
          have htcv : textConcat (XNode.text t :: nodesOfKV rest) = t := by
            rw [tc_text, htcn, (textOk_parts htok).1, if_neg htne, String.append_empty]
          rw [e, hja2, e4, e6, hjt, List.singleton_append, gn_text, pa_text, hgn, htcv,
            if_neg (by rw [haem, Bool.and_false]; simp),
            if_neg (by rw [haem]; simp), if_neg htne, avs_roundtrip avs hallA,
            List.append_assoc, hff, List.singleton_append]

/-- The child-field reconstruction facts, by recursion over the canonical
child list (with an optional `@attributes` head). -/
theorem kvRecon : ∀ (kvs : List (String × JValue)) (b : Bool),
    (childTextCanon kvs b = true ∨ headAttrsOk kvs = true) → KVClauses kvs
  | [], b, h => by
      refine ⟨?_, ?_, rfl, rfl, Or.inl rfl⟩
      · intro s hs
        have hs2 : XNode.text s ∈ ([] : List XNode) := hs
        exact absurd hs2 (List.not_mem_nil _)
      · intro q hq
        have hq2 : q ∈ ([] : List (String × JValue)) := hq
        exact absurd hq2 (List.not_mem_nil _)
  | (k, v) :: rest, b, h => by
      have hA := xmlToJson_nodeOf v
      have hKV := kvRecon rest
      cases v with
      | null =>
        exfalso
        rcases h with hct | hha
        · rcases childTextCanon_cases _ _ hct with ⟨heq, _⟩ |
            ⟨t, heq, hb, htne, htok⟩ |
            ⟨k2, v2, rest2, heq, hk2, hdist2, hval2, hctr2⟩
          · exact absurd heq (by simp)
          · injection heq with e1 e2
            injection e1 with ek ev
            exact absurd ev (by simp)
          · injection heq with e1 e2
            injection e1 with ek ev
            subst ev
            rcases hval2 with ⟨items, hvi, _, _⟩ | hev
            · exact absurd hvi (by simp)
            · simp [elemCanon] at hev
        · obtain ⟨avs, rest2, heq, _, _, _⟩ := headAttrsOk_cases _ hha
          injection heq with e1 e2
          injection e1 with ek ev
          exact absurd ev (by simp)
      | str s =>
        rcases h with hct | hha
        · rcases childTextCanon_cases _ _ hct with ⟨heq, _⟩ |
            ⟨t, heq, hb, htne, htok⟩ |
            ⟨k2, v2, rest2, heq, hk2, hdist2, hval2, hctr2⟩
          · exact absurd heq (by simp)
          · injection heq with e1 e2
            injection e1 with ek ev
            injection ev with ev2
            subst ek
            subst e2
            subst ev2
            exact kv_text_single s htne htok
          · injection heq with e1 e2
            injection e1 with ek ev
            subst ek
            subst e2
            rcases hval2 with ⟨items, hvi, _, _⟩ | hev
            · rw [← ev] at hvi
              exact absurd hvi (by simp)
            · subst ev
              exact kvstep_elem k (JValue.str s) rest hk2 hdist2 hctr2 hev
                (hA k hev) (hKV true (Or.inl hctr2))
        · obtain ⟨avs, rest2, heq, _, _, _⟩ := headAttrsOk_cases _ hha
          injection heq with e1 e2
          injection e1 with ek ev
          exact absurd ev (by simp)
      | obj o =>
        rcases h with hct | hha
        · rcases childTextCanon_cases _ _ hct with ⟨heq, _⟩ |
            ⟨t, heq, hb, htne, htok⟩ |
            ⟨k2, v2, rest2, heq, hk2, hdist2, hval2, hctr2⟩
          · exact absurd heq (by simp)
          · injection heq with e1 e2
            injection e1 with ek ev
            exact absurd ev (by simp)
          · injection heq with e1 e2
            injection e1 with ek ev
            subst ek
            subst e2
            rcases hval2 with ⟨items, hvi, _, _⟩ | hev
            · rw [← ev] at hvi
              exact absurd hvi (by simp)
            · subst ev
              exact kvstep_elem k (JValue.obj o) rest hk2 hdist2 hctr2 hev
                (hA k hev) (hKV true (Or.inl hctr2))
        · obtain ⟨avs, rest2, heq, hane, hallA, hctr⟩ := headAttrsOk_cases _ hha
          injection heq with e1 e2
          injection e1 with ek ev
          subst ek
          injection ev with eo
          subst eo
          subst e2
          exact kvstep_attrs o rest hctr (hKV true (Or.inl hctr))
      | arr items =>
        rcases h with hct | hha
        · rcases childTextCanon_cases _ _ hct with ⟨heq, _⟩ |
            ⟨t, heq, hb, htne, htok⟩ |
            ⟨k2, v2, rest2, heq, hk2, hdist2, hval2, hctr2⟩
          · exact absurd heq (by simp)
          · injection heq with e1 e2
            injection e1 with ek ev
            exact absurd ev (by simp)
          · injection heq with e1 e2
            injection e1 with ek ev
            subst ek
            subst e2
            rcases hval2 with ⟨items2, hvi, hlen2, hlc2⟩ | hev
            · rw [← ev] at hvi
              injection hvi with e3
              subst e3
              exact kvstep_arr k items rest hk2 hdist2 hctr2 hlen2 hlc2
                (lRecon items k hlc2) (hKV true (Or.inl hctr2))
            · rw [← ev] at hev
              simp [elemCanon] at hev
        · obtain ⟨avs, rest2, heq, _, _, _⟩ := headAttrsOk_cases _ hha
          injection heq with e1 e2
          injection e1 with ek ev
          exact absurd ev (by simp)

/-- The array-field reconstruction facts, by recursion over the items. -/
theorem lRecon : ∀ (items : List JValue) (tag : String),
    listElemCanon items = true → LClauses items tag
  | [], tag, _ => by
      refine ⟨?_, rfl, fun _ => rfl, fun h0 => absurd rfl h0⟩
      intro s hs
      have hs2 : XNode.text s ∈ ([] : List XNode) := hs
      exact absurd hs2 (List.not_mem_nil _)
  | v :: vs, tag, h => by
      have hA := xmlToJson_nodeOf v
      have hL := lRecon vs
      rw [listElemCanon, Bool.and_eq_true] at h
      exact lstep tag v vs h.1 (hA tag h.1) (hL tag h.2)

end

theorem normalizeEOL_crfree (l : List Char) : ∀ c ∈ normalizeEOL l, ¬(c = '\r') := by
  induction l using normalizeEOL.induct with
  | case1 =>
      intro c hc
      exact absurd hc (List.not_mem_nil c)
  | case2 rest ih =>
      intro c hc
      rw [show normalizeEOL ('\r' :: '\n' :: rest) = '\n' :: normalizeEOL rest from rfl] at hc
      rcases List.mem_cons.mp hc with he | he
      · subst he
        decide
      · exact ih c he
  | case3 rest h1 ih =>
      intro c hc
      rw [normalizeEOL.eq_def] at hc
      split at hc
      · exact absurd hc (List.not_mem_nil c)
      · rename_i rest2 heq
        injection heq with e1 e2
        exact absurd e2 (h1 rest2)
      · rename_i rest2 heq
        injection heq with e1 e2
        subst e2
        rcases List.mem_cons.mp hc with he | he
        · subst he
          decide
        · exact ih c he
      · rename_i c2 rest2 hc1 hc2 heq
        injection heq with e1 e2
        exact absurd e1.symm hc2
  | case4 c0 rest h1 h2 ih =>
      intro c hc
      rw [normalizeEOL.eq_def] at hc
      split at hc
      · exact absurd hc (List.not_mem_nil c)
      · rename_i rest2 heq
        injection heq with e1 e2
        exact (h1 rest2 e1 e2).elim
      · rename_i rest2 heq
        injection heq with e1 e2
        exact absurd e1 h2
      · rename_i c2 rest2 hc1 hc2 heq
        injection heq with e1 e2
        subst e1
        subst e2
        rcases List.mem_cons.mp hc with he | he
        · subst he
          exact h2
        · exact ih c he

theorem validName_chars {s : String} (h : validNameB s = true) :
    ∀ c ∈ s.data, ¬(c = '\r') := by
  intro c hc he
  subst he
  rw [validNameB.eq_def] at h
  split at h
  · rename_i heq
    rw [heq] at hc
    exact absurd hc (List.not_mem_nil _)
  · rename_i c0 rest heq
    rw [heq] at hc
    rw [Bool.and_eq_true] at h
    rcases List.mem_cons.mp hc with he2 | he2
    · rw [← he2] at h
      exact absurd h.1 (by decide)
    · have h3 := List.all_eq_true.mp h.2 _ he2
      exact absurd h3 (by decide)

theorem escChar_crfree {c : Char} (h : ¬(c = '\r')) : ∀ x ∈ escChar c, ¬(x = '\r') := by
  intro x hx he
  subst he
  rw [escChar.eq_def] at hx
  split at hx
  · exact absurd hx (by decide)
  · split at hx
    · exact absurd hx (by decide)
    · split at hx
      · exact absurd hx (by decide)
      · split at hx
        · exact absurd hx (by decide)
        · split at hx
          · exact absurd hx (by decide)
          · exact h (List.mem_singleton.mp hx).symm

theorem escText_crfree {l : List Char} (h : ∀ c ∈ l, ¬(c = '\r')) :
    ∀ x ∈ escText l, ¬(x = '\r') := by
  intro x hx
  rw [escText] at hx
  obtain ⟨c, hc, hxc⟩ := List.mem_flatMap.mp hx
  exact escChar_crfree (h c hc) x hxc

theorem attrValClean_cr {v : String} (h : attrValClean v = true) :
    ∀ c ∈ v.data, ¬(c = '\r') := by
  intro c hc he
  subst he
  have h2 := List.all_eq_true.mp h _ hc
  simp at h2

theorem attrChars_crfree {a : String × JValue} (h : attrOk a = true) :
    ∀ x ∈ attrChars a, ¬(x = '\r') := by
  obtain ⟨n, v⟩ := a
  rw [attrOk, Bool.and_eq_true] at h
  intro x hx he
  subst he
  rw [attrChars] at hx
  cases v with
  | str v0 =>
    rcases List.mem_cons.mp hx with he2 | hx2
    · exact absurd he2 (by decide)
    · rcases List.mem_append.mp hx2 with hx3 | hx4
      · rcases List.mem_append.mp hx3 with hx5 | hx6
        · exact validName_chars h.1 _ hx5 rfl
        · rcases List.mem_cons.mp hx6 with he2 | hx7
          · exact absurd he2 (by decide)
          · rcases List.mem_cons.mp hx7 with he2 | hx8
            · exact absurd he2 (by decide)
            · exact escText_crfree (attrValClean_cr h.2) _ hx8 rfl
      · exact absurd hx4 (by decide)
  | null => exact absurd h.2 (by simp)
  | arr items => exact absurd h.2 (by simp)
  | obj o => exact absurd h.2 (by simp)

theorem renderCore_crfree (tag : String) (attrs text children : List Char)
    (htag : ∀ c ∈ tag.data, ¬(c = '\r'))
    (hattrs : ∀ c ∈ attrs, ¬(c = '\r'))
    (htext : ∀ c ∈ text, ¬(c = '\r'))
    (hch : ∀ c ∈ children, ¬(c = '\r')) :
    ∀ c ∈ renderCore tag attrs text children ++ ['\n'], ¬(c = '\r') := by
  intro c hc he
  subst he
  rcases List.mem_append.mp hc with hc1 | hc1
  · rw [renderCore] at hc1
    split at hc1
    · rcases List.mem_cons.mp hc1 with h1 | h1
      · exact absurd h1 (by decide)
      · rcases List.mem_append.mp h1 with h2 | h2
        · rcases List.mem_append.mp h2 with h3 | h3
          · exact htag _ h3 rfl
          · exact hattrs _ h3 rfl
        · exact absurd h2 (by decide)
    · rcases List.mem_cons.mp hc1 with h1 | h1
      · exact absurd h1 (by decide)
      · rcases List.mem_append.mp h1 with h2 | h2
        · rcases List.mem_append.mp h2 with h3 | h3
          · rcases List.mem_append.mp h3 with h4 | h4
            · rcases List.mem_append.mp h4 with h5 | h5
              · rcases List.mem_append.mp h5 with h6 | h6
                · exact htag _ h6 rfl
                · exact hattrs _ h6 rfl
              · rcases List.mem_cons.mp h5 with h6 | h6
                · exact absurd h6 (by decide)
                · exact htext _ h6 rfl
            · exact hch _ h4 rfl
          · rcases List.mem_cons.mp h3 with h4 | h4
            · exact absurd h4 (by decide)
            · rcases List.mem_cons.mp h4 with h5 | h5
              · exact absurd h5 (by decide)
              · exact htag _ h5 rfl
        · exact absurd h2 (by decide)
  · exact absurd hc1 (by decide)

theorem dropToDeclEnd_sub (l : List Char) : ∀ (r : List Char),
    dropToDeclEnd l = some r → ∀ c ∈ r, c ∈ l := by
  induction l with
  | nil =>
    intro r h
    exact Option.noConfusion h
  | cons c0 rest ih =>
    intro r h c hc
    rw [dropToDeclEnd.eq_def] at h
    split at h
    · rename_i heq
      exact List.noConfusion heq
    · rename_i c1 rest1 heq
      injection heq with e1 e2
      subst e1
      subst e2
      split at h
      · split at h
        · rename_i rest2
          injection h with e
          subst e
          exact List.mem_cons_of_mem _ (List.mem_cons_of_mem _ hc)
        · exact List.mem_cons_of_mem _ (ih r h c hc)
      · exact List.mem_cons_of_mem _ (ih r h c hc)

theorem dropDecl_sub (cs : List Char) (r : List Char) (h : dropDecl cs = some r) :
    ∀ c ∈ r, c ∈ cs := by
  rw [dropDecl.eq_def] at h
  split at h
  · rename_i c1 c2 rest
    split at h
    · intro c hc
      exact List.mem_cons_of_mem _
        (List.mem_cons_of_mem _ (dropToDeclEnd_sub rest r h c hc))
    · injection h with e
      subst e
      exact fun c hc => hc
  · injection h with e
    subst e
    exact fun c hc => hc

mutual

/-- The printed form of a canonical value contains no carriage return. -/
theorem toXml_crfree : ∀ (v : JValue) (tag : String), elemCanon v = true →
    validNameB tag = true → ∀ c ∈ toXml v tag, ¬(c = '\r')
  | JValue.null, tag, hv, htag => by simp [elemCanon] at hv
  | JValue.arr items, tag, hv, htag => by simp [elemCanon] at hv
  | JValue.str s, tag, hv, htag => by
      have htok : textOk s = true := hv
      rw [show toXml (JValue.str s) tag
          = renderCore tag [] (escText s.data) [] ++ ['\n'] from rfl]
      exact renderCore_crfree tag [] (escText s.data) []
        (validName_chars htag)
        (fun c hc => absurd hc (List.not_mem_nil _))
        (escText_crfree (textOk_parts htok).2)
        (fun c hc => absurd hc (List.not_mem_nil _))
  | JValue.obj kvs, tag, hv, htag => by
      have hkv := toXmlKV_crfree kvs
      have hsplit := elemCanon_obj_split kvs hv
      rw [show toXml (JValue.obj kvs) tag
          = renderCore tag (objAttrs kvs) (objText kvs) (toXmlKV kvs) ++ ['\n'] from rfl]
      have hattrs : ∀ c ∈ objAttrs kvs, ¬(c = '\r') := by
        rcases hsplit with hct | hha
        · rw [(kvParts kvs false hct).2.1.1]
          exact fun c hc => absurd hc (List.not_mem_nil _)
        · obtain ⟨avs, rest, heq, hane, hallA, hct⟩ := headAttrsOk_cases kvs hha
          subst heq
          rw [show objAttrs (("@attributes", JValue.obj avs) :: rest)
              = avs.flatMap attrChars ++ objAttrs rest from rfl,
            (kvParts rest true hct).2.1.1, List.append_nil]
          intro c hc
          obtain ⟨a, ha, hca⟩ := List.mem_flatMap.mp hc
          exact attrChars_crfree (hallA a ha) c hca
      have htext : ∀ c ∈ objText kvs, ¬(c = '\r') := by
        rcases hsplit with hct | hha
        · rcases (kvParts kvs false hct).1 with ⟨ho, _⟩ | ⟨t, htne, htok, ho, _⟩
          · rw [ho]
            exact fun c hc => absurd hc (List.not_mem_nil _)
          · rw [ho]
            exact escText_crfree (textOk_parts htok).2
        · obtain ⟨avs, rest, heq, hane, hallA, hct⟩ := headAttrsOk_cases kvs hha
          subst heq
          rw [show objText (("@attributes", JValue.obj avs) :: rest)
              = objText rest from rfl]
          rcases (kvParts rest true hct).1 with ⟨ho, _⟩ | ⟨t, htne, htok, ho, _⟩
          · rw [ho]
            exact fun c hc => absurd hc (List.not_mem_nil _)
          · rw [ho]
            exact escText_crfree (textOk_parts htok).2
      exact renderCore_crfree tag (objAttrs kvs) (objText kvs) (toXmlKV kvs)
        (validName_chars htag) hattrs htext (hkv false hsplit)

/-- The printed child fields of a canonical object contain no carriage
return. -/
theorem toXmlKV_crfree : ∀ (kvs : List (String × JValue)) (b : Bool),
    (childTextCanon kvs b = true ∨ headAttrsOk kvs = true) →
    ∀ c ∈ toXmlKV kvs, ¬(c = '\r')
  | [], b, h => fun c hc => absurd hc (List.not_mem_nil _)
  | (k, v) :: rest, b, h => by
      have hX := toXml_crfree v
      have hKV := toXmlKV_crfree rest
      cases v with
      | null =>
        exfalso
        rcases h with hct | hha
        · rcases childTextCanon_cases _ _ hct with ⟨heq, _⟩ |
            ⟨t, heq, hb, htne, htok⟩ |
            ⟨k2, v2, rest2, heq, hk2, hdist2, hval2, hctr2⟩
          · exact absurd heq (by simp)
          · injection heq with e1 e2
            injection e1 with ek ev
            exact absurd ev (by simp)
          · injection heq with e1 e2
            injection e1 with ek ev
            subst ev
            rcases hval2 with ⟨items, hvi, _, _⟩ | hev
            · exact absurd hvi (by simp)
            · simp [elemCanon] at hev
        · obtain ⟨avs, rest2, heq, _, _, _⟩ := headAttrsOk_cases _ hha
          injection heq with e1 e2
          injection e1 with ek ev
          exact absurd ev (by simp)
      | str s =>
        rcases h with hct | hha
        · rcases childTextCanon_cases _ _ hct with ⟨heq, _⟩ |
            ⟨t, heq, hb, htne, htok⟩ |
            ⟨k2, v2, rest2, heq, hk2, hdist2, hval2, hctr2⟩
          · exact absurd heq (by simp)
          · injection heq with e1 e2
            injection e1 with ek ev
            subst ek
            subst e2
            intro c hc
            have hc2 : c ∈ ([] : List Char) := hc
            exact absurd hc2 (List.not_mem_nil _)
          · injection heq with e1 e2
            injection e1 with ek ev
            subst ek
            subst e2
            rcases hval2 with ⟨items, hvi, _, _⟩ | hev
            · rw [← ev] at hvi
              exact absurd hvi (by simp)
            · subst ev
              have hneg : ¬((decide (k = "@attributes")
                  || decide (k = "#text")) = true) := by
                rw [decide_eq_false (validNameB_ne_attrs hk2),
                  decide_eq_false (validNameB_ne_text hk2)]
                simp
              have e0 : toXmlKV ((k, JValue.str s) :: rest)
                  = toXml (JValue.str s) k ++ toXmlKV rest := by
                simp only [toXmlKV]
                rw [if_neg hneg]
              intro c hc
              rw [e0] at hc
              rcases List.mem_append.mp hc with h1 | h1
              · exact hX k hev hk2 c h1
              · exact hKV true (Or.inl hctr2) c h1
        · obtain ⟨avs, rest2, heq, _, _, _⟩ := headAttrsOk_cases _ hha
          injection heq with e1 e2
          injection e1 with ek ev
          exact absurd ev (by simp)
      | obj o =>
        rcases h with hct | hha
        · rcases childTextCanon_cases _ _ hct with ⟨heq, _⟩ |
            ⟨t, heq, hb, htne, htok⟩ |
            ⟨k2, v2, rest2, heq, hk2, hdist2, hval2, hctr2⟩
          · exact absurd heq (by simp)
          · injection heq with e1 e2
            injection e1 with ek ev
            exact absurd ev (by simp)
          · injection heq with e1 e2
            injection e1 with ek ev
            subst ek
            subst e2
            rcases hval2 with ⟨items, hvi, _, _⟩ | hev
            · rw [← ev] at hvi
              exact absurd hvi (by simp)
            · subst ev
              have hneg : ¬((decide (k = "@attributes")
                  || decide (k = "#text")) = true) := by
                rw [decide_eq_false (validNameB_ne_attrs hk2),
                  decide_eq_false (validNameB_ne_text hk2)]
                simp
              have e0 : toXmlKV ((k, JValue.obj o) :: rest)
                  = toXml (JValue.obj o) k ++ toXmlKV rest := by
                simp only [toXmlKV]
                rw [if_neg hneg]
              intro c hc
              rw [e0] at hc
              rcases List.mem_append.mp hc with h1 | h1
              · exact hX k hev hk2 c h1
              · exact hKV true (Or.inl hctr2) c h1
        · obtain ⟨avs, rest2, heq, hane, hallA, hctr⟩ := headAttrsOk_cases _ hha
          injection heq with e1 e2
          injection e1 with ek ev
          subst ek
          injection ev with eo
          subst eo
          subst e2
          intro c hc
          rw [show toXmlKV (("@attributes", JValue.obj o) :: rest)
              = toXmlKV rest from rfl] at hc
          exact hKV true (Or.inl hctr) c hc
      | arr items =>
        rcases h with hct | hha
        · rcases childTextCanon_cases _ _ hct with ⟨heq, _⟩ |
            ⟨t, heq, hb, htne, htok⟩ |
            ⟨k2, v2, rest2, heq, hk2, hdist2, hval2, hctr2⟩
          · exact absurd heq (by simp)
          · injection heq with e1 e2
            injection e1 with ek ev
            exact absurd ev (by simp)
          · injection heq with e1 e2
            injection e1 with ek ev
            subst ek
            subst e2
            rcases hval2 with ⟨items2, hvi, hlen2, hlc2⟩ | hev
            · rw [← ev] at hvi
              injection hvi with e3
              subst e3
              have hneg : ¬((decide (k = "@attributes")
                  || decide (k = "#text")) = true) := by
                rw [decide_eq_false (validNameB_ne_attrs hk2),
                  decide_eq_false (validNameB_ne_text hk2)]
                simp
              have e0 : toXmlKV ((k, JValue.arr items) :: rest)
                  = toXmlL items k ++ toXmlKV rest := by
                simp only [toXmlKV]
                rw [if_neg hneg]
                rfl
              intro c hc
              rw [e0] at hc
              rcases List.mem_append.mp hc with h1 | h1
              · exact toXmlL_crfree items k hlc2 hk2 c h1
              · exact hKV true (Or.inl hctr2) c h1
            · rw [← ev] at hev
              simp [elemCanon] at hev
        · obtain ⟨avs, rest2, heq, _, _, _⟩ := headAttrsOk_cases _ hha
          injection heq with e1 e2
          injection e1 with ek ev
          exact absurd ev (by simp)

/-- The printed form of a canonical array field contains no carriage
return. -/
theorem toXmlL_crfree : ∀ (items : List JValue) (tag : String),
    listElemCanon items = true → validNameB tag = true →
    ∀ c ∈ toXmlL items tag, ¬(c = '\r')
  | [], tag, _, _ => fun c hc => absurd hc (List.not_mem_nil _)
  | v :: vs, tag, h, htag => by
      have hX := toXml_crfree v
      have hL := toXmlL_crfree vs
      rw [listElemCanon, Bool.and_eq_true] at h
      intro c hc
      rw [show toXmlL (v :: vs) tag = toXml v tag ++ toXmlL vs tag from rfl] at hc
      rcases List.mem_append.mp hc with h1 | h1
      · exact hX tag h.1 htag c h1
      · exact hL tag h.2 htag c h1

end

theorem parseElementF_elem : ∀ (fuel : Nat) (input : List Char) (nd : XNode)
    (r : List Char), parseElementF fuel input = some (nd, r) →
    ∃ n a c, nd = XNode.elem n a c
  | 0, input, nd, r, h => Option.noConfusion h
  | Nat.succ fuel, input, nd, r, h => by
      rw [parseElementF.eq_def] at h
      repeat
        first
        | exact Option.noConfusion h
        | (injection h with e0
           injection e0 with e1 e2
           exact ⟨_, _, _, e1.symm⟩)
        | split at h

/-- A successful parse yields a canonical value and a valid root name. -/
theorem parseXML_canon {s : String} {doc : JValue} {root : String}
    (h : parseXML s = some (doc, root)) :
    elemCanon doc = true ∧ validNameB root = true := by
  simp only [parseXML] at h
  split at h
  · exact Option.noConfusion h
  · rename_i cs1 heq1
    split at h
    · rename_i nd rest2 heq2
      split at h
      · injection h with e0
        injection e0 with ed er
        have hcr : ∀ c ∈ cs1.dropWhile xmlWS, ¬(c = '\r') := by
          intro c hc
          exact normalizeEOL_crfree s.data c
            (dropDecl_sub _ cs1 heq1 c ((List.dropWhile_sublist _).subset hc))
        have hnode := ((parse_canon ((normalizeEOL s.data).length + 1)).1
          (cs1.dropWhile xmlWS) nd rest2 hcr heq2).1
        obtain ⟨n, a, c, he⟩ := parseElementF_elem _ _ _ _ heq2
        subst he
        have hnode2 : (validNameB n && a.all attrRawOk && nodesCanon c) = true := hnode
        rw [Bool.and_eq_true, Bool.and_eq_true] at hnode2
        constructor
        · rw [← ed]
          exact xmlToJson_canon (XNode.elem n a c) hnode n a c rfl
        · rw [← er]
          exact hnode2.1.1
      · exact Option.noConfusion h
    · exact Option.noConfusion h

/-- Claim C1: decode/encode round trip. For every document and root name
produced by parseXML, printing them with jsonToXml (wrapped at the virtual
root path) and parsing the printed text again returns exactly the same
document and root name: same attribute mappings, same #text payloads, same
child keys and sequence contents. -/
theorem xml_roundtrip (s : String) (doc : JValue) (root : String)
    (h : parseXML s = some (doc, root)) :
    parseXML (jsonToXml (JValue.obj [(root, doc)]) root) = some (doc, root) := by
  obtain ⟨hdoc, hroot⟩ := parseXML_canon h
  have hlook : (lookupKey [(root, doc)] root).getD JValue.null = doc := by
    rw [lookupKey]
    simp
  rw [show jsonToXml (JValue.obj [(root, doc)]) root
      = (⟨"<?xml version=\"1.0\" encoding=\"UTF-8\"?>\n".data ++ toXml doc root⟩ : String)
      from by rw [jsonToXml, hlook]]
  have hdata : (⟨"<?xml version=\"1.0\" encoding=\"UTF-8\"?>\n".data
      ++ toXml doc root⟩ : String).data
      = "<?xml version=\"1.0\" encoding=\"UTF-8\"?>\n".data ++ toXml doc root := rfl
  have hcrall : ∀ c ∈ "<?xml version=\"1.0\" encoding=\"UTF-8\"?>\n".data
      ++ toXml doc root, ¬(c = '\r') := by
    intro c hc
    rcases List.mem_append.mp hc with h1 | h1
    · intro he
      subst he
      exact absurd h1 (by decide)
    · exact toXml_crfree doc root hdoc hroot c h1
  have hnorm : normalizeEOL ("<?xml version=\"1.0\" encoding=\"UTF-8\"?>\n".data
      ++ toXml doc root) = "<?xml version=\"1.0\" encoding=\"UTF-8\"?>\n".data
      ++ toXml doc root := normalizeEOL_id _ hcrall
  have hdropd : dropDecl ("<?xml version=\"1.0\" encoding=\"UTF-8\"?>\n".data
      ++ toXml doc root) = some ('\n' :: toXml doc root) := rfl
  obtain ⟨tl0, htl0⟩ := toXml_lt root hdoc
  have hdw : ('\n' :: toXml doc root).dropWhile xmlWS = toXml doc root := by
    rw [List.dropWhile_cons, if_pos (by decide)]
    exact dropWhile_eq_self_of_head xmlWS _ (fun c hc => by
      rw [htl0] at hc
      injection hc with e
      subst e
      decide)
  obtain ⟨n0, hn0le, hspec⟩ := parseElem_complete doc root hdoc hroot
  have hlen : (toXml doc root).length = (coreOf doc root).length + 1 := by
    rw [toXml_core root hdoc, List.length_append]
    rfl
  have hfuel2 : n0 ≤ ("<?xml version=\"1.0\" encoding=\"UTF-8\"?>\n".data
      ++ toXml doc root).length + 1 := by
    rw [List.length_append]
    omega
  have hpe2 : parseElementF (("<?xml version=\"1.0\" encoding=\"UTF-8\"?>\n".data
      ++ toXml doc root).length + 1) (toXml doc root)
      = some (nodeOf doc root, ['\n']) := by
    have h2 := hspec _ hfuel2 ['\n']
    rw [← toXml_core root hdoc] at h2
    exact h2
  simp only [parseXML, hdata, hnorm, hdropd, hdw, hpe2]
  rw [if_pos (show ((['\n'].dropWhile xmlWS).isEmpty) = true by decide)]
  rw [xmlToJson_nodeOf doc root hdoc]
  obtain ⟨a1, c1, he1⟩ := nodeOf_is_elem doc root
  rw [he1]
  rfl

/-- Claim C1 witness: the round trip at the concrete parse
`<a>hi</a> ↦ (str "hi", "a")`. -/
theorem xml_roundtrip_witness :
    parseXML (jsonToXml (JValue.obj [("a", JValue.str "hi")]) "a")
      = some (JValue.str "hi", "a") :=
  xml_roundtrip "<a>hi</a>" (JValue.str "hi") "a" (by decide)
